import Mathlib

/-!
Verification development for the LSM-tree storage engine of the
lstm-visualizer repository.

The engine consists of three JavaScript components:
 * `MemTable` (write buffer)        — src/unnamed/part_004
 * `SSTable` (sorted run) + `LSMTree` (engine) — src/src/core/sstable.js
 * `sstableGet` binary search and id generation — src/unnamed/part_003 (utils)
 * the older inline engine variant and the constants
   (`TOMBSTONE = "__DELETED__"`, defaults 5/3/4/10/5) — src/src/app/page.js

Modelling conventions, stated once here and referenced below:
 * Keys and values are Lean `String`s.  JavaScript compares keys both with
   `<` (code-unit order) and `localeCompare`; the spec (§4.1) treats both as
   one lexicographic order, and the embedding follows the spec: both are
   modelled by the single lexicographic comparison `strLtb` below.
 * SSTable identifiers are generated in JS from wall clock plus randomness,
   with the stated contract (spec §9) that newer tables compare larger.
   The embedding uses a `Nat` counter (`nextId` in the engine state), the
   substitute explicitly recommended by spec §9.
 * The activity log (timestamped strings, bounded at 100) is observational
   only ("purely observational, not used by any algorithm", spec §3) and
   depends on wall-clock time, so it is omitted from the state.  The
   `mutationOrder` field of MemTable is likewise written but never read by
   any code, and is omitted.
 * JavaScript `Array.prototype.sort` is stable (ES2019); sorts are modelled
   by a stable insertion sort `sortLe`.
-/

namespace LSMV

/-! ## Lexicographic key order

`strLtbGo` is lexicographic comparison of char lists; `strLtb a b` models
both of JavaScript's `a < b` on strings and `a.localeCompare(b) < 0`. -/

def strLtbGo : List Char → List Char → Bool
  | [], [] => false
  | [], _ :: _ => true
  | _ :: _, [] => false
  | c :: cs, d :: ds => if c < d then true else if d < c then false else strLtbGo cs ds

def strLtb (a b : String) : Bool := strLtbGo a.data b.data

theorem strLtbGo_irrefl (l : List Char) : strLtbGo l l = false := by
  induction l with
  | nil => rfl
  | cons c cs ih => simp [strLtbGo, ih]

theorem strLtbGo_asymm {l m : List Char} (h : strLtbGo l m = true) :
    strLtbGo m l = false := by
  induction l generalizing m with
  | nil =>
    cases m with
    | nil => simp [strLtbGo] at h ⊢
    | cons d ds => simp [strLtbGo]
  | cons c cs ih =>
    cases m with
    | nil => simp [strLtbGo] at h
    | cons d ds =>
      simp only [strLtbGo] at h ⊢
      rcases lt_trichotomy c d with hcd | hcd | hcd
      · simp [hcd, not_lt_of_gt hcd]
      · subst hcd
        simp only [lt_irrefl, if_false] at h ⊢
        exact ih h
      · simp [hcd, not_lt_of_gt hcd] at h

theorem strLtbGo_trans {l m n : List Char} (h₁ : strLtbGo l m = true)
    (h₂ : strLtbGo m n = true) : strLtbGo l n = true := by
  induction l generalizing m n with
  | nil =>
    cases n with
    | nil =>
      cases m with
      | nil => exact h₁
      | cons d ds => simp [strLtbGo] at h₂
    | cons e es => simp [strLtbGo]
  | cons c cs ih =>
    cases m with
    | nil => simp [strLtbGo] at h₁
    | cons d ds =>
      cases n with
      | nil => simp [strLtbGo] at h₂
      | cons e es =>
        simp only [strLtbGo] at h₁ h₂ ⊢
        rcases lt_trichotomy c d with hcd | hcd | hcd
        · rcases lt_trichotomy d e with hde | hde | hde
          · simp [lt_trans hcd hde]
          · subst hde; simp [hcd]
          · simp [hde, not_lt_of_gt hde] at h₂
        · subst hcd
          rcases lt_trichotomy c e with hce | hce | hce
          · simp [hce]
          · subst hce
            simp only [lt_irrefl, if_false] at h₁ h₂ ⊢
            exact ih h₁ h₂
          · simp [hce, not_lt_of_gt hce] at h₂
        · simp [hcd, not_lt_of_gt hcd] at h₁

theorem strLtbGo_total {l m : List Char} (h₁ : strLtbGo l m = false)
    (h₂ : strLtbGo m l = false) : l = m := by
  induction l generalizing m with
  | nil =>
    cases m with
    | nil => rfl
    | cons d ds => simp [strLtbGo] at h₁
  | cons c cs ih =>
    cases m with
    | nil => simp [strLtbGo] at h₂
    | cons d ds =>
      simp only [strLtbGo] at h₁ h₂
      rcases lt_trichotomy c d with hcd | hcd | hcd
      · simp [hcd] at h₁
      · subst hcd
        simp only [lt_irrefl, if_false] at h₁ h₂
        rw [ih h₁ h₂]
      · simp [hcd] at h₂

theorem strLtb_irrefl (a : String) : strLtb a a = false := strLtbGo_irrefl _

theorem strLtb_asymm {a b : String} (h : strLtb a b = true) : strLtb b a = false :=
  strLtbGo_asymm h

theorem strLtb_trans {a b c : String} (h₁ : strLtb a b = true)
    (h₂ : strLtb b c = true) : strLtb a c = true := strLtbGo_trans h₁ h₂

theorem strLtb_total {a b : String} (h₁ : strLtb a b = false)
    (h₂ : strLtb b a = false) : a = b := by
  have h := strLtbGo_total h₁ h₂
  exact congrArg String.mk h

theorem strLtb_ne {a b : String} (h : strLtb a b = true) : a ≠ b := by
  intro hab; subst hab; simp [strLtb_irrefl] at h

/-! ## Generic association-list and sorting helpers -/

/-- Entry of a run or of the write buffer: a `(key, value)` pair. -/
abbrev Entry := String × String

/-- First value associated to key `k`, mirroring `Map.get` on an
insertion-ordered association list. -/
def findVal (k : String) : List Entry → Option String
  | [] => none
  | e :: rest => if e.1 = k then some e.2 else findVal k rest

theorem findVal_append (k : String) (l₁ l₂ : List Entry) :
    findVal k (l₁ ++ l₂) = (findVal k l₁).or (findVal k l₂) := by
  induction l₁ with
  | nil => simp [findVal]
  | cons e rest ih =>
    by_cases h : e.1 = k <;> simp [findVal, h, ih]

theorem findVal_eq_none {k : String} {l : List Entry}
    (h : ∀ e ∈ l, e.1 ≠ k) : findVal k l = none := by
  induction l with
  | nil => rfl
  | cons e rest ih =>
    simp only [findVal, if_neg (h e (by simp))]
    exact ih fun e' he' => h e' (by simp [he'])

theorem findVal_isSome_iff {k : String} {l : List Entry} :
    (findVal k l).isSome = true ↔ k ∈ l.map Prod.fst := by
  induction l with
  | nil => simp [findVal]
  | cons e rest ih =>
    by_cases h : e.1 = k
    · simp [findVal, h]
    · simp [findVal, h, ih, Ne.symm h]

theorem findVal_mem {k v : String} {l : List Entry}
    (h : findVal k l = some v) : (k, v) ∈ l := by
  induction l with
  | nil => simp [findVal] at h
  | cons e rest ih =>
    by_cases he : e.1 = k
    · simp only [findVal, if_pos he] at h
      obtain ⟨e1, e2⟩ := e
      simp_all
    · simp only [findVal, if_neg he] at h
      exact List.mem_cons_of_mem _ (ih h)

/-- Stable insertion of `a` into `l` with respect to the boolean
preorder `le`. -/
def insertLe (le : α → α → Bool) (a : α) : List α → List α
  | [] => [a]
  | b :: rest => if le a b then a :: b :: rest else b :: insertLe le a rest

/-- Stable insertion sort, modelling JavaScript's stable `Array.sort`. -/
def sortLe (le : α → α → Bool) (l : List α) : List α := l.foldr (insertLe le) []

theorem insertLe_perm (le : α → α → Bool) (a : α) (l : List α) :
    List.Perm (insertLe le a l) (a :: l) := by
  induction l with
  | nil => simp [insertLe]
  | cons b rest ih =>
    by_cases h : le a b
    · simp [insertLe, h]
    · simp only [insertLe, h, if_false]
      exact (ih.cons b).trans (List.Perm.swap a b rest)

theorem sortLe_perm (le : α → α → Bool) (l : List α) :
    List.Perm (sortLe le l) l := by
  induction l with
  | nil => simp [sortLe]
  | cons a rest ih =>
    simp only [sortLe, List.foldr_cons]
    exact (insertLe_perm le a _).trans (ih.cons a)

theorem insertLe_sorted (le : α → α → Bool)
    (htrans : ∀ a b c, le a b = true → le b c = true → le a c = true)
    (htot : ∀ a b, le a b = true ∨ le b a = true) (a : α) {l : List α}
    (h : l.Pairwise (fun x y => le x y = true)) :
    (insertLe le a l).Pairwise (fun x y => le x y = true) := by
  induction l with
  | nil => simp [insertLe]
  | cons b rest ih =>
    rcases List.pairwise_cons.mp h with ⟨hb, hrest⟩
    by_cases hab : le a b
    · simp only [insertLe, hab, if_true]
      refine List.pairwise_cons.mpr ⟨?_, h⟩
      intro x hx
      rcases List.mem_cons.mp hx with hx | hx
      · subst hx; exact hab
      · exact htrans a b x hab (hb x hx)
    · simp only [insertLe, hab, if_false]
      refine List.pairwise_cons.mpr ⟨?_, ih hrest⟩
      intro x hx
      have hx' := (insertLe_perm le a rest).mem_iff.mp hx
      rcases List.mem_cons.mp hx' with hx' | hx'
      · rw [hx']
        rcases htot b a with h' | h'
        · exact h'
        · exact absurd h' hab
      · exact hb x hx'

theorem sortLe_sorted (le : α → α → Bool)
    (htrans : ∀ a b c, le a b = true → le b c = true → le a c = true)
    (htot : ∀ a b, le a b = true ∨ le b a = true) (l : List α) :
    (sortLe le l).Pairwise (fun x y => le x y = true) := by
  induction l with
  | nil => simp [sortLe]
  | cons a rest ih =>
    simp only [sortLe, List.foldr_cons]
    exact insertLe_sorted le htrans htot a ih

/-! ## Constants

From src/src/app/page.js lines 23-27 (the constants module imported by the
core is not in the source tree, but page.js defines the same names with the
same values, matching spec §3's stated defaults 5/3/4/10/5). -/

def MEMTABLE_DEFAULT_MAX_SIZE : Nat := 5

def L0_DEFAULT_MAX_SSTABLES : Nat := 3

def LEVEL_MAX_SSTABLES_FACTOR : Nat := 4

def SSTABLE_DEFAULT_MAX_ITEMS : Nat := 10

def MAX_LEVELS : Nat := 5

/-- Reserved sentinel marking logical deletion (page.js line 27). -/
def TOMBSTONE : String := "__DELETED__"

/-! ## The binary search `sstableGet` (src/unnamed/part_003)

JavaScript works with `low`, `high` as numbers, with `high` possibly `-1`,
so the embedding uses `Int` indices.  `Math.floor((low + high) / 2)` is
floor division, i.e. `Int.ediv`.  The `data[mid]` access is always in
bounds when `0 ≤ low ≤ mid ≤ high < data.length`; the out-of-bounds case
(unreachable from the actual call `sstableGet data key` below) is modelled
as returning `none`. -/

def sstableGetGo (data : List Entry) (key : String) :
    Nat → Int → Int → Option String
  | 0, _, _ => none
  | fuel + 1, low, high =>
    if low ≤ high then
      let mid : Int := Int.ediv (low + high) 2
      match data[mid.toNat]? with
      | none => none
      | some e =>
        if e.1 = key then some e.2
        else if strLtb e.1 key then sstableGetGo data key fuel (mid + 1) high
        else sstableGetGo data key fuel low (mid - 1)
    else none

/-- Binary search over a sorted entry array (src/unnamed/part_003,
`sstableGet`).  The extra `Nat` argument of `sstableGetGo` is fuel making
the recursion structural (so the definition evaluates in the kernel);
since `low ≤ mid ≤ high`, every iteration shrinks `high + 1 - low` by at
least one, hence `data.length + 1` iterations always suffice and the fuel
is never exhausted on this call. -/
def sstableGet (data : List Entry) (key : String) : Option String :=
  sstableGetGo data key (data.length + 1) 0 ((data.length : Int) - 1)

/-! ## SSTable (src/src/core/sstable.js lines 3-31)

The constructor caches `minKey`/`maxKey` from the (never mutated) sorted
data, so they are modelled as derived functions of `data`. -/

structure SSTable where
  id : Nat
  level : Nat
  data : List Entry
deriving Repr, DecidableEq

def SSTable.minKey? (t : SSTable) : Option String := t.data.head?.map Prod.fst

def SSTable.maxKey? (t : SSTable) : Option String := t.data.getLast?.map Prod.fst

/-- JavaScript truthiness of a (possibly null) key: `null` and the empty
string are falsy. -/
def keyTruthy : Option String → Bool
  | none => false
  | some s => s ≠ ""

/-- Point lookup delegated to the binary search (sstable.js lines 13-15). -/
def SSTable.get (t : SSTable) (key : String) : Option String :=
  sstableGet t.data key

/-- Logical content of a run (reference function for proofs; agrees with
`SSTable.get` on sorted data, see `sstableGet_eq_findVal`). -/
def SSTable.find (t : SSTable) (key : String) : Option String :=
  findVal key t.data

/-- Range-overlap test (sstable.js lines 26-30).  The arguments are the
other range's min and max keys, `none` standing for JavaScript `null`. -/
def SSTable.overlapsB (t : SSTable) (minK maxK : Option String) : Bool :=
  if ¬ keyTruthy t.minKey? ∨ ¬ keyTruthy t.maxKey? ∨ ¬ keyTruthy minK ∨ ¬ keyTruthy maxK
  then false
  else !strLtb (maxK.getD "") (t.minKey?.getD "") &&
       !strLtb (t.maxKey?.getD "") (minK.getD "")

/-! ## MemTable (src/unnamed/part_004)

`data` is a JavaScript `Map`, i.e. an insertion-ordered association list
with at most one entry per key; `Map.set` of a present key updates the
value in place keeping the position, otherwise it appends. -/

structure MemTable where
  maxSize : Nat
  data : List Entry
deriving Repr, DecidableEq

def MemTable.put (m : MemTable) (k v : String) : MemTable :=
  if (m.data.map Prod.fst).contains k then
    { m with data := m.data.map fun e => if e.1 = k then (k, v) else e }
  else
    { m with data := m.data ++ [(k, v)] }

def MemTable.get (m : MemTable) (k : String) : Option String := findVal k m.data

/-- Deleting is putting a tombstone (part_004 lines 30-33). -/
def MemTable.delete (m : MemTable) (k : String) : MemTable := m.put k TOMBSTONE

def MemTable.isFull (m : MemTable) : Bool := m.data.length ≥ m.maxSize

/-- Entry comparison used by every key sort in the source
(`a[0].localeCompare(b[0])`). -/
def entryLeB (a b : Entry) : Bool := !strLtb b.1 a.1

/-- Sorted snapshot produced by `MemTable.flush` (the buffer itself is
cleared by the caller's state update). -/
def MemTable.flushData (m : MemTable) : List Entry := sortLe entryLeB m.data

/-! ## Engine configuration and metrics (sstable.js lines 46-68) -/

structure Config where
  memtableMaxSize : Nat
  l0MaxSSTables : Nat
  levelMaxSSTablesFactor : Nat
  sstableMaxItems : Nat
  maxLevels : Nat
deriving Repr, DecidableEq

/-- Constructor input: absent fields model JavaScript `undefined`. -/
structure ConfigInput where
  memtableMaxSize : Option Nat := none
  l0MaxSSTables : Option Nat := none
  levelMaxSSTablesFactor : Option Nat := none
  sstableMaxItems : Option Nat := none
  maxLevels : Option Nat := none

/-- JavaScript `x || d` for a numeric option: `undefined` and `0` are
falsy and fall back to the default. -/
def orDefault (x : Option Nat) (d : Nat) : Nat :=
  match x with
  | none => d
  | some n => if n = 0 then d else n

def resolveConfig (c : ConfigInput) : Config where
  memtableMaxSize := orDefault c.memtableMaxSize MEMTABLE_DEFAULT_MAX_SIZE
  l0MaxSSTables := orDefault c.l0MaxSSTables L0_DEFAULT_MAX_SSTABLES
  levelMaxSSTablesFactor :=
    orDefault c.levelMaxSSTablesFactor LEVEL_MAX_SSTABLES_FACTOR
  sstableMaxItems := orDefault c.sstableMaxItems SSTABLE_DEFAULT_MAX_ITEMS
  maxLevels := orDefault c.maxLevels MAX_LEVELS

structure Metrics where
  logicalWrites : Nat := 0
  itemsWrittenToSSTables : Nat := 0
  logicalReads : Nat := 0
  sstablesAccessedForRead : Nat := 0
  memtableLookupsForRead : Nat := 0
deriving Repr, DecidableEq

/-! ## Engine state (sstable.js lines 45-68) -/

structure LSM where
  config : Config
  memtable : MemTable
  levels : List (List SSTable)
  nextId : Nat
  metrics : Metrics
deriving Repr, DecidableEq

/-- Constructor `new LSMTree(config)` (sstable.js lines 46-68). -/
def LSM.init (c : ConfigInput) : LSM where
  config := resolveConfig c
  memtable := ⟨(resolveConfig c).memtableMaxSize, []⟩
  levels := List.replicate (resolveConfig c).maxLevels []
  nextId := 0
  metrics := {}

/-- Capacity of level `i` per the compaction trigger (sstable.js
lines 232-236): `l0MaxSSTables` for level 0, else
`l0MaxSSTables * levelMaxSSTablesFactor ^ i`. -/
def levelCapacity (c : Config) (i : Nat) : Nat :=
  if i = 0 then c.l0MaxSSTables else c.l0MaxSSTables * c.levelMaxSSTablesFactor ^ i

def LSM.levelAt (t : LSM) (i : Nat) : List SSTable := t.levels.getD i []

/-! ## Compaction (sstable.js lines 221-433)

`compact` recursively re-invokes the trigger check, which may call
`compact` again.  The JS recursion terminates on every state the engine
can actually reach (each merge moves at least one item down a level, see
`muMeasure` and the lemmas below); the embedding makes the recursion
structural by threading a fuel argument, and the public `LSM.compact`
instantiates the fuel with the provably sufficient bound `muMeasure t + 1`. -/

/-- Capacity-exceeded test of the trigger loop (sstable.js lines 232-237). -/
def overCap (t : LSM) (i : Nat) : Bool :=
  (t.levelAt i).length > levelCapacity t.config i

/-- Merge processing order (sstable.js lines 368-372): ascending level,
and inside a level descending id (newer table first). -/
def tableLeB (a b : SSTable) : Bool :=
  if a.level < b.level then true
  else if b.level < a.level then false
  else b.id ≤ a.id

/-- Order of levels ≥ 1 re-established after compaction (sstable.js
lines 419-424): ascending `minKey`, tables without a range first. -/
def minKeyLeB (a b : SSTable) : Bool :=
  match a.minKey?, b.minKey? with
  | none, _ => true
  | some _, none => false
  | some x, some y => !strLtb y x

/-- One step of building `mergedDataMap` (sstable.js lines 374-382): a key
is inserted only if not already present, so the first (newest) occurrence
wins. -/
def insertAbsent (m : List Entry) (e : Entry) : List Entry :=
  if (m.map Prod.fst).contains e.1 then m else m ++ [e]

/-- The `mergedDataMap` of a compaction, as an insertion-ordered
association list. -/
def mergeTables (ts : List SSTable) : List Entry :=
  ts.foldl (fun acc tb => tb.data.foldl insertAbsent acc) []

/-- Tombstone filter of the merge output (sstable.js lines 389-394): an
entry is kept unless it is a tombstone and `levelToCompact` is at least
`maxLevels - 2`. -/
def keepEntry (c : Config) (n : Nat) (e : Entry) : Bool :=
  (e.2 != TOMBSTONE) || decide (n < c.maxLevels - 2)

/-- Splitting a list into consecutive chunks of `m + 1` elements.  The
first argument is fuel bounding the number of chunks (each chunk consumes
at least one element, so the list's length suffices); it makes the
recursion structural so that the definition evaluates in the kernel. -/
def chunkGo (m : Nat) : Nat → List α → List (List α)
  | 0, _ => []
  | _, [] => []
  | fuel + 1, a :: rest =>
    ((a :: rest).take (m + 1)) :: chunkGo m fuel ((a :: rest).drop (m + 1))

/-- Chunking of the merged data by `sstableMaxItems` (sstable.js lines
402-415).  With `max = 0` the JS loop would not advance (unreachable:
the resolved configuration is positive); the model returns no chunks. -/
def chunkList (max : Nat) (l : List α) : List (List α) :=
  if max = 0 then [] else chunkGo (max - 1) l.length l

/-- Merged, tombstone-filtered, key-sorted compaction output
(`finalMergedData`, sstable.js lines 389-394). -/
def compactOutput (c : Config) (n : Nat) (src ovl : List SSTable) : List Entry :=
  sortLe entryLeB ((mergeTables (sortLe tableLeB (src ++ ovl))).filter (keepEntry c n))

/-- Overlap gathering for an L0 compaction (sstable.js lines 286-296):
every target-level table overlapping any source range, deduplicated by
id, in discovery order. -/
def gatherOverlapsL0 (src target : List SSTable) : List SSTable :=
  src.foldl
    (fun acc s =>
      if ¬ keyTruthy s.minKey? ∨ ¬ keyTruthy s.maxKey? then acc
      else
        target.foldl
          (fun acc2 tb =>
            if tb.overlapsB s.minKey? s.maxKey? ∧ ¬ acc2.any (fun o => o.id = tb.id)
            then acc2 ++ [tb] else acc2)
          acc)
    []

/-- Target-level tables kept through a compaction (sstable.js lines
337-340): those whose id is not among the overlap set's ids. -/
def compactKept (t : LSM) (n : Nat) (ovl : List SSTable) : List SSTable :=
  (t.levelAt (n + 1)).filter fun tb => ¬ ovl.any (fun o => o.id = tb.id)

/-- The chunks of the merged output (sstable.js lines 402-406). -/
def compactChunks (t : LSM) (n : Nat) (src ovl : List SSTable) :
    List (List Entry) :=
  chunkList t.config.sstableMaxItems (compactOutput t.config n src ovl)

/-- Fresh tables of level `lvl` from consecutive chunks with sequential
identifiers starting at `base` (the loop of sstable.js lines 402-415;
each iteration draws a fresh id). -/
def mkTables (lvl base : Nat) : List (List Entry) → List SSTable
  | [] => []
  | c :: rest => ⟨base, lvl, c⟩ :: mkTables lvl (base + 1) rest

def compactNewTables (t : LSM) (n : Nat) (src ovl : List SSTable) :
    List SSTable :=
  mkTables (n + 1) t.nextId (compactChunks t n src ovl)

/-- State change common to both compaction branches (sstable.js lines
333-425): remove the overlap set from the target level, merge, chunk into
fresh tables appended to the target, re-sort the target by `minKey`
(the JS `if (targetLevel > 0)` guard always holds since the target is
`n + 1`), and account the written items.  `srcRest` is what remains of
the source level. -/
def compactFinish (t : LSM) (n : Nat) (srcRest src ovl : List SSTable) : LSM :=
  { t with
    levels := (t.levels.set n srcRest).set (n + 1)
      (sortLe minKeyLeB (compactKept t n ovl ++ compactNewTables t n src ovl))
    nextId := t.nextId + (compactChunks t n src ovl).length
    metrics := { t.metrics with
      itemsWrittenToSSTables :=
        t.metrics.itemsWrittenToSSTables + (compactOutput t.config n src ovl).length } }

/-- One compaction without the trailing trigger re-check (sstable.js lines
243-425): `none` on the paths that return without merging (last level,
empty source), which leave the state unchanged apart from the log.  The
`allTablesToMerge.length === 0` restore path is subsumed: it can only run
with an empty source selection, which both branches exclude. -/
def compactStep (t : LSM) (n : Nat) : Option LSM :=
  if n + 1 ≥ t.config.maxLevels then none
  else if n = 0 then
    let L0 := t.levelAt 0
    let ovl := gatherOverlapsL0 L0 (t.levelAt 1)
    if L0.length ≤ t.config.l0MaxSSTables ∧ L0.length > 0 then
      some (compactFinish t 0 [] L0 ovl)
    else if L0.length > t.config.l0MaxSSTables then
      some (compactFinish t 0 [] L0 ovl)
    else none
  else
    match t.levelAt n with
    | [] => none
    | h :: rest =>
      let ovl :=
        if keyTruthy h.minKey? ∧ keyTruthy h.maxKey? then
          (t.levelAt (n + 1)).filter (fun tb => tb.overlapsB h.minKey? h.maxKey?)
        else []
      some (compactFinish t n rest [h] ovl)

/-- Termination measure: items weighted by distance from the last level.
Every real compaction strictly decreases it (`muMeasure_compactStep_lt`). -/
def muMeasure (t : LSM) : Nat :=
  (t.levels.enum.map
    (fun p => (t.config.maxLevels - p.1) * (p.2.map (fun tb => tb.data.length)).sum)).sum

/-- Index list scanned by `triggerCompactionIfNeeded` (sstable.js lines
221-241): the standalone L0 check, then the loop over levels
`0 .. maxLevels - 2`; the standalone check's condition coincides with the
loop's `i = 0` case, so the whole trigger is one scan of this list. -/
def triggerIdxs (c : Config) : List Nat := 0 :: List.range (c.maxLevels - 1)

/-- The `triggerCompactionIfNeeded` scan (sstable.js lines 221-241),
abstracted over the compaction routine it invokes; structural on the
index list so that it evaluates in the kernel. -/
def triggerAuxF (comp : LSM → Nat → LSM) : LSM → List Nat → LSM
  | t, [] => t
  | t, i :: is =>
    if overCap t i then triggerAuxF comp (comp t i) is
    else triggerAuxF comp t is

/-- Fuelled `LSMTree.compact` (sstable.js lines 243-433): the JS mutual
recursion compact → trigger → compact is unrolled with one fuel unit per
`compact` call, structurally on the fuel so that it evaluates in the
kernel.  `LSM.compact` below supplies a provably sufficient fuel. -/
def compactF : Nat → LSM → Nat → LSM
  | 0, t, _ => t
  | f + 1, t, n =>
    match compactStep t n with
    | none => t
    | some t2 => triggerAuxF (compactF f) t2 (triggerIdxs t2.config)

def LSM.compact (t : LSM) (n : Nat) : LSM := compactF (muMeasure t + 1) t n

def LSM.trigger (t : LSM) : LSM :=
  triggerAuxF (compactF (muMeasure t + 1)) t (triggerIdxs t.config)

/-! ## Flush and the write path (sstable.js lines 75-126, 205-219) -/

def LSM.flushMemTable (t : LSM) : LSM :=
  if t.memtable.data.length = 0 then t
  else
    let d := t.memtable.flushData
    let tb : SSTable := ⟨t.nextId, 0, d⟩
    { t with
      memtable := { t.memtable with data := [] }
      levels := t.levels.set 0 (t.levelAt 0 ++ [tb])
      nextId := t.nextId + 1
      metrics := { t.metrics with
        itemsWrittenToSSTables := t.metrics.itemsWrittenToSSTables + d.length } }

/-- Observable outcome of a write (spec §7's error taxonomy). -/
inductive WriteOutcome where
  | invalidKey
  | rejected
  | ok
deriving Repr, DecidableEq

/-- Flush the write buffer when it is full (sstable.js lines 80-82 and
the identical re-check at lines 96-98). -/
def LSM.flushIfFull (t : LSM) : LSM :=
  if t.memtable.isFull then t.flushMemTable else t

/-- The memtable insert together with the `logicalWrites` bump
(sstable.js lines 90-94). -/
def LSM.applyWrite (t : LSM) (k v : String) : LSM :=
  { t with
    memtable := t.memtable.put k v
    metrics := { t.metrics with logicalWrites := t.metrics.logicalWrites + 1 } }

/-- The write path `LSMTree.put` with its outcome (sstable.js lines
75-100): pre-write flush of a full buffer, rejection if still full,
otherwise insert, post-write flush, and the compaction trigger. -/
def LSM.putR (t : LSM) (k v : String) : LSM × WriteOutcome :=
  if k = "" then (t, .invalidKey)
  else if t.flushIfFull.memtable.isFull then (t.flushIfFull, .rejected)
  else (((t.flushIfFull.applyWrite k v).flushIfFull).trigger, .ok)

def LSM.put (t : LSM) (k v : String) : LSM := (t.putR k v).1

/-- The delete path (sstable.js lines 102-126) is the put path with
`memtable.delete`, i.e. a put of TOMBSTONE, statement for statement. -/
def LSM.deleteR (t : LSM) (k : String) : LSM × WriteOutcome := t.putR k TOMBSTONE

def LSM.delete (t : LSM) (k : String) : LSM := (t.deleteR k).1

/-! ## Read path (sstable.js lines 128-203) -/

/-- Target of one probe of the read path. -/
inductive ProbeTarget where
  | memtable
  | run (level : Nat) (id : Nat)
deriving Repr, DecidableEq

/-- Outcome recorded for one probe of the read path. -/
inductive ProbeStatus where
  | found
  | foundTombstone
  | notFound
deriving Repr, DecidableEq

structure ProbeStep where
  target : ProbeTarget
  status : ProbeStatus
deriving Repr, DecidableEq

/-- Skip test of the optimized read path (sstable.js lines 166-174):
levels ≥ 1 only, both cached bounds truthy, key strictly outside. -/
def skipRun (i : Nat) (tb : SSTable) (k : String) : Bool :=
  decide (i > 0) && keyTruthy tb.minKey? && keyTruthy tb.maxKey? &&
    (strLtb k (tb.minKey?.getD "") || strLtb (tb.maxKey?.getD "") k)

/-- Probe of one level's tables (already in probe order): value, probe
trace, number of tables accessed. -/
def searchTablesR (k : String) (i : Nat) :
    List SSTable → Option String × List ProbeStep × Nat
  | [] => (none, [], 0)
  | tb :: rest =>
    if skipRun i tb k then searchTablesR k i rest
    else
      match tb.get k with
      | some v =>
        if v = TOMBSTONE then (some TOMBSTONE, [⟨.run i tb.id, .foundTombstone⟩], 1)
        else (some v, [⟨.run i tb.id, .found⟩], 1)
      | none =>
        ((searchTablesR k i rest).1,
          ⟨.run i tb.id, .notFound⟩ :: (searchTablesR k i rest).2.1,
          (searchTablesR k i rest).2.2 + 1)

/-- Probe of the levels in ascending order; level 0 is probed newest to
oldest (reverse of storage order). -/
def searchLevelsR (k : String) :
    List (Nat × List SSTable) → Option String × List ProbeStep × Nat
  | [] => (none, [], 0)
  | (i, ts) :: rest =>
    match (searchTablesR k i (if i = 0 then ts.reverse else ts)).1 with
    | some v =>
      (some v, (searchTablesR k i (if i = 0 then ts.reverse else ts)).2.1,
        (searchTablesR k i (if i = 0 then ts.reverse else ts)).2.2)
    | none =>
      ((searchLevelsR k rest).1,
        (searchTablesR k i (if i = 0 then ts.reverse else ts)).2.1 ++
          (searchLevelsR k rest).2.1,
        (searchTablesR k i (if i = 0 then ts.reverse else ts)).2.2 +
          (searchLevelsR k rest).2.2)

/-- Read-metrics update of `get` (sstable.js lines 134-141 and 200-202):
one logical read, one memtable lookup, and `n` runs accessed.  The
memtable-hit branch of the source touches no run counter, which is the
`n = 0` instance. -/
def LSM.getBump (t : LSM) (n : Nat) : LSM :=
  { t with metrics := { t.metrics with
    logicalReads := t.metrics.logicalReads + 1
    memtableLookupsForRead := t.metrics.memtableLookupsForRead + 1
    sstablesAccessedForRead := t.metrics.sstablesAccessedForRead + n } }

/-- The full read `LSMTree.get` (sstable.js lines 128-203): result value,
probe path, and the state with updated metrics. -/
def LSM.getR (t : LSM) (k : String) : Option String × List ProbeStep × LSM :=
  if k = "" then (none, [], t)
  else
    match t.memtable.get k with
    | some v =>
      if v = TOMBSTONE then
        (some TOMBSTONE, [⟨.memtable, .foundTombstone⟩], t.getBump 0)
      else (some v, [⟨.memtable, .found⟩], t.getBump 0)
    | none =>
      ((searchLevelsR k t.levels.enum).1,
        ⟨.memtable, .notFound⟩ :: (searchLevelsR k t.levels.enum).2.1,
        t.getBump (searchLevelsR k t.levels.enum).2.2)

/-- Value-only projection of the optimized read path. -/
def searchTablesV (k : String) (i : Nat) : List SSTable → Option String
  | [] => none
  | tb :: rest =>
    if skipRun i tb k then searchTablesV k i rest
    else
      match tb.get k with
      | some v => some v
      | none => searchTablesV k i rest

def searchLevelsV (k : String) : List (Nat × List SSTable) → Option String
  | [] => none
  | (i, ts) :: rest =>
    match searchTablesV k i (if i = 0 then ts.reverse else ts) with
    | some v => some v
    | none => searchLevelsV k rest

/-- Value returned by `get` (pure in the state). -/
def LSM.getValue (t : LSM) (k : String) : Option String :=
  if k = "" then none
  else
    match t.memtable.get k with
    | some v => some v
    | none => searchLevelsV k t.levels.enum

/-- Value-only read path of the always-probe variant (page.js lines
228-257), which differs from the core's only by the absence of the
range-skip test. -/
def searchTablesVN (k : String) : List SSTable → Option String
  | [] => none
  | tb :: rest =>
    match tb.get k with
    | some v => some v
    | none => searchTablesVN k rest

def searchLevelsVN (k : String) : List (Nat × List SSTable) → Option String
  | [] => none
  | (i, ts) :: rest =>
    match searchTablesVN k (if i = 0 then ts.reverse else ts) with
    | some v => some v
    | none => searchLevelsVN k rest

def LSM.getValueNoSkip (t : LSM) (k : String) : Option String :=
  if k = "" then none
  else
    match t.memtable.get k with
    | some v => some v
    | none => searchLevelsVN k t.levels.enum

/-! ## Reset and the raw integer-level compact entry point -/

/-- Re-initialization (sstable.js lines 472-498); the id counter persists
(JS identifiers are wall-clock based and keep growing across resets). -/
def LSM.reset (t : LSM) (c : ConfigInput) : LSM :=
  { LSM.init c with nextId := t.nextId }

/-- The public `compact(level)` called with an arbitrary integer, as the
UI may (page.js / part_002 `handleCompact`).  For a negative level the JS
body reaches `this.levels[levelToCompact].length` where
`this.levels[levelToCompact]` is `undefined`, so a TypeError is thrown;
that is modelled as `none`.  Every non-negative level returns normally. -/
def LSM.compactI (t : LSM) (l : Int) : Option LSM :=
  if l ≥ (t.config.maxLevels : Int) - 1 then some t
  else if l < 0 then none
  else some (t.compact l.toNat)

/-! ## Order facts for the comparators -/

theorem bool_fcases (b : Bool) : b = false ∨ b = true :=
  (Bool.eq_false_or_eq_true b).symm

theorem strLtb_cases (a b : String) :
    strLtb a b = true ∨ strLtb b a = true ∨ a = b := by
  rcases bool_fcases (strLtb a b) with h₁ | h₁
  · rcases bool_fcases (strLtb b a) with h₂ | h₂
    · exact Or.inr (Or.inr (strLtb_total h₁ h₂))
    · exact Or.inr (Or.inl h₂)
  · exact Or.inl h₁

theorem entryLeB_eq_true_iff {a b : Entry} :
    entryLeB a b = true ↔ strLtb b.1 a.1 = false := by
  simp [entryLeB]

theorem entryLeB_total (a b : Entry) :
    entryLeB a b = true ∨ entryLeB b a = true := by
  rcases bool_fcases (strLtb b.1 a.1) with h | h
  · exact Or.inl (entryLeB_eq_true_iff.mpr h)
  · exact Or.inr (entryLeB_eq_true_iff.mpr (strLtb_asymm h))

theorem entryLeB_trans (a b c : Entry) (h₁ : entryLeB a b = true)
    (h₂ : entryLeB b c = true) : entryLeB a c = true := by
  rw [entryLeB_eq_true_iff] at h₁ h₂ ⊢
  rcases bool_fcases (strLtb c.1 a.1) with h | h
  · exact h
  · exfalso
    rcases strLtb_cases b.1 c.1 with hbc | hbc | hbc
    · rw [strLtb_trans hbc h] at h₁; cases h₁
    · rw [hbc] at h₂; cases h₂
    · rw [hbc] at h₁; rw [h] at h₁; cases h₁

theorem minKeyLeB_total (a b : SSTable) :
    minKeyLeB a b = true ∨ minKeyLeB b a = true := by
  unfold minKeyLeB
  match a.minKey?, b.minKey? with
  | none, none => simp
  | none, some y => simp
  | some x, none => simp
  | some x, some y =>
    rcases bool_fcases (strLtb y x) with h | h
    · simp [h]
    · simp [strLtb_asymm h]

theorem minKeyLeB_trans (a b c : SSTable) (h₁ : minKeyLeB a b = true)
    (h₂ : minKeyLeB b c = true) : minKeyLeB a c = true := by
  unfold minKeyLeB at *
  match ha : a.minKey?, hb : b.minKey?, hc : c.minKey? with
  | none, _, _ => simp
  | some x, none, _ => simp [ha, hb] at h₁
  | some x, some y, none => simp [hb, hc] at h₂
  | some x, some y, some z =>
    simp only [ha, hb, hc, Bool.not_eq_true', Bool.not_eq_eq_eq_not,
      Bool.not_true] at *
    rcases bool_fcases (strLtb z x) with h | h
    · exact h
    · exfalso
      rcases strLtb_cases y z with hyz | hyz | hyz
      · rw [strLtb_trans hyz h] at h₁; cases h₁
      · rw [hyz] at h₂; cases h₂
      · rw [hyz] at h₁; rw [h] at h₁; cases h₁

theorem tableLeB_total (a b : SSTable) :
    tableLeB a b = true ∨ tableLeB b a = true := by
  unfold tableLeB
  by_cases h₁ : a.level < b.level
  · simp [h₁]
  · by_cases h₂ : b.level < a.level
    · simp [h₁, h₂]
    · simp [h₁, h₂]; omega

theorem tableLeB_trans (a b c : SSTable) (h₁ : tableLeB a b = true)
    (h₂ : tableLeB b c = true) : tableLeB a c = true := by
  unfold tableLeB at *
  by_cases hab : a.level < b.level <;> by_cases hba : b.level < a.level <;>
    by_cases hbc : b.level < c.level <;> by_cases hcb : c.level < b.level <;>
    by_cases hac : a.level < c.level <;> by_cases hca : c.level < a.level <;>
    simp_all <;> omega

/-! ## Pairwise and duplicate-freedom lemmas -/

/-- Strict key-sortedness of an entry list. -/
def EntriesSorted (l : List Entry) : Prop :=
  l.Pairwise (fun a b => strLtb a.1 b.1 = true)

theorem EntriesSorted.nodupKeys {l : List Entry} (h : EntriesSorted l) :
    (l.map Prod.fst).Nodup :=
  List.pairwise_map.mpr (h.imp fun hab => strLtb_ne hab)

theorem entriesSorted_of_le_sorted {l : List Entry}
    (hnd : (l.map Prod.fst).Nodup)
    (h : l.Pairwise fun a b => entryLeB a b = true) : EntriesSorted l := by
  have hne : l.Pairwise fun a b => a.1 ≠ b.1 := List.pairwise_map.mp hnd
  refine (h.and hne).imp ?_
  rintro a b ⟨hle, hne'⟩
  rw [entryLeB_eq_true_iff] at hle
  rcases strLtb_cases a.1 b.1 with h' | h' | h'
  · exact h'
  · simp [h'] at hle
  · exact absurd h' hne'

theorem findVal_eq_none_iff {k : String} {l : List Entry} :
    findVal k l = none ↔ k ∉ l.map Prod.fst := by
  rcases h : findVal k l with _ | v
  · simp only [true_iff]
    intro hmem
    have := findVal_isSome_iff.mpr hmem
    rw [h] at this
    cases this
  · simp only [reduceCtorEq, false_iff, not_not]
    exact findVal_isSome_iff.mp (by rw [h]; rfl)

theorem findVal_of_mem_nodup {k v : String} : ∀ {l : List Entry},
    (l.map Prod.fst).Nodup → (k, v) ∈ l → findVal k l = some v := by
  intro l
  induction l with
  | nil => intro _ hmem; cases hmem
  | cons e rest ih =>
    intro hnd hmem
    rw [List.map_cons, List.nodup_cons] at hnd
    rcases List.mem_cons.mp hmem with he | he
    · rw [← he]; simp [findVal]
    · have hk : k ∈ rest.map Prod.fst := List.mem_map.mpr ⟨(k, v), he, rfl⟩
      have hne : e.1 ≠ k := fun h => hnd.1 (h ▸ hk)
      simp only [findVal, if_neg hne]
      exact ih hnd.2 he

theorem findVal_eq_some_iff {k v : String} {l : List Entry}
    (hnd : (l.map Prod.fst).Nodup) : findVal k l = some v ↔ (k, v) ∈ l :=
  ⟨findVal_mem, findVal_of_mem_nodup hnd⟩

theorem findVal_perm {k : String} {l l' : List Entry} (hp : l.Perm l')
    (hnd : (l.map Prod.fst).Nodup) : findVal k l = findVal k l' := by
  have hnd' : (l'.map Prod.fst).Nodup := hnd.perm (hp.map Prod.fst)
  rcases h : findVal k l with _ | v
  · symm
    rw [findVal_eq_none_iff] at h ⊢
    intro hmem
    exact h (((hp.map Prod.fst).mem_iff).mpr hmem)
  · symm
    rw [findVal_eq_some_iff hnd']
    exact hp.mem_iff.mp (findVal_mem h)

/-! ## Merge-map lemmas -/

theorem findVal_insertAbsent (acc : List Entry) (e : Entry) (k : String) :
    findVal k (insertAbsent acc e) =
      (findVal k acc).or (if e.1 = k then some e.2 else none) := by
  unfold insertAbsent
  by_cases hc : (acc.map Prod.fst).contains e.1
  · simp only [hc, if_true]
    by_cases hek : e.1 = k
    · subst hek
      have hmem : e.1 ∈ acc.map Prod.fst := by simpa using hc
      have hsome := findVal_isSome_iff.mpr hmem
      rcases hv : findVal e.1 acc with _ | v
      · rw [hv] at hsome; cases hsome
      · simp
    · simp [hek]
  · rw [if_neg hc, findVal_append]
    have h1 : findVal k [e] = if e.1 = k then some e.2 else none := by
      by_cases hek : e.1 = k <;> simp [findVal, hek]
    rw [h1]

theorem findVal_foldl_insertAbsent (l : List Entry) (acc : List Entry)
    (k : String) :
    findVal k (l.foldl insertAbsent acc) = (findVal k acc).or (findVal k l) := by
  induction l generalizing acc with
  | nil => simp [findVal]
  | cons e rest ih =>
    simp only [List.foldl_cons]
    rw [ih, findVal_insertAbsent, Option.or_assoc]
    congr 1
    by_cases hek : e.1 = k <;> simp [findVal, hek]

theorem mergeTables_findVal (ts : List SSTable) (k : String) :
    findVal k (mergeTables ts) = findVal k ((ts.map fun tb => tb.data).flatten) := by
  suffices h : ∀ acc,
      findVal k (ts.foldl (fun (acc : List Entry) (tb : SSTable) => tb.data.foldl insertAbsent acc) acc) =
        (findVal k acc).or (findVal k ((ts.map fun tb => tb.data).flatten)) by
    simpa [mergeTables, findVal] using h []
  induction ts with
  | nil => simp [findVal]
  | cons tb rest ih =>
    intro acc
    simp only [List.foldl_cons, List.map_cons, List.flatten_cons]
    rw [ih, findVal_foldl_insertAbsent, Option.or_assoc, findVal_append]

theorem insertAbsent_nodupKeys {acc : List Entry} (e : Entry)
    (hnd : (acc.map Prod.fst).Nodup) :
    ((insertAbsent acc e).map Prod.fst).Nodup := by
  unfold insertAbsent
  by_cases hc : (acc.map Prod.fst).contains e.1
  · rw [if_pos hc]; exact hnd
  · have hnm : e.1 ∉ acc.map Prod.fst := by simpa using hc
    rw [if_neg hc, List.map_append]
    simp [List.nodup_append, hnd, hnm]

theorem foldl_insertAbsent_nodupKeys (l : List Entry) (acc : List Entry)
    (hnd : (acc.map Prod.fst).Nodup) :
    ((l.foldl insertAbsent acc).map Prod.fst).Nodup := by
  induction l generalizing acc with
  | nil => exact hnd
  | cons e rest ih => exact ih _ (insertAbsent_nodupKeys e hnd)

theorem mergeTables_nodupKeys (ts : List SSTable) :
    ((mergeTables ts).map Prod.fst).Nodup := by
  suffices h : ∀ acc, (acc.map Prod.fst).Nodup →
      ((ts.foldl (fun (acc : List Entry) (tb : SSTable) => tb.data.foldl insertAbsent acc) acc).map
        Prod.fst).Nodup by
    exact h [] (by simp)
  induction ts with
  | nil => exact fun acc h => h
  | cons tb rest ih =>
    intro acc hacc
    exact ih _ (foldl_insertAbsent_nodupKeys tb.data acc hacc)

theorem insertAbsent_length_le (acc : List Entry) (e : Entry) :
    (insertAbsent acc e).length ≤ acc.length + 1 := by
  unfold insertAbsent
  by_cases hc : (acc.map Prod.fst).contains e.1
  · rw [if_pos hc]; omega
  · rw [if_neg hc]; simp

theorem foldl_insertAbsent_length_le (l : List Entry) (acc : List Entry) :
    (l.foldl insertAbsent acc).length ≤ acc.length + l.length := by
  induction l generalizing acc with
  | nil => simp
  | cons e rest ih =>
    calc ((e :: rest).foldl insertAbsent acc).length
        ≤ (insertAbsent acc e).length + rest.length := ih _
      _ ≤ acc.length + 1 + rest.length := by
          have := insertAbsent_length_le acc e; omega
      _ = acc.length + (e :: rest).length := by simp; omega

theorem mergeTables_length_le (ts : List SSTable) :
    (mergeTables ts).length ≤ ((ts.map fun tb => tb.data.length)).sum := by
  suffices h : ∀ acc,
      (ts.foldl (fun (acc : List Entry) (tb : SSTable) => tb.data.foldl insertAbsent acc) acc).length ≤
        acc.length + ((ts.map fun tb => tb.data.length)).sum by
    simpa [mergeTables] using h []
  induction ts with
  | nil => simp
  | cons tb rest ih =>
    intro acc
    simp only [List.foldl_cons, List.map_cons, List.sum_cons]
    calc (rest.foldl (fun (acc : List Entry) (tb : SSTable) => tb.data.foldl insertAbsent acc)
            (tb.data.foldl insertAbsent acc)).length
        ≤ (tb.data.foldl insertAbsent acc).length +
            ((rest.map fun tb => tb.data.length)).sum := ih _
      _ ≤ acc.length + tb.data.length +
            ((rest.map fun tb => tb.data.length)).sum := by
          have := foldl_insertAbsent_length_le tb.data acc; omega
      _ = acc.length + (tb.data.length +
            ((rest.map fun tb => tb.data.length)).sum) := by omega

/-! ## Chunking lemmas -/

theorem chunkGo_flatten (m : Nat) :
    ∀ (fuel : Nat) (l : List α), l.length ≤ fuel →
    (chunkGo m fuel l).flatten = l := by
  intro fuel
  induction fuel with
  | zero =>
    intro l hl
    cases l with
    | nil => simp [chunkGo]
    | cons a rest => simp at hl
  | succ n ih =>
    intro l hl
    cases l with
    | nil => simp [chunkGo]
    | cons a rest =>
      rw [chunkGo, List.flatten_cons,
        ih _ (by simp only [List.length_drop]; simp at hl ⊢; omega),
        List.take_append_drop]

theorem chunkGo_ne_nil (m : Nat) {c : List α} :
    ∀ (fuel : Nat) (l : List α), c ∈ chunkGo m fuel l → c ≠ [] := by
  intro fuel
  induction fuel with
  | zero =>
    intro l hc
    simp [chunkGo] at hc
  | succ n ih =>
    intro l hc
    cases l with
    | nil => simp [chunkGo] at hc
    | cons a rest =>
      rw [chunkGo] at hc
      rcases List.mem_cons.mp hc with h | h
      · subst h; simp
      · exact ih _ h

theorem chunkGo_sublist (m : Nat) {c : List α} :
    ∀ (fuel : Nat) (l : List α), c ∈ chunkGo m fuel l → c.Sublist l := by
  intro fuel
  induction fuel with
  | zero =>
    intro l hc
    simp [chunkGo] at hc
  | succ n ih =>
    intro l hc
    cases l with
    | nil => simp [chunkGo] at hc
    | cons a rest =>
      rw [chunkGo] at hc
      rcases List.mem_cons.mp hc with h | h
      · subst h; exact List.take_sublist _ _
      · exact (ih _ h).trans (List.drop_sublist _ _)

theorem chunkList_flatten {max : Nat} (hmax : max ≠ 0) (l : List α) :
    (chunkList max l).flatten = l := by
  unfold chunkList
  rw [if_neg hmax]
  exact chunkGo_flatten _ _ _ le_rfl

theorem chunkList_ne_nil {max : Nat} {l c : List α} (hc : c ∈ chunkList max l) :
    c ≠ [] := by
  unfold chunkList at hc
  by_cases h : max = 0
  · simp [h] at hc
  · exact chunkGo_ne_nil _ _ _ (by simpa [h] using hc)

theorem chunkList_sublist {max : Nat} {l c : List α} (hc : c ∈ chunkList max l) :
    c.Sublist l := by
  unfold chunkList at hc
  by_cases h : max = 0
  · simp [h] at hc
  · exact chunkGo_sublist _ _ _ (by simpa [h] using hc)

theorem chunkList_length_sum {max : Nat} (hmax : max ≠ 0) (l : List α) :
    ((chunkList max l).map List.length).sum = l.length := by
  have h := congrArg List.length (chunkList_flatten hmax l)
  simpa [List.length_flatten] using h

/-! ## Correctness of the binary search on sorted data -/

theorem ediv2_bounds {low high : Int} (h : low ≤ high) :
    low ≤ Int.ediv (low + high) 2 ∧ Int.ediv (low + high) 2 ≤ high := by
  constructor
  · have h1 := Int.ediv_le_ediv (by norm_num : (0 : Int) < 2)
      (by omega : 2 * low ≤ low + high)
    rwa [Int.mul_ediv_cancel_left _ (by norm_num)] at h1
  · have h1 := Int.ediv_le_ediv (by norm_num : (0 : Int) < 2)
      (by omega : low + high ≤ 2 * high)
    rwa [Int.mul_ediv_cancel_left _ (by norm_num)] at h1

theorem entriesSorted_getElem_lt {data : List Entry} (hs : EntriesSorted data)
    {i j : Nat} (hi : i < data.length) (hj : j < data.length) (hij : i < j) :
    strLtb (data[i]).1 (data[j]).1 = true :=
  List.pairwise_iff_getElem.mp hs i j hi hj hij

theorem sstableGetGo_spec {data : List Entry} (hs : EntriesSorted data)
    (k : String) :
    ∀ (n : Nat) (low high : Int), (high + 1 - low).toNat < n →
    0 ≤ low → high < (data.length : Int) →
    (∀ j : Nat, (hj : j < data.length) → (j : Int) < low →
      strLtb (data[j]).1 k = true) →
    (∀ j : Nat, (hj : j < data.length) → high < (j : Int) →
      strLtb k (data[j]).1 = true) →
    sstableGetGo data k n low high = findVal k data := by
  intro n
  induction n with
  | zero =>
    intro low high hn h0 hh hlo hhi
    exact absurd hn (Nat.not_lt_zero _)
  | succ n ih =>
    intro low high hn h0 hh hlo hhi
    by_cases hlh : low ≤ high
    · have hb := ediv2_bounds hlh
      set mid : Int := Int.ediv (low + high) 2 with hmid
      have hmidlen : mid.toNat < data.length := by omega
      have hmidnn : (0 : Int) ≤ mid := by omega
      have hget : data[mid.toNat]? = some (data[mid.toNat]) :=
        List.getElem?_eq_getElem hmidlen
      rw [sstableGetGo, if_pos hlh]
      simp only [← hmid, hget]
      by_cases heq : (data[mid.toNat]).1 = k
      · simp only [heq, if_pos rfl]
        symm
        have : (k, (data[mid.toNat]).2) = data[mid.toNat] := by
          rw [← heq]
        exact findVal_of_mem_nodup hs.nodupKeys
          (this ▸ List.getElem_mem hmidlen)
      · rw [if_neg heq]
        by_cases hlt : strLtb (data[mid.toNat]).1 k
        · rw [if_pos hlt]
          refine ih (mid + 1) high (by omega) (by omega) hh ?_ hhi
          intro j hj hjlt
          rcases Nat.lt_or_ge j mid.toNat with hjm | hjm
          · exact strLtb_trans
              (entriesSorted_getElem_lt hs hj hmidlen hjm) hlt
          · have hjeq : j = mid.toNat := by omega
            subst hjeq; exact hlt
        · rw [if_neg hlt]
          have hklt : strLtb k (data[mid.toNat]).1 = true := by
            rcases strLtb_cases (data[mid.toNat]).1 k with h | h | h
            · exact absurd h hlt
            · exact h
            · exact absurd h heq
          refine ih low (mid - 1) (by omega) h0 (by omega) hlo ?_
          intro j hj hjgt
          rcases Nat.lt_or_ge mid.toNat j with hjm | hjm
          · exact strLtb_trans hklt
              (entriesSorted_getElem_lt hs hmidlen hj hjm)
          · have hjeq : j = mid.toNat := by omega
            subst hjeq; exact hklt
    · rw [sstableGetGo, if_neg hlh]
      symm
      rw [findVal_eq_none_iff]
      intro hk
      rw [List.mem_map] at hk
      obtain ⟨e, he, hek⟩ := hk
      obtain ⟨j, hj, hje⟩ := List.mem_iff_getElem.mp he
      rcases (by omega : (j : Int) < low ∨ high < (j : Int)) with hc | hc
      · exact strLtb_ne (hje ▸ hek ▸ hlo j hj hc) rfl
      · exact (strLtb_ne (hje ▸ hek ▸ hhi j hj hc)) rfl

/-- On strictly sorted data the binary search agrees with the reference
association-list lookup: C6's core fact. -/
theorem sstableGet_eq_findVal {data : List Entry} (hs : EntriesSorted data)
    (k : String) : sstableGet data k = findVal k data := by
  refine sstableGetGo_spec hs k (data.length + 1) 0 ((data.length : Int) - 1)
    (by omega) le_rfl (by omega) ?_ ?_
  · intro j hj hlt
    omega
  · intro j hj hgt
    omega

/-! ## Range lemmas for sorted runs -/

theorem sorted_head_le {data : List Entry} (hs : EntriesSorted data)
    {k v mn : String} (hmem : (k, v) ∈ data)
    (hmn : data.head?.map Prod.fst = some mn) : strLtb k mn = false := by
  obtain ⟨j, hj, hje⟩ := List.mem_iff_getElem.mp hmem
  have hlen : 0 < data.length := by
    cases data with
    | nil => simp at hmn
    | cons e rest => simp
  have hmn' : mn = (data[0]).1 := by
    cases data with
    | nil => simp at hmn
    | cons e rest =>
      simp only [List.head?_cons] at hmn
      have h1 : e.1 = mn := by simpa using hmn
      simp [← h1]
  rcases Nat.eq_zero_or_pos j with hj0 | hj0
  · subst hj0
    rw [hmn']
    have : (data[0]).1 = k := by rw [hje]
    rw [this]
    exact strLtb_irrefl k
  · rw [hmn']
    have hlt : strLtb (data[0]).1 (data[j]).1 = true :=
      entriesSorted_getElem_lt hs hlen hj hj0
    rw [hje] at hlt
    exact strLtb_asymm hlt

theorem sorted_le_last {data : List Entry} (hs : EntriesSorted data)
    {k v mx : String} (hmem : (k, v) ∈ data)
    (hmx : data.getLast?.map Prod.fst = some mx) : strLtb mx k = false := by
  obtain ⟨j, hj, hje⟩ := List.mem_iff_getElem.mp hmem
  have hlen : 0 < data.length := by omega
  have hmx' : mx = (data[data.length - 1]).1 := by
    rw [List.getLast?_eq_getElem?, List.getElem?_eq_getElem (by omega)] at hmx
    have h1 : (data[data.length - 1]).1 = mx := by simpa using hmx
    rw [h1]
  rcases Nat.lt_or_ge j (data.length - 1) with hjl | hjl
  · rw [hmx']
    have hlt : strLtb (data[j]).1 (data[data.length - 1]).1 = true :=
      entriesSorted_getElem_lt hs hj (by omega) hjl
    rw [hje] at hlt
    exact strLtb_asymm hlt
  · have : j = data.length - 1 := by omega
    subst this
    rw [hmx']
    have : (data[data.length - 1]).1 = k := by rw [hje]
    rw [this]
    exact strLtb_irrefl k

/-- A key strictly outside a sorted run's `[minKey, maxKey]` range is not
in the run: soundness of the read path's skip optimization. -/
theorem sorted_out_of_range {data : List Entry} (hs : EntriesSorted data)
    {k mn mx : String} (hmn : data.head?.map Prod.fst = some mn)
    (hmx : data.getLast?.map Prod.fst = some mx)
    (h : strLtb k mn = true ∨ strLtb mx k = true) : findVal k data = none := by
  rcases hfv : findVal k data with _ | v
  · rfl
  · exfalso
    have hmem := findVal_mem hfv
    rcases h with h | h
    · rw [sorted_head_le hs hmem hmn] at h; cases h
    · rw [sorted_le_last hs hmem hmx] at h; cases h

/-! ## List indexing helpers -/

theorem getD_set_eq {l : List (List SSTable)} {j : Nat} (h : j < l.length)
    (x : List SSTable) : (l.set j x).getD j [] = x := by
  rw [List.getD_eq_getElem?_getD, List.getElem?_set_self (by simpa using h)]
  rfl

theorem getD_set_ne {l : List (List SSTable)} {i j : Nat} (h : i ≠ j)
    (x : List SSTable) : (l.set j x).getD i [] = l.getD i [] := by
  rw [List.getD_eq_getElem?_getD, List.getElem?_set_ne (by omega),
    ← List.getD_eq_getElem?_getD]

theorem sortLe_mem {le : α → α → Bool} {l : List α} {a : α} :
    a ∈ sortLe le l ↔ a ∈ l := (sortLe_perm le l).mem_iff

/-! ## The reachable-state invariant -/

/-- Well-formedness of a single run as produced by flush or compaction. -/
structure TableWF (tb : SSTable) : Prop where
  sorted : EntriesSorted tb.data
  nonempty : tb.data ≠ []
  keysNE : ∀ e ∈ tb.data, e.1 ≠ ""

/-- Pairwise key-disjointness of the runs of one level (levels ≥ 1 hold a
key at most once). -/
def TablesDisjoint (ts : List SSTable) : Prop :=
  ts.Pairwise fun a b =>
    ∀ k, (a.find k).isSome = true → (b.find k).isSome = true → False

/-- Invariant of every reachable engine state. -/
structure Inv (t : LSM) : Prop where
  cfgPos : 1 ≤ t.config.memtableMaxSize ∧ 1 ≤ t.config.l0MaxSSTables ∧
    1 ≤ t.config.levelMaxSSTablesFactor ∧ 1 ≤ t.config.sstableMaxItems ∧
    1 ≤ t.config.maxLevels
  levelsLen : t.levels.length = t.config.maxLevels
  mtMax : t.memtable.maxSize = t.config.memtableMaxSize
  mtNodup : (t.memtable.data.map Prod.fst).Nodup
  mtKeysNE : ∀ e ∈ t.memtable.data, e.1 ≠ ""
  tags : ∀ i, ∀ tb ∈ t.levelAt i, tb.level = i
  tablesWF : ∀ i, ∀ tb ∈ t.levelAt i, TableWF tb
  idsBound : ∀ i, ∀ tb ∈ t.levelAt i, tb.id < t.nextId
  idsNodup : ∀ i, ((t.levelAt i).map SSTable.id).Nodup
  l0Asc : (t.levelAt 0).Pairwise fun a b => a.id < b.id
  disj : ∀ i, 1 ≤ i → TablesDisjoint (t.levelAt i)

theorem orDefault_pos {x : Option Nat} {d : Nat} (hd : 1 ≤ d) :
    1 ≤ orDefault x d := by
  unfold orDefault
  match x with
  | none => exact hd
  | some n =>
    by_cases h : n = 0
    · simpa [h]
    · simp [h]; omega

theorem resolveConfig_pos (c : ConfigInput) :
    1 ≤ (resolveConfig c).memtableMaxSize ∧
    1 ≤ (resolveConfig c).l0MaxSSTables ∧
    1 ≤ (resolveConfig c).levelMaxSSTablesFactor ∧
    1 ≤ (resolveConfig c).sstableMaxItems ∧
    1 ≤ (resolveConfig c).maxLevels := by
  refine ⟨?_, ?_, ?_, ?_, ?_⟩ <;>
    exact orDefault_pos (by norm_num [MEMTABLE_DEFAULT_MAX_SIZE,
      L0_DEFAULT_MAX_SSTABLES, LEVEL_MAX_SSTABLES_FACTOR,
      SSTABLE_DEFAULT_MAX_ITEMS, MAX_LEVELS])

theorem levelAt_init (c : ConfigInput) (i : Nat) :
    (LSM.init c).levelAt i = [] := by
  unfold LSM.levelAt LSM.init
  rcases Nat.lt_or_ge i (resolveConfig c).maxLevels with h | h
  · simp [List.getD_eq_getElem?_getD, List.getElem?_replicate, h]
  · rw [List.getD_eq_getElem?_getD, List.getElem?_eq_none (by simpa using h)]
    rfl

theorem inv_init (c : ConfigInput) : Inv (LSM.init c) := by
  constructor
  · exact resolveConfig_pos c
  · simp [LSM.init]
  · rfl
  · simp [LSM.init]
  · intro e he; simp [LSM.init] at he
  · intro i tb htb; rw [levelAt_init] at htb; cases htb
  · intro i tb htb; rw [levelAt_init] at htb; cases htb
  · intro i tb htb; rw [levelAt_init] at htb; cases htb
  · intro i; rw [levelAt_init]; simp
  · rw [levelAt_init]; exact List.Pairwise.nil
  · intro i _
    unfold TablesDisjoint
    rw [levelAt_init]
    exact List.Pairwise.nil

/-! ## Invariant preservation: memtable operations and flush -/

theorem memPut_keys (m : MemTable) (k v : String) :
    ((m.put k v).data.map Prod.fst) = if (m.data.map Prod.fst).contains k
      then m.data.map Prod.fst else m.data.map Prod.fst ++ [k] := by
  unfold MemTable.put
  by_cases hc : (m.data.map Prod.fst).contains k
  · rw [if_pos hc, if_pos hc]
    simp only [List.map_map]
    apply List.map_congr_left
    intro e _
    by_cases he : e.1 = k <;> simp [he]
  · rw [if_neg hc, if_neg hc]
    simp

theorem memPut_nodup {m : MemTable} (k v : String)
    (hnd : (m.data.map Prod.fst).Nodup) :
    (((m.put k v).data).map Prod.fst).Nodup := by
  rw [memPut_keys]
  by_cases hc : (m.data.map Prod.fst).contains k
  · rwa [if_pos hc]
  · rw [if_neg hc]
    have : k ∉ m.data.map Prod.fst := by simpa using hc
    simp [List.nodup_append, hnd, this]

theorem memPut_keysNE {m : MemTable} {k : String} (v : String) (hk : k ≠ "")
    (h : ∀ e ∈ m.data, e.1 ≠ "") : ∀ e ∈ (m.put k v).data, e.1 ≠ "" := by
  unfold MemTable.put
  by_cases hc : (m.data.map Prod.fst).contains k
  · rw [if_pos hc]
    intro e he
    simp only [List.mem_map] at he
    obtain ⟨e', he', hee⟩ := he
    by_cases h1 : e'.1 = k
    · rw [← hee]; simpa [h1] using hk
    · rw [← hee]; simpa [h1] using h e' he'
  · rw [if_neg hc]
    intro e he
    rcases List.mem_append.mp he with h1 | h1
    · exact h e h1
    · simp only [List.mem_singleton] at h1
      rw [h1]; exact hk

theorem map_update_id {l : List Entry} {k : String} (v : String)
    (h : k ∉ l.map Prod.fst) :
    (l.map fun e => if e.1 = k then (k, v) else e) = l := by
  have h1 : (l.map fun e => if e.1 = k then (k, v) else e) = l.map id := by
    apply List.map_congr_left
    intro e he
    have : e.1 ≠ k := fun hek => h (List.mem_map.mpr ⟨e, he, hek⟩)
    simp [this]
  rw [h1, List.map_id]

theorem findVal_map_update {l : List Entry} {k : String} (v k' : String)
    (hnd : (l.map Prod.fst).Nodup) (hkmem : k ∈ l.map Prod.fst) :
    findVal k' (l.map fun e => if e.1 = k then (k, v) else e) =
      if k' = k then some v else findVal k' l := by
  induction l with
  | nil => simp at hkmem
  | cons e rest ih =>
    rw [List.map_cons, List.nodup_cons] at hnd
    by_cases he : e.1 = k
    · have hrest : k ∉ rest.map Prod.fst := he ▸ hnd.1
      simp only [List.map_cons, if_pos he, map_update_id v hrest]
      by_cases hk' : k' = k
      · simp [findVal, hk']
      · simp only [findVal, if_neg hk']
        rw [if_neg (fun h : k = k' => hk' h.symm),
          if_neg (fun h : e.1 = k' => hk' (he ▸ h).symm)]
    · have hkmem' : k ∈ rest.map Prod.fst := by
        rw [List.map_cons] at hkmem
        rcases List.mem_cons.mp hkmem with h | h
        · exact absurd h.symm he
        · exact h
      simp only [List.map_cons, if_neg he, findVal]
      by_cases h2 : e.1 = k'
      · rw [if_pos h2, if_pos h2,
          if_neg (fun h : k' = k => he (h2.symm ▸ h ▸ rfl))]
      · rw [if_neg h2, if_neg h2, ih hnd.2 hkmem']

theorem memPut_findVal (m : MemTable) (k v k' : String)
    (hnd : (m.data.map Prod.fst).Nodup) :
    findVal k' (m.put k v).data =
      if k' = k then some v else findVal k' m.data := by
  unfold MemTable.put
  by_cases hc : (m.data.map Prod.fst).contains k
  · rw [if_pos hc]
    exact findVal_map_update v k' hnd (by simpa using hc)
  · rw [if_neg hc]
    rw [findVal_append]
    by_cases hk' : k' = k
    · subst hk'
      have h1 : findVal k' m.data = none := by
        rw [findVal_eq_none_iff]; simpa using hc
      simp [h1, findVal]
    · have h2 : findVal k' [(k, v)] = none := by
        simp [findVal, Ne.symm hk']
      simp [h2, hk']

/-! ## Support lemmas for compaction -/

theorem insertAbsent_mem {acc : List Entry} {e x : Entry}
    (h : x ∈ insertAbsent acc e) : x ∈ acc ∨ x = e := by
  unfold insertAbsent at h
  by_cases hc : (acc.map Prod.fst).contains e.1
  · rw [if_pos hc] at h; exact Or.inl h
  · rw [if_neg hc] at h
    rcases List.mem_append.mp h with h | h
    · exact Or.inl h
    · exact Or.inr (List.mem_singleton.mp h)

theorem foldl_insertAbsent_mem {l acc : List Entry} {x : Entry}
    (h : x ∈ l.foldl insertAbsent acc) : x ∈ acc ∨ x ∈ l := by
  induction l generalizing acc with
  | nil => exact Or.inl h
  | cons e rest ih =>
    rcases ih (by simpa using h) with h1 | h1
    · rcases insertAbsent_mem h1 with h2 | h2
      · exact Or.inl h2
      · exact Or.inr (by simp [h2])
    · exact Or.inr (List.mem_cons_of_mem _ h1)

theorem mergeTables_mem {ts : List SSTable} {x : Entry}
    (h : x ∈ mergeTables ts) : ∃ tb ∈ ts, x ∈ tb.data := by
  unfold mergeTables at h
  suffices hgen : ∀ acc, x ∈ ts.foldl
      (fun acc tb => tb.data.foldl insertAbsent acc) acc →
      x ∈ acc ∨ ∃ tb ∈ ts, x ∈ tb.data by
    rcases hgen [] h with h1 | h1
    · cases h1
    · exact h1
  clear h
  induction ts with
  | nil => intro acc h1; exact Or.inl h1
  | cons tb rest ih =>
    intro acc h1
    rw [List.foldl_cons] at h1
    rcases ih (tb.data.foldl insertAbsent acc) h1 with h2 | h2
    · rcases foldl_insertAbsent_mem h2 with h3 | h3
      · exact Or.inl h3
      · exact Or.inr ⟨tb, by simp, h3⟩
    · obtain ⟨tb', htb', hx⟩ := h2
      exact Or.inr ⟨tb', List.mem_cons_of_mem _ htb', hx⟩

theorem mem_eq_of_nodup_ids {ts : List SSTable}
    (hnd : (ts.map SSTable.id).Nodup) {a b : SSTable} (ha : a ∈ ts)
    (hb : b ∈ ts) (hid : a.id = b.id) : a = b := by
  induction ts with
  | nil => cases ha
  | cons tb rest ih =>
    rw [List.map_cons, List.nodup_cons] at hnd
    rcases List.mem_cons.mp ha with ha1 | ha1 <;>
      rcases List.mem_cons.mp hb with hb1 | hb1
    · rw [ha1, hb1]
    · exfalso
      exact hnd.1 (List.mem_map.mpr ⟨b, hb1, by rw [← hid, ha1]⟩)
    · exfalso
      exact hnd.1 (List.mem_map.mpr ⟨a, ha1, by rw [hid, hb1]⟩)
    · exact ih hnd.2 ha1 hb1

theorem pairwise_disjoint_mem_eq {ts : List SSTable} (hd : TablesDisjoint ts)
    {a b : SSTable} (ha : a ∈ ts) (hb : b ∈ ts) {k : String}
    (hka : (a.find k).isSome = true) (hkb : (b.find k).isSome = true) :
    a = b := by
  induction ts with
  | nil => cases ha
  | cons tb rest ih =>
    rcases List.pairwise_cons.mp hd with ⟨hhead, hrest⟩
    rcases List.mem_cons.mp ha with ha1 | ha1 <;>
      rcases List.mem_cons.mp hb with hb1 | hb1
    · rw [ha1, hb1]
    · exact absurd (hhead b hb1 k (ha1 ▸ hka) hkb) not_false
    · exact absurd (hhead a ha1 k (hb1 ▸ hkb) hka) not_false
    · exact ih hrest ha1 hb1

/-! ## Well-formed table range facts -/

theorem TableWF.minKey_spec {tb : SSTable} (h : TableWF tb) :
    ∃ mn, tb.minKey? = some mn ∧ mn ≠ "" := by
  rcases hd : tb.data with _ | ⟨e, rest⟩
  · exact absurd hd h.nonempty
  · exact ⟨e.1, by simp [SSTable.minKey?, hd],
      h.keysNE e (by simp [hd])⟩

theorem TableWF.maxKey_spec {tb : SSTable} (h : TableWF tb) :
    ∃ mx, tb.maxKey? = some mx ∧ mx ≠ "" := by
  have hlen : 0 < tb.data.length := List.length_pos_of_ne_nil h.nonempty
  have hgl : tb.data.getLast? = some (tb.data[tb.data.length - 1]) := by
    rw [List.getLast?_eq_getElem?, List.getElem?_eq_getElem (by omega)]
  refine ⟨(tb.data[tb.data.length - 1]).1, by simp [SSTable.maxKey?, hgl], ?_⟩
  exact h.keysNE _ (List.getElem_mem (by omega))

theorem TableWF.truthy_min {tb : SSTable} (h : TableWF tb) :
    keyTruthy tb.minKey? = true := by
  obtain ⟨mn, hmn, hne⟩ := h.minKey_spec
  simp [keyTruthy, hmn, hne]

theorem TableWF.truthy_max {tb : SSTable} (h : TableWF tb) :
    keyTruthy tb.maxKey? = true := by
  obtain ⟨mx, hmx, hne⟩ := h.maxKey_spec
  simp [keyTruthy, hmx, hne]

theorem TableWF.mem_range {tb : SSTable} (h : TableWF tb) {k v mn mx : String}
    (hmem : (k, v) ∈ tb.data) (hmn : tb.minKey? = some mn)
    (hmx : tb.maxKey? = some mx) :
    strLtb k mn = false ∧ strLtb mx k = false :=
  ⟨sorted_head_le h.sorted hmem hmn, sorted_le_last h.sorted hmem hmx⟩

/-- Two well-formed runs that both contain some key overlap; this is what
makes the overlap-based merge selection capture every duplicate of a key. -/
theorem overlapsB_of_shared_key {s tb : SSTable} (hs : TableWF s)
    (htb : TableWF tb) {k v w : String} (hks : (k, v) ∈ s.data)
    (hktb : (k, w) ∈ tb.data) :
    tb.overlapsB s.minKey? s.maxKey? = true := by
  obtain ⟨smn, hsmn, hsmn'⟩ := hs.minKey_spec
  obtain ⟨smx, hsmx, hsmx'⟩ := hs.maxKey_spec
  obtain ⟨tmn, htmn, htmn'⟩ := htb.minKey_spec
  obtain ⟨tmx, htmx, htmx'⟩ := htb.maxKey_spec
  have hsr := hs.mem_range hks hsmn hsmx
  have htr := htb.mem_range hktb htmn htmx
  unfold SSTable.overlapsB
  rw [if_neg]
  · rw [htmn, hsmn, hsmx, htmx]
    simp only [Option.getD_some, Bool.and_eq_true, Bool.not_eq_true']
    constructor
    · rcases bool_fcases (strLtb smx tmn) with h | h
      · exact h
      · exfalso
        rcases strLtb_cases tmn k with h1 | h1 | h1
        · rw [strLtb_trans h h1] at hsr
          exact absurd hsr.2 (by simp)
        · rw [h1] at htr
          exact absurd htr.1 (by simp)
        · rw [← h1] at hsr
          rw [h] at hsr
          exact absurd hsr.2 (by simp)
    · rcases bool_fcases (strLtb tmx smn) with h | h
      · exact h
      · exfalso
        rcases strLtb_cases smn k with h1 | h1 | h1
        · rw [strLtb_trans h h1] at htr
          exact absurd htr.2 (by simp)
        · rw [h1] at hsr
          exact absurd hsr.1 (by simp)
        · rw [← h1] at htr
          rw [h] at htr
          exact absurd htr.2 (by simp)
  · rw [htb.truthy_min, htb.truthy_max, hsmn, hsmx]
    simp [keyTruthy, hsmn', hsmx']

/-! ## Overlap gathering: soundness and completeness -/

theorem gatherOverlapsL0_inner_mem {target : List SSTable}
    {mk xk : Option String} {acc : List SSTable} {x : SSTable}
    (h : x ∈ target.foldl
      (fun acc2 tb =>
        if tb.overlapsB mk xk ∧ ¬ acc2.any (fun o => o.id = tb.id)
        then acc2 ++ [tb] else acc2) acc) :
    x ∈ acc ∨ x ∈ target := by
  induction target generalizing acc with
  | nil => exact Or.inl h
  | cons tb rest ih =>
    simp only [List.foldl_cons] at h
    rcases ih h with h1 | h1
    · by_cases hc : tb.overlapsB mk xk ∧ ¬ acc.any (fun o => o.id = tb.id)
      · rw [if_pos hc] at h1
        rcases List.mem_append.mp h1 with h2 | h2
        · exact Or.inl h2
        · exact Or.inr (by simp [List.mem_singleton.mp h2])
      · rw [if_neg hc] at h1
        exact Or.inl h1
    · exact Or.inr (List.mem_cons_of_mem _ h1)

theorem gatherOverlapsL0_subset {src target : List SSTable} {x : SSTable}
    (h : x ∈ gatherOverlapsL0 src target) : x ∈ target := by
  unfold gatherOverlapsL0 at h
  suffices hgen : ∀ acc, x ∈ src.foldl
      (fun acc s =>
        if ¬ keyTruthy s.minKey? ∨ ¬ keyTruthy s.maxKey? then acc
        else
          target.foldl
            (fun acc2 tb =>
              if tb.overlapsB s.minKey? s.maxKey? ∧
                  ¬ acc2.any (fun o => o.id = tb.id)
              then acc2 ++ [tb] else acc2)
            acc)
      acc → x ∈ acc ∨ x ∈ target by
    rcases hgen [] h with h1 | h1
    · cases h1
    · exact h1
  clear h
  induction src with
  | nil => intro acc h1; exact Or.inl h1
  | cons s rest ih =>
    intro acc h1
    simp only [List.foldl_cons] at h1
    rcases ih _ h1 with h2 | h2
    · by_cases hc : ¬ keyTruthy s.minKey? ∨ ¬ keyTruthy s.maxKey?
      · rw [if_pos hc] at h2; exact Or.inl h2
      · rw [if_neg hc] at h2
        exact gatherOverlapsL0_inner_mem h2
    · exact Or.inr h2

theorem gatherOverlapsL0_inner_mono {target : List SSTable}
    {mk xk : Option String} {acc : List SSTable} {x : SSTable} (hx : x ∈ acc) :
    x ∈ target.foldl
      (fun acc2 tb =>
        if tb.overlapsB mk xk ∧ ¬ acc2.any (fun o => o.id = tb.id)
        then acc2 ++ [tb] else acc2) acc := by
  induction target generalizing acc with
  | nil => exact hx
  | cons tb rest ih =>
    rw [List.foldl_cons]
    apply ih
    by_cases hc : tb.overlapsB mk xk ∧ ¬ acc.any (fun o => o.id = tb.id)
    · rw [if_pos hc]; exact List.mem_append_left _ hx
    · rw [if_neg hc]; exact hx

theorem gatherOverlapsL0_inner_complete {target : List SSTable}
    (hnd : (target.map SSTable.id).Nodup) {mk xk : Option String}
    {tb : SSTable} (hov : tb.overlapsB mk xk = true) :
    ∀ (l : List SSTable), tb ∈ l → (∀ x ∈ l, x ∈ target) →
    ∀ (acc : List SSTable), (∀ o ∈ acc, o ∈ target) →
    tb ∈ l.foldl
      (fun acc2 tb2 =>
        if tb2.overlapsB mk xk ∧ ¬ acc2.any (fun o => o.id = tb2.id)
        then acc2 ++ [tb2] else acc2) acc := by
  intro l
  induction l with
  | nil => intro h; cases h
  | cons x rest ih =>
    intro htb hsub acc hacc
    rw [List.foldl_cons]
    have haccx : ∀ o ∈ (if x.overlapsB mk xk ∧ ¬ acc.any (fun o => o.id = x.id)
        then acc ++ [x] else acc), o ∈ target := by
      by_cases hc : x.overlapsB mk xk ∧ ¬ acc.any (fun o => o.id = x.id)
      · rw [if_pos hc]
        intro o ho
        rcases List.mem_append.mp ho with h | h
        · exact hacc o h
        · rw [List.mem_singleton.mp h]; exact hsub x (by simp)
      · rw [if_neg hc]; exact hacc
    rcases List.mem_cons.mp htb with heq | hmem
    · subst heq
      by_cases hc : tb.overlapsB mk xk ∧ ¬ acc.any (fun o => o.id = tb.id)
      · apply gatherOverlapsL0_inner_mono
        rw [if_pos hc]
        exact List.mem_append_right _ (by simp)
      · have hany : acc.any (fun o => o.id = tb.id) = true := by
          rcases bool_fcases (acc.any (fun o => o.id = tb.id)) with h | h
          · exact absurd ⟨hov, by simp [h]⟩ hc
          · exact h
        obtain ⟨o, ho, hoid⟩ := by
          simpa using List.any_eq_true.mp hany
        have : o = tb := mem_eq_of_nodup_ids hnd (hacc o ho)
          (hsub tb (by simp)) hoid
        apply gatherOverlapsL0_inner_mono
        rw [if_neg hc]
        exact this ▸ ho
    · exact ih hmem (fun y hy => hsub y (List.mem_cons_of_mem _ hy)) _ haccx

theorem gatherOverlapsL0_outer_mono {src target : List SSTable}
    {acc : List SSTable} {x : SSTable} (hx : x ∈ acc) :
    x ∈ src.foldl
      (fun acc s =>
        if ¬ keyTruthy s.minKey? ∨ ¬ keyTruthy s.maxKey? then acc
        else
          target.foldl
            (fun acc2 tb =>
              if tb.overlapsB s.minKey? s.maxKey? ∧
                  ¬ acc2.any (fun o => o.id = tb.id)
              then acc2 ++ [tb] else acc2)
            acc)
      acc := by
  induction src generalizing acc with
  | nil => exact hx
  | cons s rest ih =>
    rw [List.foldl_cons]
    apply ih
    by_cases hc : ¬ keyTruthy s.minKey? ∨ ¬ keyTruthy s.maxKey?
    · rw [if_pos hc]; exact hx
    · rw [if_neg hc]; exact gatherOverlapsL0_inner_mono hx

theorem gatherOverlapsL0_complete {src target : List SSTable}
    (hnd : (target.map SSTable.id).Nodup) {s : SSTable} (hs : s ∈ src)
    (hmn : keyTruthy s.minKey? = true) (hmx : keyTruthy s.maxKey? = true)
    {tb : SSTable} (htb : tb ∈ target)
    (hov : tb.overlapsB s.minKey? s.maxKey? = true) :
    tb ∈ gatherOverlapsL0 src target := by
  unfold gatherOverlapsL0
  suffices hgen : ∀ (l : List SSTable), s ∈ l →
      ∀ (acc : List SSTable), (∀ o ∈ acc, o ∈ target) →
      tb ∈ l.foldl
        (fun acc s =>
          if ¬ keyTruthy s.minKey? ∨ ¬ keyTruthy s.maxKey? then acc
          else
            target.foldl
              (fun acc2 tb2 =>
                if tb2.overlapsB s.minKey? s.maxKey? ∧
                    ¬ acc2.any (fun o => o.id = tb2.id)
                then acc2 ++ [tb2] else acc2)
              acc)
        acc from hgen src hs [] (by intro o ho; cases ho)
  intro l
  induction l with
  | nil => intro h; cases h
  | cons x rest ih =>
    intro hsl acc hacc
    rw [List.foldl_cons]
    rcases List.mem_cons.mp hsl with heq | hmem
    · subst heq
      rw [if_neg (by simp [hmn, hmx])]
      apply gatherOverlapsL0_outer_mono
      exact gatherOverlapsL0_inner_complete hnd hov target htb (fun x hx => hx)
        acc hacc
    · apply ih hmem
      by_cases hc : ¬ keyTruthy x.minKey? ∨ ¬ keyTruthy x.maxKey?
      · rw [if_pos hc]; exact hacc
      · rw [if_neg hc]
        intro o ho
        rcases gatherOverlapsL0_inner_mem ho with h | h
        · exact hacc o h
        · exact h

/-! ## Facts about `mkTables` -/

theorem mkTables_mem {lvl base : Nat} {cs : List (List Entry)} {tb : SSTable}
    (h : tb ∈ mkTables lvl base cs) :
    tb.level = lvl ∧ tb.data ∈ cs ∧ base ≤ tb.id ∧
      tb.id < base + cs.length := by
  induction cs generalizing base with
  | nil => cases h
  | cons c rest ih =>
    rw [mkTables] at h
    rcases List.mem_cons.mp h with h1 | h1
    · subst h1
      exact ⟨rfl, by simp, le_rfl, by simp⟩
    · obtain ⟨ha, hb, hc, hd⟩ := ih h1
      exact ⟨ha, List.mem_cons_of_mem _ hb, by omega, by simp; omega⟩

theorem mkTables_ids_lt {lvl base : Nat} {cs : List (List Entry)} :
    (mkTables lvl base cs).Pairwise fun a b => a.id < b.id := by
  induction cs generalizing base with
  | nil => exact List.Pairwise.nil
  | cons c rest ih =>
    rw [mkTables]
    refine List.pairwise_cons.mpr ⟨?_, ih⟩
    intro tb htb
    have := mkTables_mem htb
    simp only []
    omega

theorem mkTables_ids_nodup {lvl base : Nat} {cs : List (List Entry)} :
    ((mkTables lvl base cs).map SSTable.id).Nodup := by
  rw [List.Nodup, List.pairwise_map]
  exact mkTables_ids_lt.imp fun h => Nat.ne_of_lt h

theorem mkTables_pairwise {R : List Entry → List Entry → Prop}
    {lvl base : Nat} {cs : List (List Entry)} (h : cs.Pairwise R) :
    (mkTables lvl base cs).Pairwise fun a b => R a.data b.data := by
  induction cs generalizing base with
  | nil => exact List.Pairwise.nil
  | cons c rest ih =>
    rcases List.pairwise_cons.mp h with ⟨hc, hrest⟩
    rw [mkTables]
    refine List.pairwise_cons.mpr ⟨?_, ih hrest⟩
    intro tb htb
    exact hc tb.data (mkTables_mem htb).2.1

theorem mkTables_length {lvl base : Nat} {cs : List (List Entry)} :
    (mkTables lvl base cs).length = cs.length := by
  induction cs generalizing base with
  | nil => rfl
  | cons c rest ih => rw [mkTables]; simp [ih]

/-! ## Well-formedness of the compaction output -/

theorem compactOutput_perm (c : Config) (n : Nat) (src ovl : List SSTable) :
    (compactOutput c n src ovl).Perm
      ((mergeTables (sortLe tableLeB (src ++ ovl))).filter (keepEntry c n)) :=
  sortLe_perm _ _

theorem compactOutput_nodupKeys (c : Config) (n : Nat)
    (src ovl : List SSTable) :
    ((compactOutput c n src ovl).map Prod.fst).Nodup := by
  have h1 := mergeTables_nodupKeys (sortLe tableLeB (src ++ ovl))
  have h2 : (((mergeTables (sortLe tableLeB (src ++ ovl))).filter
      (keepEntry c n)).map Prod.fst).Nodup := by
    have hsub := (@List.filter_sublist _ (keepEntry c n)
      (mergeTables (sortLe tableLeB (src ++ ovl)))).map Prod.fst
    exact h1.sublist hsub
  exact h2.perm ((compactOutput_perm c n src ovl).map Prod.fst).symm

theorem compactOutput_sorted (c : Config) (n : Nat) (src ovl : List SSTable) :
    EntriesSorted (compactOutput c n src ovl) := by
  apply entriesSorted_of_le_sorted (compactOutput_nodupKeys c n src ovl)
  exact sortLe_sorted entryLeB entryLeB_trans entryLeB_total _

theorem compactOutput_mem {c : Config} {n : Nat} {src ovl : List SSTable}
    {e : Entry} (h : e ∈ compactOutput c n src ovl) :
    ∃ tb ∈ src ++ ovl, e ∈ tb.data := by
  have h1 := (sortLe_perm entryLeB _).mem_iff.mp h
  have h2 := List.mem_of_mem_filter h1
  obtain ⟨tb, htb, he⟩ := mergeTables_mem h2
  exact ⟨tb, sortLe_mem.mp htb, he⟩

/-! ## Invariant preservation through `compactFinish` -/

theorem compactKept_sublist (t : LSM) (n : Nat) (ovl : List SSTable) :
    (compactKept t n ovl).Sublist (t.levelAt (n + 1)) :=
  List.filter_sublist _

theorem compactKept_not_shared {t : LSM} {n : Nat} {ovl : List SSTable}
    {tb : SSTable} (h : tb ∈ compactKept t n ovl) {o : SSTable}
    (ho : o ∈ ovl) : o.id ≠ tb.id := by
  intro hid
  have h2 := List.of_mem_filter h
  simp only [decide_eq_true_eq] at h2
  exact h2 (List.any_eq_true.mpr ⟨o, ho, by simp [hid]⟩)

theorem compactNewTables_mem {t : LSM} {n : Nat} {src ovl : List SSTable}
    {tb : SSTable} (h : tb ∈ compactNewTables t n src ovl) :
    tb.level = n + 1 ∧ tb.data ∈ compactChunks t n src ovl ∧
      t.nextId ≤ tb.id ∧ tb.id < t.nextId + (compactChunks t n src ovl).length := by
  exact mkTables_mem h

theorem compactChunks_key_disjoint {t : LSM} {n : Nat} {src ovl : List SSTable}
    (hmax : t.config.sstableMaxItems ≠ 0) :
    (compactChunks t n src ovl).Pairwise fun c d =>
      (c.map Prod.fst).Disjoint (d.map Prod.fst) := by
  have hflat := chunkList_flatten hmax (compactOutput t.config n src ovl)
  have hnd := compactOutput_nodupKeys t.config n src ovl
  have h1 : ((compactChunks t n src ovl).map fun c => c.map Prod.fst).flatten
      = (compactOutput t.config n src ovl).map Prod.fst := by
    rw [← List.map_flatten]
    unfold compactChunks
    rw [hflat]
  have h2 := h1 ▸ hnd
  exact List.pairwise_map.mp (List.nodup_flatten.mp h2).2

theorem levelAt_compactFinish (t : LSM) (n : Nat)
    (srcRest src ovl : List SSTable) (hn1 : n + 1 < t.levels.length) :
    ∀ i, (compactFinish t n srcRest src ovl).levelAt i =
      if i = n + 1 then
        sortLe minKeyLeB (compactKept t n ovl ++ compactNewTables t n src ovl)
      else if i = n then srcRest
      else t.levelAt i := by
  intro i
  show ((t.levels.set n srcRest).set (n + 1) _).getD i [] = _
  by_cases h1 : i = n + 1
  · subst h1
    rw [if_pos rfl, getD_set_eq (by simpa using hn1)]
  · rw [if_neg h1, getD_set_ne h1]
    by_cases h2 : i = n
    · subst h2
      rw [if_pos rfl, getD_set_eq (by omega)]
    · rw [if_neg h2, getD_set_ne h2]
      rfl

theorem find_isSome_iff_mem_keys {tb : SSTable} {k : String} :
    (tb.find k).isSome = true ↔ k ∈ tb.data.map Prod.fst := findVal_isSome_iff

theorem inv_compactFinish {t : LSM} (hI : Inv t) {n : Nat}
    (hn : n + 1 < t.config.maxLevels)
    {srcRest src ovl : List SSTable}
    (hsrc : ∀ tb ∈ src, tb ∈ t.levelAt n)
    (hsrcRest : srcRest.Sublist (t.levelAt n))
    (hsrcRest0 : n = 0 → srcRest = [])
    (hovl : ∀ tb ∈ ovl, tb ∈ t.levelAt (n + 1))
    (hovlShared : ∀ tb ∈ t.levelAt (n + 1), ∀ s ∈ src, ∀ k : String,
      (s.find k).isSome = true → (tb.find k).isSome = true → tb ∈ ovl) :
    Inv (compactFinish t n srcRest src ovl) := by
  have hn1 : n + 1 < t.levels.length := by rw [hI.levelsLen]; exact hn
  have hlev := levelAt_compactFinish t n srcRest src ovl hn1
  have hmax0 : t.config.sstableMaxItems ≠ 0 := by have := hI.cfgPos; omega
  have hsrcWF : ∀ tb ∈ src, TableWF tb := fun tb h =>
    hI.tablesWF n tb (hsrc tb h)
  have hovlWF : ∀ tb ∈ ovl, TableWF tb := fun tb h =>
    hI.tablesWF (n + 1) tb (hovl tb h)
  have houtNE : ∀ e ∈ compactOutput t.config n src ovl, e.1 ≠ "" := by
    intro e he
    obtain ⟨tb, htb, hetb⟩ := compactOutput_mem he
    rcases List.mem_append.mp htb with h | h
    · exact (hsrcWF tb h).keysNE e hetb
    · exact (hovlWF tb h).keysNE e hetb
  have hnewWF : ∀ tb ∈ compactNewTables t n src ovl, TableWF tb := by
    intro tb htb
    obtain ⟨hlvl, hdata, hid1, hid2⟩ := compactNewTables_mem htb
    have hsub : tb.data.Sublist (compactOutput t.config n src ovl) :=
      chunkList_sublist hdata
    refine ⟨(compactOutput_sorted _ _ _ _).sublist hsub,
      chunkList_ne_nil hdata, ?_⟩
    intro e he
    exact houtNE e (hsub.subset he)
  have hkeptOld : ∀ tb ∈ compactKept t n ovl, tb ∈ t.levelAt (n + 1) :=
    fun tb h => (compactKept_sublist t n ovl).subset h
  have hmemTgt : ∀ tb, tb ∈ sortLe minKeyLeB
      (compactKept t n ovl ++ compactNewTables t n src ovl) ↔
      tb ∈ compactKept t n ovl ∨ tb ∈ compactNewTables t n src ovl := by
    intro tb
    rw [sortLe_mem, List.mem_append]
  constructor
  · exact hI.cfgPos
  · show ((t.levels.set n srcRest).set (n + 1) _).length = t.config.maxLevels
    simp [hI.levelsLen]
  · exact hI.mtMax
  · exact hI.mtNodup
  · exact hI.mtKeysNE
  · -- tags
    intro i tb htb
    rw [hlev] at htb
    by_cases h1 : i = n + 1
    · subst h1
      rw [if_pos rfl] at htb
      rcases (hmemTgt tb).mp htb with h | h
      · exact hI.tags (n + 1) tb (hkeptOld tb h)
      · exact (compactNewTables_mem h).1
    · rw [if_neg h1] at htb
      by_cases h2 : i = n
      · subst h2
        rw [if_pos rfl] at htb
        exact hI.tags i tb (hsrcRest.subset htb)
      · rw [if_neg h2] at htb
        exact hI.tags i tb htb
  · -- tablesWF
    intro i tb htb
    rw [hlev] at htb
    by_cases h1 : i = n + 1
    · subst h1
      rw [if_pos rfl] at htb
      rcases (hmemTgt tb).mp htb with h | h
      · exact hI.tablesWF (n + 1) tb (hkeptOld tb h)
      · exact hnewWF tb h
    · rw [if_neg h1] at htb
      by_cases h2 : i = n
      · subst h2
        rw [if_pos rfl] at htb
        exact hI.tablesWF i tb (hsrcRest.subset htb)
      · rw [if_neg h2] at htb
        exact hI.tablesWF i tb htb
  · -- idsBound
    intro i tb htb
    rw [hlev] at htb
    show tb.id < t.nextId + (compactChunks t n src ovl).length
    by_cases h1 : i = n + 1
    · subst h1
      rw [if_pos rfl] at htb
      rcases (hmemTgt tb).mp htb with h | h
      · have := hI.idsBound (n + 1) tb (hkeptOld tb h); omega
      · exact (compactNewTables_mem h).2.2.2
    · rw [if_neg h1] at htb
      by_cases h2 : i = n
      · subst h2
        rw [if_pos rfl] at htb
        have := hI.idsBound i tb (hsrcRest.subset htb); omega
      · rw [if_neg h2] at htb
        have := hI.idsBound i tb htb; omega
  · -- idsNodup
    intro i
    rw [hlev]
    by_cases h1 : i = n + 1
    · subst h1
      rw [if_pos rfl]
      have hperm : ((sortLe minKeyLeB (compactKept t n ovl ++
          compactNewTables t n src ovl)).map SSTable.id).Perm
          (((compactKept t n ovl ++ compactNewTables t n src ovl)).map
            SSTable.id) := (sortLe_perm _ _).map _
      refine List.Nodup.perm ?_ hperm.symm
      rw [List.map_append, List.nodup_append]
      refine ⟨hI.idsNodup (n + 1) |>.sublist
        ((compactKept_sublist t n ovl).map _), mkTables_ids_nodup, ?_⟩
      intro a ha hb
      obtain ⟨ta, hta, htaid⟩ := List.mem_map.mp ha
      obtain ⟨tbb, htbb, htbid⟩ := List.mem_map.mp hb
      have h1 := hI.idsBound (n + 1) ta (hkeptOld ta hta)
      have h2 := (compactNewTables_mem htbb).2.2.1
      omega
    · rw [if_neg h1]
      by_cases h2 : i = n
      · subst h2
        rw [if_pos rfl]
        exact (hI.idsNodup i).sublist (hsrcRest.map _)
      · rw [if_neg h2]
        exact hI.idsNodup i
  · -- l0Asc
    rw [hlev 0]
    rw [if_neg (by omega)]
    by_cases h2 : (0 : Nat) = n
    · rw [if_pos h2, hsrcRest0 h2.symm]
      exact List.Pairwise.nil
    · rw [if_neg h2]
      exact hI.l0Asc
  · -- disj
    intro i hi
    rw [hlev i]
    by_cases h1 : i = n + 1
    · subst h1
      rw [if_pos rfl]
      unfold TablesDisjoint
      refine (List.Perm.pairwise_iff
        (fun h k hk1 hk2 => h k hk2 hk1) (sortLe_perm minKeyLeB _)).mpr ?_
      rw [List.pairwise_append]
      refine ⟨(hI.disj (n + 1) (by omega)).sublist (compactKept_sublist t n ovl),
        ?_, ?_⟩
      · have hp := @mkTables_pairwise
          (fun c d => (c.map Prod.fst).Disjoint (d.map Prod.fst))
          (n + 1) t.nextId (compactChunks t n src ovl)
          (@compactChunks_key_disjoint t n src ovl hmax0)
        refine hp.imp ?_
        intro a b hab k hk1 hk2
        exact hab (find_isSome_iff_mem_keys.mp hk1)
          (find_isSome_iff_mem_keys.mp hk2)
      · intro a ha b hb k hka hkb
        have hkmem : k ∈ b.data.map Prod.fst := find_isSome_iff_mem_keys.mp hkb
        obtain ⟨⟨k', v⟩, hkv, hkk⟩ := List.mem_map.mp hkmem
        simp only [] at hkk
        subst hkk
        have hbo := compactNewTables_mem hb
        have hkvOut : (k', v) ∈ compactOutput t.config n src ovl :=
          (chunkList_sublist hbo.2.1).subset hkv
        obtain ⟨tb, htb, hkvtb⟩ := compactOutput_mem hkvOut
        have htbHas : (tb.find k').isSome = true :=
          find_isSome_iff_mem_keys.mpr (List.mem_map.mpr ⟨(k', v), hkvtb, rfl⟩)
        have haOld : a ∈ t.levelAt (n + 1) := hkeptOld a ha
        rcases List.mem_append.mp htb with hts | hto
        · have hinovl := hovlShared a haOld tb hts k' htbHas hka
          exact compactKept_not_shared ha hinovl rfl
        · have htbOld : tb ∈ t.levelAt (n + 1) := hovl tb hto
          have : tb = a := pairwise_disjoint_mem_eq
            (hI.disj (n + 1) (by omega)) htbOld haOld htbHas hka
          subst this
          exact compactKept_not_shared ha hto rfl
    · rw [if_neg h1]
      by_cases h2 : i = n
      · subst h2
        rw [if_pos rfl]
        exact (hI.disj i hi).sublist hsrcRest
      · rw [if_neg h2]
        exact hI.disj i hi

/-! ## Invariant preservation through `compactStep` and the fuelled loop -/

theorem find_isSome_of_mem {tb : SSTable} {k v : String}
    (h : (k, v) ∈ tb.data) : (tb.find k).isSome = true :=
  find_isSome_iff_mem_keys.mpr (List.mem_map.mpr ⟨(k, v), h, rfl⟩)

theorem find_isSome_elim {tb : SSTable} {k : String}
    (h : (tb.find k).isSome = true) : ∃ v, (k, v) ∈ tb.data := by
  rcases hf : tb.find k with _ | v
  · rw [hf] at h; cases h
  · exact ⟨v, findVal_mem hf⟩

theorem inv_compactStep {t t' : LSM} (hI : Inv t) {n : Nat}
    (hstep : compactStep t n = some t') : Inv t' := by
  unfold compactStep at hstep
  by_cases hg : n + 1 ≥ t.config.maxLevels
  · rw [if_pos hg] at hstep; cases hstep
  · rw [if_neg hg] at hstep
    have hn : n + 1 < t.config.maxLevels := by omega
    by_cases hn0 : n = 0
    · subst hn0
      rw [if_pos rfl] at hstep
      have hshared : ∀ tb ∈ t.levelAt (0 + 1), ∀ s ∈ t.levelAt 0,
          ∀ k : String, (s.find k).isSome = true →
          (tb.find k).isSome = true →
          tb ∈ gatherOverlapsL0 (t.levelAt 0) (t.levelAt 1) := by
        intro tb htb s hs k hsk htbk
        obtain ⟨v, hv⟩ := find_isSome_elim hsk
        obtain ⟨w, hw⟩ := find_isSome_elim htbk
        have hsWF := hI.tablesWF 0 s hs
        have htbWF := hI.tablesWF 1 tb htb
        exact gatherOverlapsL0_complete (hI.idsNodup 1) hs hsWF.truthy_min
          hsWF.truthy_max htb (overlapsB_of_shared_key hsWF htbWF hv hw)
      by_cases hc1 : (t.levelAt 0).length ≤ t.config.l0MaxSSTables ∧
          (t.levelAt 0).length > 0
      · rw [if_pos hc1] at hstep
        rw [Option.some_inj] at hstep
        rw [← hstep]
        exact inv_compactFinish hI hn (fun tb h => h) (List.nil_sublist _)
          (fun _ => rfl) (fun tb h => gatherOverlapsL0_subset h) hshared
      · rw [if_neg hc1] at hstep
        by_cases hc2 : (t.levelAt 0).length > t.config.l0MaxSSTables
        · rw [if_pos hc2] at hstep
          rw [Option.some_inj] at hstep
          rw [← hstep]
          exact inv_compactFinish hI hn (fun tb h => h) (List.nil_sublist _)
            (fun _ => rfl) (fun tb h => gatherOverlapsL0_subset h) hshared
        · rw [if_neg hc2] at hstep; cases hstep
    · rw [if_neg hn0] at hstep
      rcases hL : t.levelAt n with _ | ⟨hd, rest⟩
      · rw [hL] at hstep; cases hstep
      · rw [hL] at hstep
        simp only [Option.some_inj] at hstep
        rw [← hstep]
        have hhd : hd ∈ t.levelAt n := by rw [hL]; simp
        have hhdWF := hI.tablesWF n hd hhd
        have hcond : keyTruthy hd.minKey? ∧ keyTruthy hd.maxKey? := by
          rw [hhdWF.truthy_min, hhdWF.truthy_max]; exact ⟨rfl, rfl⟩
        refine inv_compactFinish hI hn ?_ ?_ (fun h0 => absurd h0 hn0) ?_ ?_
        · intro tb h
          rw [List.mem_singleton.mp h, hL]; simp
        · rw [hL]; exact List.sublist_cons_self _ _
        · intro tb h
          rw [if_pos hcond] at h
          exact List.mem_of_mem_filter h
        · intro tb htb s hs k hsk htbk
          rw [if_pos hcond]
          have hseq : s = hd := List.mem_singleton.mp hs
          subst hseq
          obtain ⟨v, hv⟩ := find_isSome_elim hsk
          obtain ⟨w, hw⟩ := find_isSome_elim htbk
          have htbWF := hI.tablesWF (n + 1) tb htb
          apply List.mem_filter.mpr
          exact ⟨htb, overlapsB_of_shared_key hhdWF htbWF hv hw⟩

theorem inv_triggerAux {comp : LSM → Nat → LSM}
    (hcomp : ∀ t n, Inv t → Inv (comp t n)) :
    ∀ (is : List Nat) (t : LSM), Inv t → Inv (triggerAuxF comp t is) := by
  intro is
  induction is with
  | nil => intro t hI; rw [triggerAuxF]; exact hI
  | cons i rest ih =>
    intro t hI
    rw [triggerAuxF]
    by_cases hc : overCap t i
    · rw [if_pos hc]
      exact ih _ (hcomp t i hI)
    · rw [if_neg hc]
      exact ih _ hI

theorem inv_fuel (f : Nat) : ∀ t n, Inv t → Inv (compactF f t n) := by
  induction f with
  | zero =>
    intro t n hI
    rw [compactF]
    exact hI
  | succ f ih =>
    intro t n hI
    rw [compactF]
    rcases hstep : compactStep t n with _ | t2
    · exact hI
    · exact inv_triggerAux ih _ t2 (inv_compactStep hI hstep)

theorem inv_compact {t : LSM} (hI : Inv t) (n : Nat) : Inv (t.compact n) :=
  inv_fuel _ t n hI

theorem inv_trigger {t : LSM} (hI : Inv t) : Inv t.trigger :=
  inv_triggerAux (inv_fuel _) _ t hI

/-! ## Invariant preservation through flush, writes, reads, and reset -/

theorem flushData_sorted {m : MemTable} (hnd : (m.data.map Prod.fst).Nodup) :
    EntriesSorted m.flushData := by
  apply entriesSorted_of_le_sorted
  · exact hnd.perm ((sortLe_perm entryLeB m.data).map Prod.fst).symm
  · exact sortLe_sorted entryLeB entryLeB_trans entryLeB_total _

theorem inv_flush {t : LSM} (hI : Inv t) : Inv t.flushMemTable := by
  unfold LSM.flushMemTable
  by_cases h0 : t.memtable.data.length = 0
  · rw [if_pos h0]; exact hI
  · rw [if_neg h0]
    have h0len : 0 < t.levels.length := by
      rw [hI.levelsLen]; have := hI.cfgPos; omega
    have hlev : ∀ i, (t.levels.set 0 (t.levelAt 0 ++
        [(⟨t.nextId, 0, t.memtable.flushData⟩ : SSTable)])).getD i [] =
        if i = 0 then t.levelAt 0 ++ [⟨t.nextId, 0, t.memtable.flushData⟩]
        else t.levelAt i := by
      intro i
      by_cases h1 : i = 0
      · subst h1; rw [if_pos rfl, getD_set_eq h0len]
      · rw [if_neg h1, getD_set_ne h1]; rfl
    have hdWF : TableWF ⟨t.nextId, 0, t.memtable.flushData⟩ := by
      refine ⟨flushData_sorted hI.mtNodup, ?_, ?_⟩
      · intro hnil
        have hnil2 : t.memtable.flushData = [] := hnil
        have hlen := congrArg List.length hnil2
        rw [show t.memtable.flushData.length = t.memtable.data.length from
          (sortLe_perm entryLeB t.memtable.data).length_eq] at hlen
        exact h0 hlen
      · intro e he
        exact hI.mtKeysNE e ((sortLe_perm entryLeB t.memtable.data).subset he)
    constructor
    · exact hI.cfgPos
    · show (t.levels.set 0 _).length = t.config.maxLevels
      simp [hI.levelsLen]
    · exact hI.mtMax
    · simp
    · intro e he; simp at he
    · intro i tb htb
      show tb.level = i
      rw [show (({ t with
          memtable := { t.memtable with data := [] },
          levels := t.levels.set 0 (t.levelAt 0 ++
            [(⟨t.nextId, 0, t.memtable.flushData⟩ : SSTable)]),
          nextId := t.nextId + 1,
          metrics := { t.metrics with itemsWrittenToSSTables :=
            t.metrics.itemsWrittenToSSTables +
              t.memtable.flushData.length } } : LSM).levelAt i) =
        (t.levels.set 0 (t.levelAt 0 ++
          [(⟨t.nextId, 0, t.memtable.flushData⟩ : SSTable)])).getD i []
        from rfl, hlev i] at htb
      by_cases h1 : i = 0
      · subst h1
        rw [if_pos rfl] at htb
        rcases List.mem_append.mp htb with h2 | h2
        · exact hI.tags 0 tb h2
        · rw [List.mem_singleton.mp h2]
      · rw [if_neg h1] at htb
        exact hI.tags i tb htb
    · intro i tb htb
      rw [show (({ t with
          memtable := { t.memtable with data := [] },
          levels := t.levels.set 0 (t.levelAt 0 ++
            [(⟨t.nextId, 0, t.memtable.flushData⟩ : SSTable)]),
          nextId := t.nextId + 1,
          metrics := { t.metrics with itemsWrittenToSSTables :=
            t.metrics.itemsWrittenToSSTables +
              t.memtable.flushData.length } } : LSM).levelAt i) =
        (t.levels.set 0 (t.levelAt 0 ++
          [(⟨t.nextId, 0, t.memtable.flushData⟩ : SSTable)])).getD i []
        from rfl, hlev i] at htb
      by_cases h1 : i = 0
      · subst h1
        rw [if_pos rfl] at htb
        rcases List.mem_append.mp htb with h2 | h2
        · exact hI.tablesWF 0 tb h2
        · rw [List.mem_singleton.mp h2]; exact hdWF
      · rw [if_neg h1] at htb
        exact hI.tablesWF i tb htb
    · intro i tb htb
      rw [show (({ t with
          memtable := { t.memtable with data := [] },
          levels := t.levels.set 0 (t.levelAt 0 ++
            [(⟨t.nextId, 0, t.memtable.flushData⟩ : SSTable)]),
          nextId := t.nextId + 1,
          metrics := { t.metrics with itemsWrittenToSSTables :=
            t.metrics.itemsWrittenToSSTables +
              t.memtable.flushData.length } } : LSM).levelAt i) =
        (t.levels.set 0 (t.levelAt 0 ++
          [(⟨t.nextId, 0, t.memtable.flushData⟩ : SSTable)])).getD i []
        from rfl, hlev i] at htb
      show tb.id < t.nextId + 1
      by_cases h1 : i = 0
      · subst h1
        rw [if_pos rfl] at htb
        rcases List.mem_append.mp htb with h2 | h2
        · have := hI.idsBound 0 tb h2; omega
        · rw [List.mem_singleton.mp h2]
          show t.nextId < t.nextId + 1
          omega
      · rw [if_neg h1] at htb
        have := hI.idsBound i tb htb; omega
    · intro i
      rw [show (({ t with
          memtable := { t.memtable with data := [] },
          levels := t.levels.set 0 (t.levelAt 0 ++
            [(⟨t.nextId, 0, t.memtable.flushData⟩ : SSTable)]),
          nextId := t.nextId + 1,
          metrics := { t.metrics with itemsWrittenToSSTables :=
            t.metrics.itemsWrittenToSSTables +
              t.memtable.flushData.length } } : LSM).levelAt i) =
        (t.levels.set 0 (t.levelAt 0 ++
          [(⟨t.nextId, 0, t.memtable.flushData⟩ : SSTable)])).getD i []
        from rfl, hlev i]
      by_cases h1 : i = 0
      · subst h1
        rw [if_pos rfl, List.map_append, List.nodup_append]
        refine ⟨hI.idsNodup 0, by simp, ?_⟩
        intro a ha hb
        simp only [List.map_cons, List.map_nil, List.mem_singleton] at hb
        obtain ⟨ta, hta, htaid⟩ := List.mem_map.mp ha
        have := hI.idsBound 0 ta hta
        omega
      · rw [if_neg h1]
        exact hI.idsNodup i
    · rw [show (({ t with
          memtable := { t.memtable with data := [] },
          levels := t.levels.set 0 (t.levelAt 0 ++
            [(⟨t.nextId, 0, t.memtable.flushData⟩ : SSTable)]),
          nextId := t.nextId + 1,
          metrics := { t.metrics with itemsWrittenToSSTables :=
            t.metrics.itemsWrittenToSSTables +
              t.memtable.flushData.length } } : LSM).levelAt 0) =
        (t.levels.set 0 (t.levelAt 0 ++
          [(⟨t.nextId, 0, t.memtable.flushData⟩ : SSTable)])).getD 0 []
        from rfl, hlev 0, if_pos rfl]
      rw [List.pairwise_append]
      refine ⟨hI.l0Asc, by simp, ?_⟩
      intro a ha b hb
      rw [List.mem_singleton.mp hb]
      exact hI.idsBound 0 a ha
    · intro i hi
      unfold TablesDisjoint
      rw [show (({ t with
          memtable := { t.memtable with data := [] },
          levels := t.levels.set 0 (t.levelAt 0 ++
            [(⟨t.nextId, 0, t.memtable.flushData⟩ : SSTable)]),
          nextId := t.nextId + 1,
          metrics := { t.metrics with itemsWrittenToSSTables :=
            t.metrics.itemsWrittenToSSTables +
              t.memtable.flushData.length } } : LSM).levelAt i) =
        (t.levels.set 0 (t.levelAt 0 ++
          [(⟨t.nextId, 0, t.memtable.flushData⟩ : SSTable)])).getD i []
        from rfl, hlev i, if_neg (by omega)]
      exact hI.disj i hi

theorem inv_metrics {t : LSM} (hI : Inv t) (m : Metrics) :
    Inv { t with metrics := m } := by
  constructor
  · exact hI.cfgPos
  · exact hI.levelsLen
  · exact hI.mtMax
  · exact hI.mtNodup
  · exact hI.mtKeysNE
  · exact hI.tags
  · exact hI.tablesWF
  · exact hI.idsBound
  · exact hI.idsNodup
  · exact hI.l0Asc
  · exact hI.disj

theorem inv_memtableSet {t : LSM} (hI : Inv t) (m : MemTable) (mt : Metrics)
    (hmax : m.maxSize = t.memtable.maxSize)
    (hnd : (m.data.map Prod.fst).Nodup) (hne : ∀ e ∈ m.data, e.1 ≠ "") :
    Inv { t with memtable := m, metrics := mt } := by
  constructor
  · exact hI.cfgPos
  · exact hI.levelsLen
  · rw [show ({ t with memtable := m, metrics := mt } : LSM).memtable = m
      from rfl, hmax]
    exact hI.mtMax
  · exact hnd
  · exact hne
  · exact hI.tags
  · exact hI.tablesWF
  · exact hI.idsBound
  · exact hI.idsNodup
  · exact hI.l0Asc
  · exact hI.disj

theorem memPut_maxSize (m : MemTable) (k v : String) :
    (m.put k v).maxSize = m.maxSize := by
  unfold MemTable.put
  by_cases hc : (m.data.map Prod.fst).contains k
  · rw [if_pos hc]
  · rw [if_neg hc]

theorem inv_flushIfFull {t : LSM} (hI : Inv t) : Inv t.flushIfFull := by
  unfold LSM.flushIfFull
  by_cases hf : t.memtable.isFull
  · rw [if_pos hf]; exact inv_flush hI
  · rw [if_neg hf]; exact hI

theorem inv_applyWrite {t : LSM} (hI : Inv t) {k : String} (hk : ¬ k = "")
    (v : String) : Inv (t.applyWrite k v) :=
  inv_memtableSet hI _ _ (memPut_maxSize _ _ _) (memPut_nodup k v hI.mtNodup)
    (memPut_keysNE v hk hI.mtKeysNE)

theorem inv_putR {t : LSM} (hI : Inv t) (k v : String) :
    Inv (t.putR k v).1 := by
  unfold LSM.putR
  by_cases hk : k = ""
  · rw [if_pos hk]; exact hI
  · rw [if_neg hk]
    by_cases hf1 : t.flushIfFull.memtable.isFull
    · rw [if_pos hf1]
      exact inv_flushIfFull hI
    · rw [if_neg hf1]
      exact inv_trigger
        (inv_flushIfFull (inv_applyWrite (inv_flushIfFull hI) hk v))

theorem inv_put {t : LSM} (hI : Inv t) (k v : String) : Inv (t.put k v) :=
  inv_putR hI k v

theorem inv_delete {t : LSM} (hI : Inv t) (k : String) : Inv (t.delete k) :=
  inv_putR hI k TOMBSTONE

theorem inv_getBump {t : LSM} (hI : Inv t) (n : Nat) : Inv (t.getBump n) :=
  inv_metrics hI _

theorem inv_getR {t : LSM} (hI : Inv t) (k : String) :
    Inv (t.getR k).2.2 := by
  unfold LSM.getR
  by_cases hk : k = ""
  · rw [if_pos hk]; exact hI
  · rw [if_neg hk]
    rcases hm : t.memtable.get k with _ | v
    · exact inv_getBump hI _
    · show Inv (if v = TOMBSTONE then
          ((some TOMBSTONE : Option String),
            [(⟨ProbeTarget.memtable, ProbeStatus.foundTombstone⟩ : ProbeStep)],
            t.getBump 0)
        else (some v,
            [(⟨ProbeTarget.memtable, ProbeStatus.found⟩ : ProbeStep)],
            t.getBump 0)).2.2
      by_cases hv : v = TOMBSTONE
      · rw [if_pos hv]
        exact inv_getBump hI 0
      · rw [if_neg hv]
        exact inv_getBump hI 0

theorem levelAt_reset (t : LSM) (c : ConfigInput) (i : Nat) :
    (t.reset c).levelAt i = [] := by
  show ((LSM.init c).levels.getD i []) = []
  rw [show (LSM.init c).levels.getD i [] = (LSM.init c).levelAt i from rfl]
  exact levelAt_init c i

theorem inv_reset {t : LSM} (c : ConfigInput) : Inv (t.reset c) := by
  constructor
  · exact resolveConfig_pos c
  · show (LSM.init c).levels.length = (LSM.init c).config.maxLevels
    simp [LSM.init]
  · rfl
  · show ((LSM.init c).memtable.data.map Prod.fst).Nodup
    simp [LSM.init]
  · intro e he
    have : e ∈ ([] : List Entry) := he
    cases this
  · intro i tb htb; rw [levelAt_reset] at htb; cases htb
  · intro i tb htb; rw [levelAt_reset] at htb; cases htb
  · intro i tb htb; rw [levelAt_reset] at htb; cases htb
  · intro i; rw [levelAt_reset]; simp
  · rw [levelAt_reset]; exact List.Pairwise.nil
  · intro i _
    unfold TablesDisjoint
    rw [levelAt_reset]
    exact List.Pairwise.nil

/-! ## Reachable engine states -/

/-- States reachable through the public interface (spec §6): construction,
put, delete, get, operator-invoked compaction at a valid level, and reset.
A compaction called with a negative level throws before touching anything
but the log (see `LSM.compactI`), so it adds no states. -/
inductive Reach : LSM → Prop where
  | init (c : ConfigInput) : Reach (LSM.init c)
  | put (t : LSM) (k v : String) : Reach t → Reach (t.put k v)
  | del (t : LSM) (k : String) : Reach t → Reach (t.delete k)
  | get (t : LSM) (k : String) : Reach t → Reach (t.getR k).2.2
  | compact (t : LSM) (n : Nat) : Reach t → Reach (t.compact n)
  | reset (t : LSM) (c : ConfigInput) : Reach t → Reach (t.reset c)

/-- Every reachable state satisfies the invariant. -/
theorem reach_inv {t : LSM} (h : Reach t) : Inv t := by
  induction h with
  | init c => exact inv_init c
  | put t k v _ ih => exact inv_put ih k v
  | del t k _ ih => exact inv_delete ih k
  | get t k _ ih => exact inv_getR ih k
  | compact t n _ ih => exact inv_compact ih n
  | reset t c _ ih => exact inv_reset c

/-! ## Metric bookkeeping lemmas for the write path -/

theorem compactStep_logicalWrites {t t' : LSM} {n : Nat}
    (h : compactStep t n = some t') :
    t'.metrics.logicalWrites = t.metrics.logicalWrites := by
  unfold compactStep at h
  by_cases hg : n + 1 ≥ t.config.maxLevels
  · rw [if_pos hg] at h; cases h
  · rw [if_neg hg] at h
    by_cases hn0 : n = 0
    · subst hn0
      rw [if_pos rfl] at h
      by_cases hc1 : (t.levelAt 0).length ≤ t.config.l0MaxSSTables ∧
          (t.levelAt 0).length > 0
      · rw [if_pos hc1, Option.some_inj] at h
        rw [← h]; rfl
      · rw [if_neg hc1] at h
        by_cases hc2 : (t.levelAt 0).length > t.config.l0MaxSSTables
        · rw [if_pos hc2, Option.some_inj] at h
          rw [← h]; rfl
        · rw [if_neg hc2] at h; cases h
    · rw [if_neg hn0] at h
      rcases hL : t.levelAt n with _ | ⟨hd, rest⟩
      · rw [hL] at h; cases h
      · rw [hL] at h
        simp only [Option.some_inj] at h
        rw [← h]; rfl

theorem triggerAux_logicalWrites {comp : LSM → Nat → LSM}
    (hcomp : ∀ t n, (comp t n).metrics.logicalWrites =
      t.metrics.logicalWrites) :
    ∀ (is : List Nat) (t : LSM),
      (triggerAuxF comp t is).metrics.logicalWrites =
        t.metrics.logicalWrites := by
  intro is
  induction is with
  | nil => intro t; rw [triggerAuxF]
  | cons i rest ih =>
    intro t
    rw [triggerAuxF]
    by_cases hc : overCap t i
    · rw [if_pos hc, ih, hcomp]
    · rw [if_neg hc, ih]

theorem fuel_logicalWrites (f : Nat) :
    ∀ t n, (compactF f t n).metrics.logicalWrites =
      t.metrics.logicalWrites := by
  induction f with
  | zero => intro t n; rw [compactF]
  | succ f ih =>
    intro t n
    rw [compactF]
    rcases hstep : compactStep t n with _ | t2
    · rfl
    · rw [triggerAux_logicalWrites ih]
      exact compactStep_logicalWrites hstep

theorem trigger_logicalWrites (t : LSM) :
    t.trigger.metrics.logicalWrites = t.metrics.logicalWrites :=
  triggerAux_logicalWrites (fuel_logicalWrites _) _ t

theorem flush_logicalWrites (t : LSM) :
    t.flushMemTable.metrics.logicalWrites = t.metrics.logicalWrites := by
  unfold LSM.flushMemTable
  by_cases h0 : t.memtable.data.length = 0
  · rw [if_pos h0]
  · rw [if_neg h0]

theorem flushIfFull_logicalWrites (s : LSM) :
    s.flushIfFull.metrics.logicalWrites = s.metrics.logicalWrites := by
  unfold LSM.flushIfFull
  by_cases hf : s.memtable.isFull
  · rw [if_pos hf]; exact flush_logicalWrites s
  · rw [if_neg hf]

theorem flush_not_full {t : LSM} (hm : 1 ≤ t.memtable.maxSize) :
    t.flushMemTable.memtable.isFull = false := by
  unfold LSM.flushMemTable
  by_cases h0 : t.memtable.data.length = 0
  · rw [if_pos h0]
    unfold MemTable.isFull
    simp only [ge_iff_le, decide_eq_false_iff_not, not_le]
    omega
  · rw [if_neg h0]
    unfold MemTable.isFull
    simp only [ge_iff_le, decide_eq_false_iff_not, not_le]
    show 0 < t.memtable.maxSize
    omega

theorem flush_maxSize (t : LSM) :
    t.flushMemTable.memtable.maxSize = t.memtable.maxSize := by
  unfold LSM.flushMemTable
  by_cases h0 : t.memtable.data.length = 0
  · rw [if_pos h0]
  · rw [if_neg h0]

/-! ## Probe-order reference semantics of the store

`tablesTop`/`levelsTop`/`keyTop` express what a read observes: the first
value found for a key in probe order — write buffer, then levels in
ascending order, level 0 newest (last-stored) run first.  They use the
reference lookup `SSTable.find` and no skip test; the lemmas below show
that both read-path variants of the source compute exactly this. -/

def tablesTop (k : String) : List SSTable → Option String
  | [] => none
  | tb :: rest =>
    match tb.find k with
    | some v => some v
    | none => tablesTop k rest

def levelsTop (k : String) : List (Nat × List SSTable) → Option String
  | [] => none
  | (i, ts) :: rest =>
    match tablesTop k (if i = 0 then ts.reverse else ts) with
    | some v => some v
    | none => levelsTop k rest

/-- Reference value of `k` in a state: write buffer first, then the levels
in probe order. -/
def keyTop (t : LSM) (k : String) : Option String :=
  match t.memtable.get k with
  | some v => some v
  | none => levelsTop k t.levels.enum

theorem tablesTop_cons (k : String) (tb : SSTable) (rest : List SSTable) :
    tablesTop k (tb :: rest) =
      match tb.find k with
      | some v => some v
      | none => tablesTop k rest := rfl

theorem tablesTop_append (k : String) (a b : List SSTable) :
    tablesTop k (a ++ b) = (tablesTop k a).or (tablesTop k b) := by
  induction a with
  | nil => rfl
  | cons tb rest ih =>
    rw [List.cons_append, tablesTop_cons, tablesTop_cons]
    rcases hf : tb.find k with _ | v
    · exact ih
    · rfl

theorem tablesTop_eq_none_iff {k : String} {ts : List SSTable} :
    tablesTop k ts = none ↔ ∀ tb ∈ ts, tb.find k = none := by
  induction ts with
  | nil => simp [tablesTop]
  | cons tb rest ih =>
    rw [tablesTop_cons]
    rcases hf : tb.find k with _ | v
    · constructor
      · intro h x hx
        rcases List.mem_cons.mp hx with hx | hx
        · rw [hx]; exact hf
        · exact ih.mp h x hx
      · intro h
        exact ih.mpr fun x hx => h x (List.mem_cons_of_mem _ hx)
    · constructor
      · intro h; cases h
      · intro h
        have hh := h tb (by simp)
        rw [hf] at hh; cases hh

theorem tablesTop_some_mem {k v : String} {ts : List SSTable}
    (h : tablesTop k ts = some v) : ∃ tb ∈ ts, tb.find k = some v := by
  induction ts with
  | nil => cases h
  | cons tb rest ih =>
    rw [tablesTop_cons] at h
    rcases hf : tb.find k with _ | w
    · rw [hf] at h
      obtain ⟨tb2, h1, h2⟩ := ih h
      exact ⟨tb2, List.mem_cons_of_mem _ h1, h2⟩
    · rw [hf] at h
      exact ⟨tb, by simp, by rw [hf]; exact h⟩

theorem tablesTop_eq_some_of {k v : String} {ts : List SSTable}
    (hex : ∃ tb ∈ ts, tb.find k = some v)
    (hall : ∀ tb ∈ ts, tb.find k = none ∨ tb.find k = some v) :
    tablesTop k ts = some v := by
  induction ts with
  | nil => obtain ⟨tb, h, _⟩ := hex; cases h
  | cons tb rest ih =>
    rw [tablesTop_cons]
    rcases hf : tb.find k with _ | w
    · apply ih
      · obtain ⟨tb2, h1, h2⟩ := hex
        rcases List.mem_cons.mp h1 with he | he
        · subst he; rw [hf] at h2; cases h2
        · exact ⟨tb2, he, h2⟩
      · intro x hx
        exact hall x (List.mem_cons_of_mem _ hx)
    · rcases hall tb (by simp) with h1 | h1
      · rw [hf] at h1; cases h1
      · rw [hf] at h1
        exact h1

theorem levelsTop_cons (k : String) (i : Nat) (ts : List SSTable)
    (rest : List (Nat × List SSTable)) :
    levelsTop k ((i, ts) :: rest) =
      match tablesTop k (if i = 0 then ts.reverse else ts) with
      | some v => some v
      | none => levelsTop k rest := rfl

theorem levelsTop_append (k : String) (a b : List (Nat × List SSTable)) :
    levelsTop k (a ++ b) = (levelsTop k a).or (levelsTop k b) := by
  induction a with
  | nil => rfl
  | cons p rest ih =>
    obtain ⟨i, ts⟩ := p
    rw [List.cons_append, levelsTop_cons, levelsTop_cons]
    rcases hf : tablesTop k (if i = 0 then ts.reverse else ts) with _ | v
    · exact ih
    · rfl

/-- A run skipped by the optimized read path cannot contain the key. -/
theorem skipRun_find_none {i : Nat} {tb : SSTable} {k : String}
    (hWF : TableWF tb) (hsk : skipRun i tb k = true) : tb.find k = none := by
  unfold skipRun at hsk
  obtain ⟨mn, hmn, _⟩ := hWF.minKey_spec
  obtain ⟨mx, hmx, _⟩ := hWF.maxKey_spec
  rw [hmn, hmx] at hsk
  simp only [Option.getD_some, Bool.and_eq_true, Bool.or_eq_true] at hsk
  exact sorted_out_of_range hWF.sorted hmn hmx hsk.2

theorem searchTablesV_eq_top (k : String) (i : Nat) {ts : List SSTable}
    (hWF : ∀ tb ∈ ts, TableWF tb) : searchTablesV k i ts = tablesTop k ts := by
  induction ts with
  | nil => rfl
  | cons tb rest ih =>
    have htbWF := hWF tb (by simp)
    have hrest := fun x hx => hWF x (List.mem_cons_of_mem _ hx)
    rw [searchTablesV, tablesTop_cons]
    by_cases hsk : skipRun i tb k = true
    · rw [if_pos hsk, skipRun_find_none htbWF hsk]
      exact ih hrest
    · rw [if_neg hsk]
      have hget : tb.get k = tb.find k := sstableGet_eq_findVal htbWF.sorted k
      rw [hget]
      rcases hf : tb.find k with _ | v
      · exact ih hrest
      · rfl

theorem searchTablesVN_eq_top (k : String) {ts : List SSTable}
    (hWF : ∀ tb ∈ ts, TableWF tb) : searchTablesVN k ts = tablesTop k ts := by
  induction ts with
  | nil => rfl
  | cons tb rest ih =>
    have htbWF := hWF tb (by simp)
    rw [searchTablesVN, tablesTop_cons]
    have hget : tb.get k = tb.find k := sstableGet_eq_findVal htbWF.sorted k
    rw [hget]
    rcases hf : tb.find k with _ | v
    · exact ih fun x hx => hWF x (List.mem_cons_of_mem _ hx)
    · rfl

theorem searchLevelsV_eq_top (k : String) {l : List (Nat × List SSTable)}
    (hWF : ∀ p ∈ l, ∀ tb ∈ p.2, TableWF tb) :
    searchLevelsV k l = levelsTop k l := by
  induction l with
  | nil => rfl
  | cons p rest ih =>
    obtain ⟨i, ts⟩ := p
    have hts : ∀ tb ∈ (if i = 0 then ts.reverse else ts), TableWF tb := by
      intro tb htb
      apply hWF (i, ts) (by simp)
      by_cases h0 : i = 0
      · rw [if_pos h0] at htb; exact List.mem_reverse.mp htb
      · rw [if_neg h0] at htb; exact htb
    rw [searchLevelsV, levelsTop_cons, searchTablesV_eq_top k i hts]
    rcases hf : tablesTop k (if i = 0 then ts.reverse else ts) with _ | v
    · exact ih fun p hp => hWF p (List.mem_cons_of_mem _ hp)
    · rfl

theorem searchLevelsVN_eq_top (k : String) {l : List (Nat × List SSTable)}
    (hWF : ∀ p ∈ l, ∀ tb ∈ p.2, TableWF tb) :
    searchLevelsVN k l = levelsTop k l := by
  induction l with
  | nil => rfl
  | cons p rest ih =>
    obtain ⟨i, ts⟩ := p
    have hts : ∀ tb ∈ (if i = 0 then ts.reverse else ts), TableWF tb := by
      intro tb htb
      apply hWF (i, ts) (by simp)
      by_cases h0 : i = 0
      · rw [if_pos h0] at htb; exact List.mem_reverse.mp htb
      · rw [if_neg h0] at htb; exact htb
    rw [searchLevelsVN, levelsTop_cons, searchTablesVN_eq_top k hts]
    rcases hf : tablesTop k (if i = 0 then ts.reverse else ts) with _ | v
    · exact ih fun p hp => hWF p (List.mem_cons_of_mem _ hp)
    · rfl

theorem levelAt_of_mem_enum {t : LSM} {p : Nat × List SSTable}
    (hp : p ∈ t.levels.enum) : t.levelAt p.1 = p.2 := by
  obtain ⟨i, ts⟩ := p
  obtain ⟨-, hlt, hx⟩ := List.mem_enumFrom hp
  show t.levels.getD i [] = ts
  rw [List.getD_eq_getElem?_getD,
    List.getElem?_eq_getElem (by omega : i < t.levels.length), Option.getD_some]
  rw [hx]
  simp

theorem enum_tablesWF {t : LSM} (hI : Inv t) :
    ∀ p ∈ t.levels.enum, ∀ tb ∈ p.2, TableWF tb := by
  intro p hp tb htb
  have h := levelAt_of_mem_enum hp
  exact hI.tablesWF p.1 tb (h ▸ htb)

theorem getValue_eq_keyTop {t : LSM} (hI : Inv t) {k : String} (hk : k ≠ "") :
    t.getValue k = keyTop t k := by
  unfold LSM.getValue keyTop
  rw [if_neg hk]
  rcases hm : t.memtable.get k with _ | v
  · exact searchLevelsV_eq_top k (enum_tablesWF hI)
  · rfl

theorem getValueNoSkip_eq_keyTop {t : LSM} (hI : Inv t) {k : String}
    (hk : k ≠ "") : t.getValueNoSkip k = keyTop t k := by
  unfold LSM.getValueNoSkip keyTop
  rw [if_neg hk]
  rcases hm : t.memtable.get k with _ | v
  · exact searchLevelsVN_eq_top k (enum_tablesWF hI)
  · rfl

theorem searchTablesR_fst (k : String) (i : Nat) (ts : List SSTable) :
    (searchTablesR k i ts).1 = searchTablesV k i ts := by
  induction ts with
  | nil => rfl
  | cons tb rest ih =>
    rw [searchTablesR, searchTablesV]
    by_cases hsk : skipRun i tb k = true
    · rw [if_pos hsk, if_pos hsk]
      exact ih
    · rw [if_neg hsk, if_neg hsk]
      rcases hg : tb.get k with _ | v
      · exact ih
      · show (if v = TOMBSTONE then
            ((some TOMBSTONE : Option String),
              [(⟨ProbeTarget.run i tb.id, ProbeStatus.foundTombstone⟩ :
                ProbeStep)], 1)
          else (some v,
              [(⟨ProbeTarget.run i tb.id, ProbeStatus.found⟩ : ProbeStep)],
              1)).1 = (some v : Option String)
        by_cases hv : v = TOMBSTONE
        · rw [if_pos hv, hv]
        · rw [if_neg hv]

theorem searchLevelsR_fst (k : String) (l : List (Nat × List SSTable)) :
    (searchLevelsR k l).1 = searchLevelsV k l := by
  induction l with
  | nil => rfl
  | cons p rest ih =>
    obtain ⟨i, ts⟩ := p
    rw [searchLevelsR, searchLevelsV, ← searchTablesR_fst k i]
    rcases hr : (searchTablesR k i (if i = 0 then ts.reverse else ts)).1
      with _ | v
    · exact ih
    · rfl

/-- The value component of the full read is `getValue`. -/
theorem getR_value_eq_getValue (t : LSM) (k : String) :
    (t.getR k).1 = t.getValue k := by
  unfold LSM.getR LSM.getValue
  by_cases hk : k = ""
  · rw [if_pos hk, if_pos hk]
  · rw [if_neg hk, if_neg hk]
    rcases hm : t.memtable.get k with _ | v
    · exact searchLevelsR_fst k t.levels.enum
    · show (if v = TOMBSTONE then
          ((some TOMBSTONE : Option String),
            [(⟨ProbeTarget.memtable, ProbeStatus.foundTombstone⟩ : ProbeStep)],
            t.getBump 0)
        else (some v,
            [(⟨ProbeTarget.memtable, ProbeStatus.found⟩ : ProbeStep)],
            t.getBump 0)).1 = (some v : Option String)
      by_cases hv : v = TOMBSTONE
      · rw [if_pos hv, hv]
      · rw [if_neg hv]

/-! ## Preservation of the probe-order view: reads and memtable writes -/

theorem keyTop_getR (t : LSM) (q k : String) :
    keyTop (t.getR q).2.2 k = keyTop t k := by
  unfold LSM.getR
  by_cases hq : q = ""
  · rw [if_pos hq]
  · rw [if_neg hq]
    rcases hm : t.memtable.get q with _ | v
    · rfl
    · show keyTop (if v = TOMBSTONE then
          ((some TOMBSTONE : Option String),
            [(⟨ProbeTarget.memtable, ProbeStatus.foundTombstone⟩ : ProbeStep)],
            t.getBump 0)
        else (some v,
            [(⟨ProbeTarget.memtable, ProbeStatus.found⟩ : ProbeStep)],
            t.getBump 0)).2.2 k = keyTop t k
      by_cases hv : v = TOMBSTONE
      · rw [if_pos hv]; rfl
      · rw [if_neg hv]; rfl

theorem keyTop_applyWrite_self {t : LSM} (hI : Inv t) (k v : String) :
    keyTop (t.applyWrite k v) k = some v := by
  unfold keyTop LSM.applyWrite MemTable.get
  show (match findVal k (t.memtable.put k v).data with
    | some w => some w
    | none => levelsTop k t.levels.enum) = some v
  rw [memPut_findVal t.memtable k v k hI.mtNodup, if_pos rfl]

theorem keyTop_applyWrite_other {t : LSM} (hI : Inv t) {k q : String}
    (hkq : k ≠ q) (v : String) :
    keyTop (t.applyWrite q v) k = keyTop t k := by
  unfold keyTop LSM.applyWrite MemTable.get
  show (match findVal k (t.memtable.put q v).data with
    | some w => some w
    | none => levelsTop k t.levels.enum) = _
  rw [memPut_findVal t.memtable q v k hI.mtNodup, if_neg hkq]

theorem flushData_find (m : MemTable) (hnd : (m.data.map Prod.fst).Nodup)
    (k : String) : findVal k m.flushData = findVal k m.data := by
  apply findVal_perm (sortLe_perm entryLeB m.data)
  exact hnd.perm ((sortLe_perm entryLeB m.data).map Prod.fst).symm

theorem keyTop_flush {t : LSM} (hI : Inv t) (k : String) :
    keyTop t.flushMemTable k = keyTop t k := by
  unfold LSM.flushMemTable
  by_cases h0 : t.memtable.data.length = 0
  · rw [if_pos h0]
  · rw [if_neg h0]
    have hlen : 0 < t.levels.length := by
      rw [hI.levelsLen]; have := hI.cfgPos; omega
    have hex : ∃ l0 lrest, t.levels = l0 :: lrest := by
      rcases hL : t.levels with _ | ⟨l0, lrest⟩
      · rw [hL] at hlen; simp at hlen
      · exact ⟨l0, lrest, rfl⟩
    obtain ⟨l0, lrest, hL⟩ := hex
    have hl0 : t.levelAt 0 = l0 := by
      show t.levels.getD 0 [] = l0
      rw [hL]; rfl
    have htbf : findVal k t.memtable.flushData = findVal k t.memtable.data :=
      flushData_find t.memtable hI.mtNodup k
    show levelsTop k ((t.levels.set 0 (t.levelAt 0 ++
        [(⟨t.nextId, 0, t.memtable.flushData⟩ : SSTable)])).enum) = keyTop t k
    have hset : t.levels.set 0 (t.levelAt 0 ++
        [(⟨t.nextId, 0, t.memtable.flushData⟩ : SSTable)]) =
        (l0 ++ [⟨t.nextId, 0, t.memtable.flushData⟩]) :: lrest := by
      rw [hl0, hL]
      rfl
    rw [hset,
      show ((l0 ++ [(⟨t.nextId, 0, t.memtable.flushData⟩ : SSTable)]) ::
          lrest).enum =
        (0, l0 ++ [(⟨t.nextId, 0, t.memtable.flushData⟩ : SSTable)]) ::
          lrest.enumFrom 1 from rfl,
      levelsTop_cons, if_pos rfl, List.reverse_append,
      show ([(⟨t.nextId, 0, t.memtable.flushData⟩ : SSTable)]).reverse =
        [⟨t.nextId, 0, t.memtable.flushData⟩] from rfl,
      List.singleton_append, tablesTop_cons,
      show (⟨t.nextId, 0, t.memtable.flushData⟩ : SSTable).find k =
        findVal k t.memtable.flushData from rfl,
      htbf]
    unfold keyTop MemTable.get
    rw [hL, show (l0 :: lrest).enum = (0, l0) :: lrest.enumFrom 1 from rfl,
      levelsTop_cons, if_pos rfl]
    rcases hm : findVal k t.memtable.data with _ | v
    · rfl
    · rfl

theorem keyTop_flushIfFull {t : LSM} (hI : Inv t) (k : String) :
    keyTop t.flushIfFull k = keyTop t k := by
  unfold LSM.flushIfFull
  by_cases hf : t.memtable.isFull
  · rw [if_pos hf]; exact keyTop_flush hI k
  · rw [if_neg hf]

/-! ## Order-split lemmas for the stable sort -/

theorem insertLe_head_le (le : α → α → Bool) (a : α) {l : List α}
    (h : ∀ y ∈ l, le a y = true) : insertLe le a l = a :: l := by
  cases l with
  | nil => rfl
  | cons b rest => rw [insertLe, if_pos (h b (by simp))]

theorem insertLe_last (le : α → α → Bool) (a : α) {l : List α}
    (h : ∀ y ∈ l, le a y = false) : insertLe le a l = l ++ [a] := by
  induction l with
  | nil => rfl
  | cons b rest ih =>
    rw [insertLe, if_neg (by rw [h b (by simp)]; simp),
      ih fun y hy => h y (List.mem_cons_of_mem _ hy)]
    rfl

theorem insertLe_append_left (le : α → α → Bool) (a : α) (u w : List α)
    (h : ∀ y ∈ w, le a y = true) :
    insertLe le a (u ++ w) = insertLe le a u ++ w := by
  induction u with
  | nil =>
    rw [List.nil_append, insertLe_head_le le a h]
    rfl
  | cons b rest ih =>
    rw [List.cons_append, insertLe, insertLe]
    by_cases hab : le a b = true
    · rw [if_pos hab, if_pos hab]; rfl
    · rw [if_neg hab, if_neg hab, ih]; rfl

theorem sortLe_append_split (le : α → α → Bool) (a b : List α)
    (h : ∀ x ∈ a, ∀ y ∈ b, le x y = true) :
    sortLe le (a ++ b) = sortLe le a ++ sortLe le b := by
  induction a with
  | nil => rfl
  | cons x rest ih =>
    rw [List.cons_append]
    show insertLe le x (sortLe le (rest ++ b)) =
      insertLe le x (sortLe le rest) ++ sortLe le b
    rw [ih fun y hy => h y (List.mem_cons_of_mem _ hy)]
    exact insertLe_append_left le x _ _ fun y hy =>
      h x (by simp) y (sortLe_mem.mp hy)

/-- On a single-level run list with strictly ascending identifiers —
level 0's storage order — the merge comparator's sort is exactly the
probe order (newest first). -/
theorem sortLe_tableLeB_asc_ids {l : List SSTable} {lv : Nat}
    (hlvl : ∀ tb ∈ l, tb.level = lv)
    (hasc : l.Pairwise fun a b => a.id < b.id) :
    sortLe tableLeB l = l.reverse := by
  induction l with
  | nil => rfl
  | cons x xs ih =>
    rcases List.pairwise_cons.mp hasc with ⟨hx, hxs⟩
    show insertLe tableLeB x (sortLe tableLeB xs) = (x :: xs).reverse
    rw [ih (fun tb htb => hlvl tb (List.mem_cons_of_mem _ htb)) hxs,
      List.reverse_cons]
    apply insertLe_last
    intro y hy
    have hymem : y ∈ xs := List.mem_reverse.mp hy
    have hxy : x.id < y.id := hx y hymem
    have hxl : x.level = lv := hlvl x (by simp)
    have hyl : y.level = lv := hlvl y (List.mem_cons_of_mem _ hymem)
    unfold tableLeB
    rw [if_neg (by omega), if_neg (by omega)]
    simp only [decide_eq_false_iff_not]
    omega

/-! ## The merge winner and the filtered output, in probe order -/

theorem tablesTop_mkTables (k : String) (lvl : Nat) :
    ∀ (base : Nat) (cs : List (List Entry)),
    tablesTop k (mkTables lvl base cs) = findVal k cs.flatten := by
  intro base cs
  induction cs generalizing base with
  | nil => rfl
  | cons c rest ih =>
    rw [mkTables, tablesTop_cons, List.flatten_cons, findVal_append,
      show (⟨base, lvl, c⟩ : SSTable).find k = findVal k c from rfl]
    rcases hf : findVal k c with _ | v
    · exact ih (base + 1)
    · rfl

theorem findVal_flatten_data (k : String) (ts : List SSTable) :
    findVal k ((ts.map fun tb => tb.data).flatten) = tablesTop k ts := by
  induction ts with
  | nil => rfl
  | cons tb rest ih =>
    rw [List.map_cons, List.flatten_cons, findVal_append, tablesTop_cons, ih,
      show findVal k tb.data = tb.find k from rfl]
    rcases hf : tb.find k with _ | v
    · rfl
    · rfl

theorem mergeTables_findVal_top (k : String) (ts : List SSTable) :
    findVal k (mergeTables ts) = tablesTop k ts := by
  rw [mergeTables_findVal, findVal_flatten_data]

/-- The merge winner of a compaction in probe order: source tables first
(for level 0, newest first), then the overlap set. -/
theorem compact_winner {n : Nat} {src ovl : List SSTable}
    (hsrc : ∀ tb ∈ src, tb.level = n) (hovl : ∀ tb ∈ ovl, tb.level = n + 1)
    (k : String) :
    findVal k (mergeTables (sortLe tableLeB (src ++ ovl))) =
      (tablesTop k (sortLe tableLeB src)).or
        (tablesTop k (sortLe tableLeB ovl)) := by
  rw [mergeTables_findVal_top,
    sortLe_append_split tableLeB src ovl (fun x hx y hy => by
      have h1 := hsrc x hx
      have h2 := hovl y hy
      unfold tableLeB
      rw [if_pos (show x.level < y.level by omega)]),
    tablesTop_append]

theorem findVal_filter {p : Entry → Bool} {l : List Entry}
    (hnd : (l.map Prod.fst).Nodup) {k v : String}
    (hv : findVal k l = some v) :
    findVal k (l.filter p) = if p (k, v) = true then some v else none := by
  have hmem : (k, v) ∈ l := findVal_mem hv
  have hndf : ((l.filter p).map Prod.fst).Nodup :=
    hnd.sublist ((@List.filter_sublist _ p l).map Prod.fst)
  by_cases hp : p (k, v) = true
  · rw [if_pos hp]
    exact findVal_of_mem_nodup hndf (List.mem_filter.mpr ⟨hmem, hp⟩)
  · rw [if_neg hp]
    rw [findVal_eq_none_iff]
    intro hkf
    rw [List.mem_map] at hkf
    obtain ⟨e, hef, hek⟩ := hkf
    have hel : e ∈ l := List.mem_of_mem_filter hef
    have hpe : p e = true := List.of_mem_filter hef
    have heq : (k, e.2) = e := by rw [← hek]
    have h1 : findVal k l = some e.2 :=
      findVal_of_mem_nodup hnd (by rw [heq]; exact hel)
    rw [hv] at h1
    have hv2 : v = e.2 := Option.some_inj.mp h1
    apply hp
    rw [← heq] at hpe
    rw [← hv2] at hpe
    exact hpe

theorem findVal_filter_none {p : Entry → Bool} {l : List Entry} {k : String}
    (h : findVal k l = none) : findVal k (l.filter p) = none := by
  rw [findVal_eq_none_iff] at h ⊢
  intro hmem
  apply h
  obtain ⟨e, he, hek⟩ := List.mem_map.mp hmem
  exact List.mem_map.mpr ⟨e, List.mem_of_mem_filter he, hek⟩

theorem compactOutput_findVal (c : Config) (n : Nat) (src ovl : List SSTable)
    (k : String) :
    findVal k (compactOutput c n src ovl) =
      match findVal k (mergeTables (sortLe tableLeB (src ++ ovl))) with
      | none => none
      | some w => if keepEntry c n (k, w) = true then some w else none := by
  have heq : findVal k (compactOutput c n src ovl) =
      findVal k ((mergeTables (sortLe tableLeB (src ++ ovl))).filter
        (keepEntry c n)) := by
    have hnd : (((mergeTables (sortLe tableLeB (src ++ ovl))).filter
        (keepEntry c n)).map Prod.fst).Nodup :=
      (mergeTables_nodupKeys _).sublist
        ((@List.filter_sublist _ (keepEntry c n) _).map Prod.fst)
    exact (findVal_perm (sortLe_perm entryLeB _).symm hnd).symm
  rw [heq]
  rcases hW : findVal k (mergeTables (sortLe tableLeB (src ++ ovl))) with _ | w
  · exact findVal_filter_none hW
  · exact findVal_filter (mergeTables_nodupKeys _) hW

theorem keepEntry_of_ne {c : Config} {n : Nat} {k v : String}
    (hv : v ≠ TOMBSTONE) : keepEntry c n (k, v) = true := by
  unfold keepEntry
  simp [hv]

/-! ## Decomposing a double `set` of the level list -/

theorem set_set_decomp {α : Type _} :
    ∀ (l : List α) (n : Nat), n + 1 < l.length → ∀ (A B : α),
    (l.set n A).set (n + 1) B = l.take n ++ A :: B :: l.drop (n + 2) := by
  intro l
  induction l with
  | nil => intro n h; simp at h
  | cons x rest ih =>
    intro n h A B
    cases n with
    | zero =>
      cases rest with
      | nil => simp at h
      | cons y rrest => rfl
    | succ m =>
      show x :: ((rest.set m A).set (m + 1) B) =
        x :: (rest.take m ++ A :: B :: rest.drop (m + 2))
      rw [ih m (by simp at h; omega) A B]

/-- Probe value of the rebuilt target level of a compaction: the kept
(non-overlapping) tables never hold a merged key, and the fresh tables
hold exactly the filtered output, so the target's probe value is the
output value when the key survives, nothing when its winner was dropped,
and the kept tables' value when the key was not merged at all. -/
theorem tablesTop_compactTarget {t : LSM} (hI : Inv t) {n : Nat}
    {src ovl : List SSTable}
    (hovl : ∀ tb ∈ ovl, tb ∈ t.levelAt (n + 1))
    (hcomp : ∀ tb ∈ t.levelAt (n + 1), ∀ s ∈ src, ∀ q : String,
      (s.find q).isSome = true → (tb.find q).isSome = true → tb ∈ ovl)
    (k : String) :
    tablesTop k (sortLe minKeyLeB
        (compactKept t n ovl ++ compactNewTables t n src ovl)) =
      match findVal k (compactOutput t.config n src ovl) with
      | some w => some w
      | none =>
        match findVal k (mergeTables (sortLe tableLeB (src ++ ovl))) with
        | some _ => none
        | none => tablesTop k (compactKept t n ovl) := by
  have hmax0 : t.config.sstableMaxItems ≠ 0 := by
    have := hI.cfgPos; omega
  have hBmem : ∀ tb : SSTable, tb ∈ sortLe minKeyLeB
      (compactKept t n ovl ++ compactNewTables t n src ovl) ↔
      tb ∈ compactKept t n ovl ∨ tb ∈ compactNewTables t n src ovl := by
    intro tb
    rw [sortLe_mem, List.mem_append]
  have hkeptLn1 : ∀ tb ∈ compactKept t n ovl, tb ∈ t.levelAt (n + 1) :=
    fun tb h => (compactKept_sublist t n ovl).subset h
  have hkeptNone : ∀ tb ∈ compactKept t n ovl, ∀ w : String,
      findVal k (mergeTables (sortLe tableLeB (src ++ ovl))) = some w →
      tb.find k = none := by
    intro tb htb w hW
    rcases hf : tb.find k with _ | u
    · rfl
    · exfalso
      have hkw : (k, w) ∈ mergeTables (sortLe tableLeB (src ++ ovl)) :=
        findVal_mem hW
      obtain ⟨s2, hs2, hkvs⟩ := mergeTables_mem hkw
      have hs22 : s2 ∈ src ++ ovl := sortLe_mem.mp hs2
      have htbSome : (tb.find k).isSome = true := by rw [hf]; rfl
      have hs2Some : (s2.find k).isSome = true := find_isSome_of_mem hkvs
      rcases List.mem_append.mp hs22 with hsl | hso
      · have hin : tb ∈ ovl :=
          hcomp tb (hkeptLn1 tb htb) s2 hsl k hs2Some htbSome
        exact compactKept_not_shared htb hin rfl
      · have hs2Ln1 : s2 ∈ t.levelAt (n + 1) := hovl s2 hso
        have heq : s2 = tb := pairwise_disjoint_mem_eq
          (hI.disj (n + 1) (by omega)) hs2Ln1 (hkeptLn1 tb htb)
          hs2Some htbSome
        subst heq
        exact compactKept_not_shared htb hso rfl
  have hnewTop : tablesTop k (compactNewTables t n src ovl) =
      findVal k (compactOutput t.config n src ovl) := by
    unfold compactNewTables
    rw [tablesTop_mkTables]
    unfold compactChunks
    rw [chunkList_flatten hmax0]
  have hnewFind : ∀ tb ∈ compactNewTables t n src ovl, ∀ w : String,
      tb.find k = some w →
      findVal k (compactOutput t.config n src ovl) = some w := by
    intro tb htb w hf
    have hdata := (compactNewTables_mem htb).2.1
    have hsub : tb.data.Sublist (compactOutput t.config n src ovl) :=
      chunkList_sublist hdata
    exact findVal_of_mem_nodup (compactOutput_nodupKeys _ _ _ _)
      (hsub.subset (findVal_mem hf))
  rcases hout : findVal k (compactOutput t.config n src ovl) with _ | w
  · rcases hW : findVal k (mergeTables (sortLe tableLeB (src ++ ovl)))
      with _ | w
    · show tablesTop k (sortLe minKeyLeB
          (compactKept t n ovl ++ compactNewTables t n src ovl)) =
        tablesTop k (compactKept t n ovl)
      rcases hkept : tablesTop k (compactKept t n ovl) with _ | u
      · rw [tablesTop_eq_none_iff]
        intro tb htb
        rcases (hBmem tb).mp htb with h | h
        · exact tablesTop_eq_none_iff.mp hkept tb h
        · rcases hf : tb.find k with _ | u
          · rfl
          · exact absurd (hnewFind tb h u hf) (by rw [hout]; simp)
      · obtain ⟨tb0, htb0, hf0⟩ := tablesTop_some_mem hkept
        apply tablesTop_eq_some_of
        · exact ⟨tb0, (hBmem tb0).mpr (Or.inl htb0), hf0⟩
        · intro tb htb
          rcases (hBmem tb).mp htb with h | h
          · rcases hf : tb.find k with _ | u2
            · exact Or.inl rfl
            · have heq : tb = tb0 := pairwise_disjoint_mem_eq
                (hI.disj (n + 1) (by omega)) (hkeptLn1 tb h)
                (hkeptLn1 tb0 htb0) (by rw [hf]; rfl) (by rw [hf0]; rfl)
              subst heq
              exact Or.inr (hf.symm.trans hf0)
          · rcases hf : tb.find k with _ | u2
            · exact Or.inl rfl
            · exact absurd (hnewFind tb h u2 hf) (by rw [hout]; simp)
    · show tablesTop k (sortLe minKeyLeB
          (compactKept t n ovl ++ compactNewTables t n src ovl)) = none
      rw [tablesTop_eq_none_iff]
      intro tb htb
      rcases (hBmem tb).mp htb with h | h
      · exact hkeptNone tb h w hW
      · rcases hf : tb.find k with _ | u
        · rfl
        · exact absurd (hnewFind tb h u hf) (by rw [hout]; simp)
  · show tablesTop k (sortLe minKeyLeB
        (compactKept t n ovl ++ compactNewTables t n src ovl)) = some w
    have hWex : ∃ w2, findVal k (mergeTables (sortLe tableLeB (src ++ ovl)))
        = some w2 := by
      rcases hW2 : findVal k (mergeTables (sortLe tableLeB (src ++ ovl)))
        with _ | w2
      · exfalso
        have hcf := compactOutput_findVal t.config n src ovl k
        rw [hout, hW2] at hcf
        exact Option.noConfusion hcf
      · exact ⟨w2, rfl⟩
    obtain ⟨w2, hW⟩ := hWex
    obtain ⟨tbn, htbn, hfn⟩ := tablesTop_some_mem (hnewTop.trans hout)
    apply tablesTop_eq_some_of
    · exact ⟨tbn, (hBmem tbn).mpr (Or.inr htbn), hfn⟩
    · intro tb htb
      rcases (hBmem tb).mp htb with h | h
      · exact Or.inl (hkeptNone tb h w2 hW)
      · rcases hf : tb.find k with _ | u
        · exact Or.inl rfl
        · have hu := hnewFind tb h u hf
          rw [hout] at hu
          have huw : u = w := (Option.some_inj.mp hu).symm
          exact Or.inr (by rw [huw])

theorem or_some_left {α : Type _} (a : α) (b : Option α) :
    (some a).or b = some a := rfl

theorem option_or_eq_none {α : Type _} {a b : Option α} (h : a.or b = none) :
    a = none ∧ b = none := by
  cases a with
  | none => exact ⟨rfl, by simpa using h⟩
  | some x => exact Option.noConfusion h

theorem levelsTop_cons_or (k : String) (i : Nat) (ts : List SSTable)
    (rest : List (Nat × List SSTable)) :
    levelsTop k ((i, ts) :: rest) =
      (tablesTop k (if i = 0 then ts.reverse else ts)).or (levelsTop k rest) := by
  rw [levelsTop_cons]
  rcases h : tablesTop k (if i = 0 then ts.reverse else ts) with _ | v
  · rfl
  · rfl

/-- A live probe-order value survives one compaction verbatim: the merge
selects the probe-first occurrence among the merged runs, the tombstone
filter keeps non-tombstone winners, overlap selection captures every
duplicate, and the untouched levels are unchanged. -/
theorem keyTop_compactFinish {t : LSM} (hI : Inv t) {n : Nat}
    (hn : n + 1 < t.config.maxLevels) {srcRest src ovl : List SSTable}
    (hsrc : ∀ tb ∈ src, tb ∈ t.levelAt n)
    (hovl : ∀ tb ∈ ovl, tb ∈ t.levelAt (n + 1))
    (hcomp : ∀ tb ∈ t.levelAt (n + 1), ∀ s ∈ src, ∀ q : String,
      (s.find q).isSome = true → (tb.find q).isSome = true → tb ∈ ovl)
    {k : String}
    (hprobe : tablesTop k
        (if n = 0 then (t.levelAt n).reverse else t.levelAt n) =
      (tablesTop k (sortLe tableLeB src)).or
        (tablesTop k (if n = 0 then srcRest.reverse else srcRest)))
    (hsrcDisj : ∀ w : String,
      tablesTop k (sortLe tableLeB src) = some w →
      tablesTop k (if n = 0 then srcRest.reverse else srcRest) = none)
    {v : String} (htop : keyTop t k = some v) (hv : v ≠ TOMBSTONE) :
    keyTop (compactFinish t n srcRest src ovl) k = some v := by
  have hn1 : n + 1 < t.levels.length := by rw [hI.levelsLen]; exact hn
  have hsrcLvl : ∀ tb ∈ src, tb.level = n := fun tb h => hI.tags n tb (hsrc tb h)
  have hovlLvl : ∀ tb ∈ ovl, tb.level = n + 1 :=
    fun tb h => hI.tags (n + 1) tb (hovl tb h)
  have hkeptLn1 : ∀ tb ∈ compactKept t n ovl, tb ∈ t.levelAt (n + 1) :=
    fun tb h => (compactKept_sublist t n ovl).subset h
  have hAt : ∀ i (hi : i < t.levels.length), t.levelAt i = t.levels[i] := by
    intro i hi
    show t.levels.getD i [] = _
    rw [List.getD_eq_getElem?_getD, List.getElem?_eq_getElem hi]
    rfl
  have hdec : t.levels = t.levels.take n ++ t.levelAt n ::
      t.levelAt (n + 1) :: t.levels.drop (n + 2) := by
    rw [hAt n (by omega), hAt (n + 1) (by omega),
      ← List.drop_eq_getElem_cons (show n + 1 < t.levels.length by omega),
      ← List.drop_eq_getElem_cons (show n < t.levels.length by omega)]
    exact (List.take_append_drop n t.levels).symm
  have hlt : (t.levels.take n).length = n := by
    rw [List.length_take]; omega
  unfold keyTop at htop
  show (match t.memtable.get k with
    | some w => some w
    | none => levelsTop k (((t.levels.set n srcRest).set (n + 1)
        (sortLe minKeyLeB (compactKept t n ovl ++
          compactNewTables t n src ovl))).enum)) = some v
  rcases hm : t.memtable.get k with _ | w
  · rw [hm] at htop
    have htop2 : levelsTop k t.levels.enum = some v := htop
    show levelsTop k (((t.levels.set n srcRest).set (n + 1)
        (sortLe minKeyLeB (compactKept t n ovl ++
          compactNewTables t n src ovl))).enum) = some v
    rw [set_set_decomp t.levels n hn1, List.enum_append, hlt,
      show List.enumFrom n (srcRest :: sortLe minKeyLeB (compactKept t n ovl ++
          compactNewTables t n src ovl) :: t.levels.drop (n + 2)) =
        (n, srcRest) :: (n + 1, sortLe minKeyLeB (compactKept t n ovl ++
          compactNewTables t n src ovl)) ::
          List.enumFrom (n + 2) (t.levels.drop (n + 2)) from rfl,
      levelsTop_append, levelsTop_cons_or, levelsTop_cons_or,
      if_neg (Nat.succ_ne_zero n)]
    rw [hdec, List.enum_append, hlt,
      show List.enumFrom n (t.levelAt n :: t.levelAt (n + 1) ::
          t.levels.drop (n + 2)) =
        (n, t.levelAt n) :: (n + 1, t.levelAt (n + 1)) ::
          List.enumFrom (n + 2) (t.levels.drop (n + 2)) from rfl,
      levelsTop_append, levelsTop_cons_or, levelsTop_cons_or,
      if_neg (Nat.succ_ne_zero n)] at htop2
    rcases hP : levelsTop k (t.levels.take n).enum with _ | w
    · rw [hP, Option.none_or] at htop2
      rw [Option.none_or]
      rcases hLn : tablesTop k
          (if n = 0 then (t.levelAt n).reverse else t.levelAt n) with _ | u
      · rw [hLn, Option.none_or] at htop2
        rw [hLn] at hprobe
        obtain ⟨hW1, hW2⟩ := option_or_eq_none hprobe.symm
        rw [hW2, Option.none_or]
        rcases hLn1 : tablesTop k (t.levelAt (n + 1)) with _ | u1
        · rw [hLn1, Option.none_or] at htop2
          have hWovl : tablesTop k (sortLe tableLeB ovl) = none := by
            rw [tablesTop_eq_none_iff]
            intro tb htb
            exact tablesTop_eq_none_iff.mp hLn1 tb (hovl tb (sortLe_mem.mp htb))
          have hmerged : findVal k (mergeTables (sortLe tableLeB (src ++ ovl)))
              = none := by
            rw [compact_winner hsrcLvl hovlLvl k, hW1, hWovl]
            rfl
          have hout : findVal k (compactOutput t.config n src ovl) = none := by
            have hcf := compactOutput_findVal t.config n src ovl k
            rw [hmerged] at hcf
            exact hcf
          have hkept : tablesTop k (compactKept t n ovl) = none := by
            rw [tablesTop_eq_none_iff]
            intro tb htb
            exact tablesTop_eq_none_iff.mp hLn1 tb (hkeptLn1 tb htb)
          have hB0 := tablesTop_compactTarget hI hovl hcomp k
          rw [hout, hmerged] at hB0
          have hB : tablesTop k (sortLe minKeyLeB (compactKept t n ovl ++
              compactNewTables t n src ovl)) =
              tablesTop k (compactKept t n ovl) := hB0
          rw [hkept] at hB
          rw [hB, Option.none_or]
          exact htop2
        · rw [hLn1, or_some_left] at htop2
          have hu1 : u1 = v := Option.some_inj.mp htop2
          obtain ⟨tb1, htb1, hf1⟩ := tablesTop_some_mem hLn1
          have hu1ne : u1 ≠ TOMBSTONE := by rw [hu1]; exact hv
          by_cases hin : tb1 ∈ ovl
          · have hWovl : tablesTop k (sortLe tableLeB ovl) = some u1 := by
              apply tablesTop_eq_some_of
              · exact ⟨tb1, sortLe_mem.mpr hin, hf1⟩
              · intro tb htb
                rcases hf : tb.find k with _ | u2
                · exact Or.inl rfl
                · have heq : tb = tb1 := pairwise_disjoint_mem_eq
                    (hI.disj (n + 1) (by omega))
                    (hovl tb (sortLe_mem.mp htb)) htb1
                    (by rw [hf]; rfl) (by rw [hf1]; rfl)
                  subst heq
                  exact Or.inr (hf.symm.trans hf1)
            have hmerged : findVal k (mergeTables (sortLe tableLeB
                (src ++ ovl))) = some u1 := by
              rw [compact_winner hsrcLvl hovlLvl k, hW1, hWovl]
              rfl
            have hout : findVal k (compactOutput t.config n src ovl)
                = some u1 := by
              have hcf := compactOutput_findVal t.config n src ovl k
              rw [hmerged] at hcf
              have hcf2 : findVal k (compactOutput t.config n src ovl) =
                  if keepEntry t.config n (k, u1) = true then some u1
                  else none := hcf
              rw [keepEntry_of_ne hu1ne, if_pos rfl] at hcf2
              exact hcf2
            have hB0 := tablesTop_compactTarget hI hovl hcomp k
            rw [hout] at hB0
            rw [hB0, hu1, or_some_left]
          · have hid : ¬ (ovl.any fun o => o.id = tb1.id) = true := by
              intro hany
              obtain ⟨o, ho, hoid⟩ := List.any_eq_true.mp hany
              simp only [decide_eq_true_eq] at hoid
              have heq : o = tb1 := mem_eq_of_nodup_ids (hI.idsNodup (n + 1))
                (hovl o ho) htb1 hoid
              exact hin (heq ▸ ho)
            have hkeptMem : tb1 ∈ compactKept t n ovl := by
              unfold compactKept
              apply List.mem_filter.mpr
              exact ⟨htb1, by simpa using hid⟩
            have hWovl : tablesTop k (sortLe tableLeB ovl) = none := by
              rw [tablesTop_eq_none_iff]
              intro tb htb
              rcases hf : tb.find k with _ | u2
              · rfl
              · exfalso
                have heq : tb = tb1 := pairwise_disjoint_mem_eq
                  (hI.disj (n + 1) (by omega))
                  (hovl tb (sortLe_mem.mp htb)) htb1
                  (by rw [hf]; rfl) (by rw [hf1]; rfl)
                exact hin (heq ▸ sortLe_mem.mp htb)
            have hmerged : findVal k (mergeTables (sortLe tableLeB
                (src ++ ovl))) = none := by
              rw [compact_winner hsrcLvl hovlLvl k, hW1, hWovl]
              rfl
            have hout : findVal k (compactOutput t.config n src ovl)
                = none := by
              have hcf := compactOutput_findVal t.config n src ovl k
              rw [hmerged] at hcf
              exact hcf
            have hkept : tablesTop k (compactKept t n ovl) = some u1 := by
              apply tablesTop_eq_some_of
              · exact ⟨tb1, hkeptMem, hf1⟩
              · intro tb htb
                rcases hf : tb.find k with _ | u2
                · exact Or.inl rfl
                · have heq : tb = tb1 := pairwise_disjoint_mem_eq
                    (hI.disj (n + 1) (by omega))
                    (hkeptLn1 tb htb) htb1
                    (by rw [hf]; rfl) (by rw [hf1]; rfl)
                  subst heq
                  exact Or.inr (hf.symm.trans hf1)
            have hB0 := tablesTop_compactTarget hI hovl hcomp k
            rw [hout, hmerged] at hB0
            have hB : tablesTop k (sortLe minKeyLeB (compactKept t n ovl ++
                compactNewTables t n src ovl)) =
                tablesTop k (compactKept t n ovl) := hB0
            rw [hkept] at hB
            rw [hB, hu1, or_some_left]
      · rw [hLn, or_some_left] at htop2
        have hu : u = v := Option.some_inj.mp htop2
        rw [hLn] at hprobe
        rcases hW1 : tablesTop k (sortLe tableLeB src) with _ | w1
        · rw [hW1, Option.none_or] at hprobe
          rw [← hprobe, hu, or_some_left]
        · rw [hW1, or_some_left] at hprobe
          have hw1 : w1 = u := (Option.some_inj.mp hprobe).symm
          have hrest := hsrcDisj w1 hW1
          rw [hrest, Option.none_or]
          have hw1ne : w1 ≠ TOMBSTONE := by rw [hw1, hu]; exact hv
          have hmerged : findVal k (mergeTables (sortLe tableLeB
              (src ++ ovl))) = some w1 := by
            rw [compact_winner hsrcLvl hovlLvl k, hW1]
            rfl
          have hout : findVal k (compactOutput t.config n src ovl)
              = some w1 := by
            have hcf := compactOutput_findVal t.config n src ovl k
            rw [hmerged] at hcf
            have hcf2 : findVal k (compactOutput t.config n src ovl) =
                if keepEntry t.config n (k, w1) = true then some w1
                else none := hcf
            rw [keepEntry_of_ne hw1ne, if_pos rfl] at hcf2
            exact hcf2
          have hB0 := tablesTop_compactTarget hI hovl hcomp k
          rw [hout] at hB0
          rw [hB0, hw1, hu, or_some_left]
    · rw [hP, or_some_left] at htop2
      rw [or_some_left]
      exact htop2
  · rw [hm] at htop
    exact htop

theorem keyTop_compactStep {t t' : LSM} (hI : Inv t) {n : Nat}
    (hstep : compactStep t n = some t') {k v : String}
    (htop : keyTop t k = some v) (hv : v ≠ TOMBSTONE) :
    keyTop t' k = some v := by
  unfold compactStep at hstep
  by_cases hg : n + 1 ≥ t.config.maxLevels
  · rw [if_pos hg] at hstep; cases hstep
  · rw [if_neg hg] at hstep
    have hn : n + 1 < t.config.maxLevels := by omega
    by_cases hn0 : n = 0
    · subst hn0
      rw [if_pos rfl] at hstep
      have hshared : ∀ tb ∈ t.levelAt (0 + 1), ∀ s ∈ t.levelAt 0,
          ∀ q : String, (s.find q).isSome = true →
          (tb.find q).isSome = true →
          tb ∈ gatherOverlapsL0 (t.levelAt 0) (t.levelAt 1) := by
        intro tb htb s hs q hsk htbk
        obtain ⟨w, hw⟩ := find_isSome_elim hsk
        obtain ⟨w2, hw2⟩ := find_isSome_elim htbk
        have hsWF := hI.tablesWF 0 s hs
        have htbWF := hI.tablesWF 1 tb htb
        exact gatherOverlapsL0_complete (hI.idsNodup 1) hs hsWF.truthy_min
          hsWF.truthy_max htb (overlapsB_of_shared_key hsWF htbWF hw hw2)
      have hsort : sortLe tableLeB (t.levelAt 0) = (t.levelAt 0).reverse :=
        sortLe_tableLeB_asc_ids (fun tb h => hI.tags 0 tb h) hI.l0Asc
      have hprobe : tablesTop k
          (if 0 = 0 then (t.levelAt 0).reverse else t.levelAt 0) =
          (tablesTop k (sortLe tableLeB (t.levelAt 0))).or
            (tablesTop k (if 0 = 0 then ([] : List SSTable).reverse
              else [])) := by
        rw [if_pos rfl, if_pos rfl, hsort]
        rcases h : tablesTop k ((t.levelAt 0).reverse) with _ | w
        · rfl
        · rfl
      have hsrcDisj : ∀ w : String,
          tablesTop k (sortLe tableLeB (t.levelAt 0)) = some w →
          tablesTop k (if 0 = 0 then ([] : List SSTable).reverse else [])
            = none := fun w _ => rfl
      by_cases hc1 : (t.levelAt 0).length ≤ t.config.l0MaxSSTables ∧
          (t.levelAt 0).length > 0
      · rw [if_pos hc1, Option.some_inj] at hstep
        rw [← hstep]
        exact keyTop_compactFinish hI hn (fun tb h => h)
          (fun tb h => gatherOverlapsL0_subset h) hshared hprobe hsrcDisj
          htop hv
      · rw [if_neg hc1] at hstep
        by_cases hc2 : (t.levelAt 0).length > t.config.l0MaxSSTables
        · rw [if_pos hc2, Option.some_inj] at hstep
          rw [← hstep]
          exact keyTop_compactFinish hI hn (fun tb h => h)
            (fun tb h => gatherOverlapsL0_subset h) hshared hprobe hsrcDisj
            htop hv
        · rw [if_neg hc2] at hstep; cases hstep
    · rw [if_neg hn0] at hstep
      rcases hL : t.levelAt n with _ | ⟨hd, rest⟩
      · rw [hL] at hstep; cases hstep
      · rw [hL] at hstep
        simp only [Option.some_inj] at hstep
        rw [← hstep]
        have hhd : hd ∈ t.levelAt n := by rw [hL]; simp
        have hhdWF := hI.tablesWF n hd hhd
        have hcond : keyTruthy hd.minKey? ∧ keyTruthy hd.maxKey? := by
          rw [hhdWF.truthy_min, hhdWF.truthy_max]; exact ⟨rfl, rfl⟩
        have hsrc : ∀ tb ∈ [hd], tb ∈ t.levelAt n := by
          intro tb h
          rw [List.mem_singleton.mp h, hL]; simp
        have hovl : ∀ tb ∈ (if keyTruthy hd.minKey? ∧ keyTruthy hd.maxKey?
            then (t.levelAt (n + 1)).filter
              (fun tb => tb.overlapsB hd.minKey? hd.maxKey?)
            else []), tb ∈ t.levelAt (n + 1) := by
          intro tb h
          rw [if_pos hcond] at h
          exact List.mem_of_mem_filter h
        have hcomp : ∀ tb ∈ t.levelAt (n + 1), ∀ s ∈ [hd], ∀ q : String,
            (s.find q).isSome = true → (tb.find q).isSome = true →
            tb ∈ (if keyTruthy hd.minKey? ∧ keyTruthy hd.maxKey?
              then (t.levelAt (n + 1)).filter
                (fun tb => tb.overlapsB hd.minKey? hd.maxKey?)
              else []) := by
          intro tb htb s hs q hsk htbk
          rw [if_pos hcond]
          have hseq : s = hd := List.mem_singleton.mp hs
          subst hseq
          obtain ⟨w, hw⟩ := find_isSome_elim hsk
          obtain ⟨w2, hw2⟩ := find_isSome_elim htbk
          have htbWF := hI.tablesWF (n + 1) tb htb
          apply List.mem_filter.mpr
          exact ⟨htb, overlapsB_of_shared_key hhdWF htbWF hw hw2⟩
        have hprobe : tablesTop k
            (if n = 0 then (t.levelAt n).reverse else t.levelAt n) =
            (tablesTop k (sortLe tableLeB [hd])).or
              (tablesTop k (if n = 0 then rest.reverse else rest)) := by
          rw [if_neg hn0, if_neg hn0, hL,
            show hd :: rest = [hd] ++ rest from rfl, tablesTop_append]
          rfl
        have hsrcDisj : ∀ w : String,
            tablesTop k (sortLe tableLeB [hd]) = some w →
            tablesTop k (if n = 0 then rest.reverse else rest) = none := by
          intro w hw
          rw [if_neg hn0]
          have hfhd : hd.find k = some w := by
            have hw2 : tablesTop k [hd] = some w := hw
            rw [tablesTop_cons] at hw2
            rcases hf : hd.find k with _ | u
            · rw [hf] at hw2; cases hw2
            · rw [hf] at hw2
              exact hw2
          rw [tablesTop_eq_none_iff]
          intro tb htb
          rcases hf : tb.find k with _ | u
          · rfl
          · exfalso
            have hdisj := hI.disj n (by omega)
            rw [hL] at hdisj
            rcases List.pairwise_cons.mp hdisj with ⟨hhead, -⟩
            exact hhead tb htb k (by rw [hfhd]; rfl) (by rw [hf]; rfl)
        exact keyTop_compactFinish hI hn hsrc hovl hcomp hprobe hsrcDisj
          htop hv

theorem keyTop_triggerAux {comp : LSM → Nat → LSM}
    (hcomp : ∀ t n, Inv t → Inv (comp t n)) {k v : String}
    (hkeep : ∀ t n, Inv t → keyTop t k = some v →
      keyTop (comp t n) k = some v) :
    ∀ (is : List Nat) (t : LSM), Inv t → keyTop t k = some v →
      keyTop (triggerAuxF comp t is) k = some v := by
  intro is
  induction is with
  | nil => intro t _ h; rw [triggerAuxF]; exact h
  | cons i rest ih =>
    intro t hI h
    rw [triggerAuxF]
    by_cases hc : overCap t i
    · rw [if_pos hc]
      exact ih _ (hcomp t i hI) (hkeep t i hI h)
    · rw [if_neg hc]
      exact ih _ hI h

theorem keyTop_compactF (f : Nat) {k v : String} (hv : v ≠ TOMBSTONE) :
    ∀ t n, Inv t → keyTop t k = some v →
      keyTop (compactF f t n) k = some v := by
  induction f with
  | zero => intro t n _ h; rw [compactF]; exact h
  | succ f ih =>
    intro t n hI h
    rw [compactF]
    rcases hstep : compactStep t n with _ | t2
    · exact h
    · exact keyTop_triggerAux (inv_fuel f) ih _ t2 (inv_compactStep hI hstep)
        (keyTop_compactStep hI hstep h hv)

theorem keyTop_trigger {t : LSM} (hI : Inv t) {k v : String}
    (h : keyTop t k = some v) (hv : v ≠ TOMBSTONE) :
    keyTop t.trigger k = some v :=
  keyTop_triggerAux (inv_fuel _) (keyTop_compactF _ hv) _ t hI h

theorem keyTop_compact {t : LSM} (hI : Inv t) (n : Nat) {k v : String}
    (h : keyTop t k = some v) (hv : v ≠ TOMBSTONE) :
    keyTop (t.compact n) k = some v :=
  keyTop_compactF _ hv t n hI h

theorem flushIfFull_not_full {t : LSM} (hmax : 1 ≤ t.memtable.maxSize) :
    t.flushIfFull.memtable.isFull = false := by
  unfold LSM.flushIfFull
  by_cases hf : t.memtable.isFull
  · rw [if_pos hf]; exact flush_not_full hmax
  · rw [if_neg hf]
    exact Bool.eq_false_iff.mpr hf

/-- After a successful `put k v` the probe-order value of `k` is `v`:
the write lands in the buffer and the post-write flush and trigger keep
it on top (for a non-tombstone `v`). -/
theorem keyTop_putR_self {t : LSM} (hI : Inv t) {k : String} (hk : k ≠ "")
    {v : String} (hv : v ≠ TOMBSTONE) :
    keyTop (t.putR k v).1 k = some v := by
  unfold LSM.putR
  rw [if_neg hk]
  have hmax : 1 ≤ t.memtable.maxSize := by
    rw [hI.mtMax]; exact hI.cfgPos.1
  rw [flushIfFull_not_full hmax, if_neg Bool.false_ne_true]
  show keyTop ((t.flushIfFull.applyWrite k v).flushIfFull).trigger k = some v
  have hI1 : Inv t.flushIfFull := inv_flushIfFull hI
  have h2 : keyTop (t.flushIfFull.applyWrite k v) k = some v :=
    keyTop_applyWrite_self hI1 k v
  have hI2 : Inv (t.flushIfFull.applyWrite k v) := inv_applyWrite hI1 hk v
  have h3 : keyTop ((t.flushIfFull.applyWrite k v).flushIfFull) k = some v := by
    rw [keyTop_flushIfFull hI2 k]
    exact h2
  exact keyTop_trigger (inv_flushIfFull hI2) h3 hv

/-- A write to a different key leaves the probe-order value of `k`
unchanged (for a live value). -/
theorem keyTop_putR_other {t : LSM} (hI : Inv t) {k q : String} (hkq : k ≠ q)
    {v : String} (hvtop : keyTop t k = some v) (hv : v ≠ TOMBSTONE)
    (w : String) : keyTop (t.putR q w).1 k = some v := by
  unfold LSM.putR
  by_cases hq : q = ""
  · rw [if_pos hq]; exact hvtop
  · rw [if_neg hq]
    by_cases hf1 : t.flushIfFull.memtable.isFull
    · rw [if_pos hf1]
      show keyTop t.flushIfFull k = some v
      rw [keyTop_flushIfFull hI k]
      exact hvtop
    · rw [if_neg hf1]
      show keyTop ((t.flushIfFull.applyWrite q w).flushIfFull).trigger k
        = some v
      have hI1 := inv_flushIfFull hI
      have h1 : keyTop t.flushIfFull k = some v := by
        rw [keyTop_flushIfFull hI k]
        exact hvtop
      have h2 : keyTop (t.flushIfFull.applyWrite q w) k = some v := by
        rw [keyTop_applyWrite_other hI1 hkq w]
        exact h1
      have hI2 := inv_applyWrite hI1 hq w
      have h3 : keyTop ((t.flushIfFull.applyWrite q w).flushIfFull) k
          = some v := by
        rw [keyTop_flushIfFull hI2 k]
        exact h2
      exact keyTop_trigger (inv_flushIfFull hI2) h3 hv

/-! ## Sequences of public operations -/

/-- Abstract public operation for the history-based claims (reset is
excluded: it deliberately discards the whole store). -/
inductive Op where
  | put (k v : String)
  | del (k : String)
  | get (k : String)
  | compact (n : Nat)
deriving Repr, DecidableEq

def applyOp (t : LSM) : Op → LSM
  | .put k v => t.put k v
  | .del k => t.delete k
  | .get k => (t.getR k).2.2
  | .compact n => t.compact n

def applyOps (t : LSM) : List Op → LSM
  | [] => t
  | o :: os => applyOps (applyOp t o) os

/-- Whether an operation writes key `k` (a put or a delete of `k`). -/
def Op.writesKey (k : String) : Op → Bool
  | .put q _ => q = k
  | .del q => q = k
  | _ => false

theorem reach_applyOp {t : LSM} (h : Reach t) (o : Op) :
    Reach (applyOp t o) := by
  cases o with
  | put k v => exact Reach.put t k v h
  | del k => exact Reach.del t k h
  | get k => exact Reach.get t k h
  | compact n => exact Reach.compact t n h

theorem reach_applyOps {t : LSM} (h : Reach t) (ops : List Op) :
    Reach (applyOps t ops) := by
  induction ops generalizing t with
  | nil => exact h
  | cons o os ih => exact ih (reach_applyOp h o)

theorem keyTop_applyOp {t : LSM} (hI : Inv t) {k v : String} {o : Op}
    (ho : o.writesKey k = false) (htop : keyTop t k = some v)
    (hv : v ≠ TOMBSTONE) : keyTop (applyOp t o) k = some v := by
  cases o with
  | put q w =>
    have hkq : k ≠ q := by
      intro he
      rw [Op.writesKey] at ho
      subst he
      simp at ho
    exact keyTop_putR_other hI hkq htop hv w
  | del q =>
    have hkq : k ≠ q := by
      intro he
      rw [Op.writesKey] at ho
      subst he
      simp at ho
    exact keyTop_putR_other hI hkq htop hv TOMBSTONE
  | get q =>
    show keyTop (t.getR q).2.2 k = some v
    rw [keyTop_getR]
    exact htop
  | compact n => exact keyTop_compact hI n htop hv

theorem keyTop_applyOps {k v : String} (hv : v ≠ TOMBSTONE) :
    ∀ (ops : List Op) (t : LSM), Reach t →
    (∀ o ∈ ops, o.writesKey k = false) → keyTop t k = some v →
    keyTop (applyOps t ops) k = some v := by
  intro ops
  induction ops with
  | nil => intro t _ _ htop; exact htop
  | cons o os ih =>
    intro t h hops htop
    show keyTop (applyOps (applyOp t o) os) k = some v
    exact ih _ (reach_applyOp h o)
      (fun o2 ho2 => hops o2 (List.mem_cons_of_mem _ ho2))
      (keyTop_applyOp (reach_inv h) (hops o (by simp)) htop hv)

/-! ## The termination measure decreases at every real compaction -/

/-- Total number of entries stored in a list of runs. -/
def itemsOf (ts : List SSTable) : Nat := (ts.map fun tb => tb.data.length).sum

theorem itemsOf_append (a b : List SSTable) :
    itemsOf (a ++ b) = itemsOf a + itemsOf b := by
  simp [itemsOf]

theorem itemsOf_perm {a b : List SSTable} (h : a.Perm b) :
    itemsOf a = itemsOf b := (h.map _).sum_eq

theorem itemsOf_pos {ts : List SSTable} (hne : ts ≠ [])
    (hWF : ∀ tb ∈ ts, TableWF tb) : 1 ≤ itemsOf ts := by
  rcases ts with _ | ⟨tb, rest⟩
  · exact absurd rfl hne
  · have h1 : tb.data ≠ [] := (hWF tb (by simp)).nonempty
    have h2 : 1 ≤ tb.data.length := List.length_pos_of_ne_nil h1
    show 1 ≤ tb.data.length + itemsOf rest
    omega

theorem muMeasure_eq (t : LSM) :
    muMeasure t = (t.levels.enum.map
      (fun p => (t.config.maxLevels - p.1) * itemsOf p.2)).sum := rfl

theorem mu_split (c : Config) (P : List (List SSTable)) (X Y : List SSTable)
    (S : List (List SSTable)) (n : Nat) (hP : P.length = n) :
    ((P ++ X :: Y :: S).enum.map
        (fun p => (c.maxLevels - p.1) * itemsOf p.2)).sum
      = (P.enum.map (fun p => (c.maxLevels - p.1) * itemsOf p.2)).sum
        + ((c.maxLevels - n) * itemsOf X
        + ((c.maxLevels - (n + 1)) * itemsOf Y
        + ((List.enumFrom (n + 2) S).map
            (fun p => (c.maxLevels - p.1) * itemsOf p.2)).sum)) := by
  rw [List.enum_append, hP, List.map_append, List.sum_append,
    show List.enumFrom n (X :: Y :: S) =
      (n, X) :: (n + 1, Y) :: List.enumFrom (n + 2) S from rfl,
    List.map_cons, List.sum_cons, List.map_cons, List.sum_cons]

theorem mkTables_itemsOf {lvl : Nat} :
    ∀ (base : Nat) (cs : List (List Entry)),
    itemsOf (mkTables lvl base cs) = (cs.map List.length).sum := by
  intro base cs
  induction cs generalizing base with
  | nil => rfl
  | cons c rest ih =>
    rw [mkTables]
    show c.length + itemsOf (mkTables lvl (base + 1) rest) = _
    rw [ih (base + 1), List.map_cons, List.sum_cons]

theorem compactOutput_length_le (c : Config) (n : Nat)
    (src ovl : List SSTable) :
    (compactOutput c n src ovl).length ≤ itemsOf src + itemsOf ovl := by
  unfold compactOutput
  rw [(sortLe_perm entryLeB _).length_eq]
  have h1 : ((mergeTables (sortLe tableLeB (src ++ ovl))).filter
      (keepEntry c n)).length ≤
      (mergeTables (sortLe tableLeB (src ++ ovl))).length :=
    (List.filter_sublist _).length_le
  have h2 := mergeTables_length_le (sortLe tableLeB (src ++ ovl))
  have h3 : (((sortLe tableLeB (src ++ ovl)).map
      fun tb => tb.data.length)).sum = itemsOf (src ++ ovl) :=
    itemsOf_perm (sortLe_perm tableLeB (src ++ ovl))
  rw [itemsOf_append] at h3
  omega

theorem compactNewTables_itemsOf {t : LSM} (hmax : t.config.sstableMaxItems ≠ 0)
    (n : Nat) (src ovl : List SSTable) :
    itemsOf (compactNewTables t n src ovl) =
      (compactOutput t.config n src ovl).length := by
  unfold compactNewTables
  rw [mkTables_itemsOf]
  exact chunkList_length_sum hmax _

theorem gather_inner_ids_nodup {target : List SSTable} {mk xk : Option String} :
    ∀ {acc : List SSTable}, ((acc.map SSTable.id)).Nodup →
    ((target.foldl
      (fun acc2 tb =>
        if tb.overlapsB mk xk ∧ ¬ acc2.any (fun o => o.id = tb.id)
        then acc2 ++ [tb] else acc2) acc).map SSTable.id).Nodup := by
  induction target with
  | nil => intro acc h; exact h
  | cons tb rest ih =>
    intro acc h
    rw [List.foldl_cons]
    apply ih
    by_cases hc : tb.overlapsB mk xk ∧ ¬ acc.any (fun o => o.id = tb.id)
    · rw [if_pos hc]
      rw [List.map_append, List.nodup_append]
      refine ⟨h, by simp, ?_⟩
      intro a ha hb
      simp only [List.map_cons, List.map_nil, List.mem_singleton] at hb
      obtain ⟨o, ho, hoid⟩ := List.mem_map.mp ha
      exact hc.2 (List.any_eq_true.mpr ⟨o, ho, by simp [hoid, hb]⟩)
    · rw [if_neg hc]
      exact h

theorem gatherOverlapsL0_ids_nodup (src target : List SSTable) :
    ((gatherOverlapsL0 src target).map SSTable.id).Nodup := by
  unfold gatherOverlapsL0
  suffices hgen : ∀ (l : List SSTable) (acc : List SSTable),
      ((acc.map SSTable.id)).Nodup →
      ((l.foldl
        (fun acc s =>
          if ¬ keyTruthy s.minKey? ∨ ¬ keyTruthy s.maxKey? then acc
          else
            target.foldl
              (fun acc2 tb =>
                if tb.overlapsB s.minKey? s.maxKey? ∧
                    ¬ acc2.any (fun o => o.id = tb.id)
                then acc2 ++ [tb] else acc2)
              acc)
        acc).map SSTable.id).Nodup from hgen src [] (by simp)
  intro l
  induction l with
  | nil => intro acc h; exact h
  | cons s rest ih =>
    intro acc h
    rw [List.foldl_cons]
    apply ih
    by_cases hc : ¬ keyTruthy s.minKey? ∨ ¬ keyTruthy s.maxKey?
    · rw [if_pos hc]; exact h
    · rw [if_neg hc]
      exact gather_inner_ids_nodup h

/-- The target level splits, entry-count-wise, into the kept tables and
the overlap set. -/
theorem itemsOf_level_partition {t : LSM} (hI : Inv t) {n : Nat}
    {ovl : List SSTable} (hovl : ∀ tb ∈ ovl, tb ∈ t.levelAt (n + 1))
    (hovlnd : (ovl.map SSTable.id).Nodup) :
    itemsOf (t.levelAt (n + 1)) =
      itemsOf (compactKept t n ovl) + itemsOf ovl := by
  have hnd1 : (t.levelAt (n + 1)).Nodup :=
    List.Nodup.of_map SSTable.id (hI.idsNodup (n + 1))
  have hnd2 : ovl.Nodup := List.Nodup.of_map SSTable.id hovlnd
  have hperm := List.filter_append_perm
    (fun tb => ¬ ovl.any (fun o => o.id = tb.id)) (t.levelAt (n + 1))
  have hstep1 : itemsOf (t.levelAt (n + 1)) =
      itemsOf (compactKept t n ovl) +
      itemsOf ((t.levelAt (n + 1)).filter
        (fun tb => !(decide (¬ ovl.any (fun o => o.id = tb.id))))) := by
    rw [← itemsOf_append]
    exact (itemsOf_perm hperm).symm
  rw [hstep1]
  have hperm2 : ((t.levelAt (n + 1)).filter
      (fun tb => !(decide (¬ ovl.any (fun o => o.id = tb.id))))).Perm ovl := by
    apply List.perm_of_nodup_nodup_toFinset_eq
    · exact hnd1.sublist (List.filter_sublist _)
    · exact hnd2
    · ext tb
      simp only [List.mem_toFinset, List.mem_filter, Bool.not_eq_true',
        decide_eq_false_iff_not, not_not]
      constructor
      · rintro ⟨hmem, hany⟩
        obtain ⟨o, ho, hoid⟩ := List.any_eq_true.mp hany
        simp only [decide_eq_true_eq] at hoid
        have heq : o = tb :=
          mem_eq_of_nodup_ids (hI.idsNodup (n + 1)) (hovl o ho) hmem hoid
        exact heq ▸ ho
      · intro ho
        exact ⟨hovl tb ho, List.any_eq_true.mpr ⟨tb, ho, by simp⟩⟩
  rw [itemsOf_perm hperm2]

/-- The measure strictly drops across `compactFinish` whenever the source
selection is non-empty. -/
theorem muMeasure_compactFinish_lt {t : LSM} (hI : Inv t) {n : Nat}
    (hn : n + 1 < t.config.maxLevels) {srcRest src ovl : List SSTable}
    (hsrcItems : itemsOf (t.levelAt n) = itemsOf srcRest + itemsOf src)
    (hsrc1 : 1 ≤ itemsOf src)
    (hovl : ∀ tb ∈ ovl, tb ∈ t.levelAt (n + 1))
    (hovlnd : (ovl.map SSTable.id).Nodup) :
    muMeasure (compactFinish t n srcRest src ovl) < muMeasure t := by
  have hn1 : n + 1 < t.levels.length := by rw [hI.levelsLen]; exact hn
  have hmax0 : t.config.sstableMaxItems ≠ 0 := by have := hI.cfgPos; omega
  have hAt : ∀ i (hi : i < t.levels.length), t.levelAt i = t.levels[i] := by
    intro i hi
    show t.levels.getD i [] = _
    rw [List.getD_eq_getElem?_getD, List.getElem?_eq_getElem hi]
    rfl
  have hdec : t.levels = t.levels.take n ++ t.levelAt n ::
      t.levelAt (n + 1) :: t.levels.drop (n + 2) := by
    rw [hAt n (by omega), hAt (n + 1) (by omega),
      ← List.drop_eq_getElem_cons (show n + 1 < t.levels.length by omega),
      ← List.drop_eq_getElem_cons (show n < t.levels.length by omega)]
    exact (List.take_append_drop n t.levels).symm
  have hlt : (t.levels.take n).length = n := by
    rw [List.length_take]; omega
  have hmu : muMeasure t = ((t.levels.take n).enum.map
      (fun p => (t.config.maxLevels - p.1) * itemsOf p.2)).sum
      + ((t.config.maxLevels - n) * itemsOf (t.levelAt n)
      + ((t.config.maxLevels - (n + 1)) * itemsOf (t.levelAt (n + 1))
      + ((List.enumFrom (n + 2) (t.levels.drop (n + 2))).map
          (fun p => (t.config.maxLevels - p.1) * itemsOf p.2)).sum)) := by
    rw [muMeasure_eq]
    conv_lhs => rw [hdec]
    exact mu_split t.config _ _ _ _ n hlt
  have hmu2 : muMeasure (compactFinish t n srcRest src ovl) =
      ((t.levels.take n).enum.map
        (fun p => (t.config.maxLevels - p.1) * itemsOf p.2)).sum
      + ((t.config.maxLevels - n) * itemsOf srcRest
      + ((t.config.maxLevels - (n + 1)) * itemsOf (sortLe minKeyLeB
          (compactKept t n ovl ++ compactNewTables t n src ovl))
      + ((List.enumFrom (n + 2) (t.levels.drop (n + 2))).map
          (fun p => (t.config.maxLevels - p.1) * itemsOf p.2)).sum)) := by
    rw [muMeasure_eq]
    show (((t.levels.set n srcRest).set (n + 1) _).enum.map
      (fun p => (t.config.maxLevels - p.1) * itemsOf p.2)).sum = _
    rw [set_set_decomp t.levels n hn1]
    exact mu_split t.config _ _ _ _ n hlt
  rw [hmu, hmu2]
  have hBitems : itemsOf (sortLe minKeyLeB
      (compactKept t n ovl ++ compactNewTables t n src ovl)) =
      itemsOf (compactKept t n ovl) + itemsOf (compactNewTables t n src ovl) := by
    rw [itemsOf_perm (sortLe_perm minKeyLeB _), itemsOf_append]
  have hnew : itemsOf (compactNewTables t n src ovl) ≤
      itemsOf src + itemsOf ovl := by
    rw [compactNewTables_itemsOf hmax0]
    exact compactOutput_length_le _ _ _ _
  have hpart := itemsOf_level_partition hI hovl hovlnd
  have hW : t.config.maxLevels - n = (t.config.maxLevels - (n + 1)) + 1 := by
    omega
  rw [hBitems, hsrcItems, hpart, hW]
  have hmulN : (t.config.maxLevels - (n + 1)) *
      itemsOf (compactNewTables t n src ovl) ≤
      (t.config.maxLevels - (n + 1)) * itemsOf src +
      (t.config.maxLevels - (n + 1)) * itemsOf ovl := by
    rw [← Nat.mul_add]
    exact Nat.mul_le_mul_left _ hnew
  have he1 : ((t.config.maxLevels - (n + 1)) + 1) * itemsOf srcRest =
      (t.config.maxLevels - (n + 1)) * itemsOf srcRest + itemsOf srcRest :=
    Nat.succ_mul _ _
  have he2 : ((t.config.maxLevels - (n + 1)) + 1) *
      (itemsOf srcRest + itemsOf src) =
      (t.config.maxLevels - (n + 1)) * itemsOf srcRest +
      (t.config.maxLevels - (n + 1)) * itemsOf src +
      itemsOf srcRest + itemsOf src := by
    rw [Nat.succ_mul, Nat.mul_add]
    omega
  have he3 : (t.config.maxLevels - (n + 1)) *
      (itemsOf (compactKept t n ovl) + itemsOf (compactNewTables t n src ovl)) =
      (t.config.maxLevels - (n + 1)) * itemsOf (compactKept t n ovl) +
      (t.config.maxLevels - (n + 1)) * itemsOf (compactNewTables t n src ovl) :=
    Nat.mul_add _ _ _
  have he4 : (t.config.maxLevels - (n + 1)) *
      (itemsOf (compactKept t n ovl) + itemsOf ovl) =
      (t.config.maxLevels - (n + 1)) * itemsOf (compactKept t n ovl) +
      (t.config.maxLevels - (n + 1)) * itemsOf ovl :=
    Nat.mul_add _ _ _
  rw [he1, he2, he3, he4]
  omega

theorem config_compactFinish (t : LSM) (n : Nat)
    (srcRest src ovl : List SSTable) :
    (compactFinish t n srcRest src ovl).config = t.config := rfl

/-- Every fired compaction step strictly decreases the measure. -/
theorem muMeasure_compactStep_lt {t t' : LSM} (hI : Inv t) {n : Nat}
    (hstep : compactStep t n = some t') : muMeasure t' < muMeasure t := by
  unfold compactStep at hstep
  by_cases hg : n + 1 ≥ t.config.maxLevels
  · rw [if_pos hg] at hstep; cases hstep
  · rw [if_neg hg] at hstep
    have hn : n + 1 < t.config.maxLevels := by omega
    by_cases hn0 : n = 0
    · subst hn0
      rw [if_pos rfl] at hstep
      have hl0max : 1 ≤ t.config.l0MaxSSTables := hI.cfgPos.2.1
      have hmain : ∀ (hne : t.levelAt 0 ≠ []),
          muMeasure (compactFinish t 0 [] (t.levelAt 0)
            (gatherOverlapsL0 (t.levelAt 0) (t.levelAt 1))) < muMeasure t := by
        intro hne
        refine muMeasure_compactFinish_lt hI hn ?_ ?_ ?_ ?_
        · show itemsOf (t.levelAt 0) = itemsOf ([] : List SSTable) +
            itemsOf (t.levelAt 0)
          show itemsOf (t.levelAt 0) = 0 + itemsOf (t.levelAt 0)
          omega
        · exact itemsOf_pos hne (hI.tablesWF 0)
        · exact fun tb h => gatherOverlapsL0_subset h
        · exact gatherOverlapsL0_ids_nodup _ _
      by_cases hc1 : (t.levelAt 0).length ≤ t.config.l0MaxSSTables ∧
          (t.levelAt 0).length > 0
      · rw [if_pos hc1, Option.some_inj] at hstep
        rw [← hstep]
        exact hmain (by
          intro hnil
          rw [hnil] at hc1
          simp at hc1)
      · rw [if_neg hc1] at hstep
        by_cases hc2 : (t.levelAt 0).length > t.config.l0MaxSSTables
        · rw [if_pos hc2, Option.some_inj] at hstep
          rw [← hstep]
          exact hmain (by
            intro hnil
            rw [hnil] at hc2
            simp at hc2)
        · rw [if_neg hc2] at hstep; cases hstep
    · rw [if_neg hn0] at hstep
      rcases hL : t.levelAt n with _ | ⟨hd, rest⟩
      · rw [hL] at hstep; cases hstep
      · rw [hL] at hstep
        simp only [Option.some_inj] at hstep
        rw [← hstep]
        have hhd : hd ∈ t.levelAt n := by rw [hL]; simp
        have hhdWF := hI.tablesWF n hd hhd
        refine muMeasure_compactFinish_lt hI hn ?_ ?_ ?_ ?_
        · rw [hL]
          show hd.data.length + itemsOf rest = itemsOf rest + itemsOf [hd]
          show hd.data.length + itemsOf rest = itemsOf rest +
            (hd.data.length + 0)
          omega
        · exact itemsOf_pos (by simp) (fun tb h => by
            rw [List.mem_singleton.mp h]; exact hhdWF)
        · intro tb h
          by_cases hcond : keyTruthy hd.minKey? ∧ keyTruthy hd.maxKey?
          · rw [if_pos hcond] at h
            exact List.mem_of_mem_filter h
          · rw [if_neg hcond] at h
            cases h
        · by_cases hcond : keyTruthy hd.minKey? ∧ keyTruthy hd.maxKey?
          · rw [if_pos hcond]
            exact (hI.idsNodup (n + 1)).sublist
              ((List.filter_sublist _).map _)
          · rw [if_neg hcond]
            simp

/-! ## The capacity invariant (C3) -/

def capOK (t : LSM) (i : Nat) : Prop :=
  (t.levelAt i).length ≤ levelCapacity t.config i

def AllOK (t : LSM) : Prop :=
  ∀ i, i + 1 < t.config.maxLevels → capOK t i

theorem overCap_false_of_capOK {t : LSM} {i : Nat} (h : capOK t i) :
    overCap t i = false := by
  unfold overCap
  simp only [gt_iff_lt, decide_eq_false_iff_not, not_lt]
  exact h

theorem capOK_of_overCap_false {t : LSM} {i : Nat} (h : overCap t i = false) :
    capOK t i := by
  unfold overCap at h
  simp only [gt_iff_lt, decide_eq_false_iff_not, not_lt] at h
  exact h

theorem capOK_congr {a b : LSM} (hl : a.levels = b.levels)
    (hc : a.config = b.config) (i : Nat) : capOK a i ↔ capOK b i := by
  unfold capOK LSM.levelAt
  rw [hl, hc]

theorem config_flush (t : LSM) : t.flushMemTable.config = t.config := by
  unfold LSM.flushMemTable
  by_cases h0 : t.memtable.data.length = 0
  · rw [if_pos h0]
  · rw [if_neg h0]

theorem config_flushIfFull (t : LSM) : t.flushIfFull.config = t.config := by
  unfold LSM.flushIfFull
  by_cases hf : t.memtable.isFull
  · rw [if_pos hf]; exact config_flush t
  · rw [if_neg hf]

theorem config_compactStep {t t' : LSM} {n : Nat}
    (h : compactStep t n = some t') : t'.config = t.config := by
  unfold compactStep at h
  by_cases hg : n + 1 ≥ t.config.maxLevels
  · rw [if_pos hg] at h; cases h
  · rw [if_neg hg] at h
    by_cases hn0 : n = 0
    · subst hn0
      rw [if_pos rfl] at h
      by_cases hc1 : (t.levelAt 0).length ≤ t.config.l0MaxSSTables ∧
          (t.levelAt 0).length > 0
      · rw [if_pos hc1, Option.some_inj] at h
        rw [← h]; rfl
      · rw [if_neg hc1] at h
        by_cases hc2 : (t.levelAt 0).length > t.config.l0MaxSSTables
        · rw [if_pos hc2, Option.some_inj] at h
          rw [← h]; rfl
        · rw [if_neg hc2] at h; cases h
    · rw [if_neg hn0] at h
      rcases hL : t.levelAt n with _ | ⟨hd, rest⟩
      · rw [hL] at h; cases h
      · rw [hL] at h
        simp only [Option.some_inj] at h
        rw [← h]; rfl

theorem config_triggerAux {comp : LSM → Nat → LSM}
    (hcomp : ∀ s n, (comp s n).config = s.config) :
    ∀ (is : List Nat) (t : LSM), (triggerAuxF comp t is).config = t.config := by
  intro is
  induction is with
  | nil => intro t; rw [triggerAuxF]
  | cons i rest ih =>
    intro t
    rw [triggerAuxF]
    by_cases hc : overCap t i
    · rw [if_pos hc, ih, hcomp]
    · rw [if_neg hc, ih]

theorem config_compactF (f : Nat) :
    ∀ (t : LSM) (n : Nat), (compactF f t n).config = t.config := by
  induction f with
  | zero => intro t n; rw [compactF]
  | succ f ih =>
    intro t n
    rw [compactF]
    rcases hstep : compactStep t n with _ | t2
    · rfl
    · rw [config_triggerAux ih]
      exact config_compactStep hstep

theorem config_trigger (t : LSM) : t.trigger.config = t.config :=
  config_triggerAux (config_compactF _) _ t

theorem compactF_noop_out (f : Nat) (t : LSM) (n : Nat)
    (h : n + 1 ≥ t.config.maxLevels) : compactF f t n = t := by
  cases f with
  | zero => rw [compactF]
  | succ f =>
    rw [compactF]
    have hnone : compactStep t n = none := by
      unfold compactStep
      rw [if_pos h]
    rw [hnone]

/-- Once every level within range is at-or-under capacity, the trigger
scan changes nothing. -/
theorem trigger_noop {comp : LSM → Nat → LSM} {t : LSM} (hA : AllOK t)
    (hout : ∀ s n, n + 1 ≥ s.config.maxLevels → comp s n = s) :
    ∀ is : List Nat, triggerAuxF comp t is = t := by
  intro is
  induction is with
  | nil => rw [triggerAuxF]
  | cons i rest ih =>
    rw [triggerAuxF]
    by_cases hi : i + 1 < t.config.maxLevels
    · rw [if_neg (show ¬ overCap t i = true by
        rw [overCap_false_of_capOK (hA i hi)]; simp), ih]
    · by_cases hov : overCap t i = true
      · rw [if_pos hov, hout t i (by omega), ih]
      · rw [if_neg hov, ih]

/-- One pass of the trigger scan: every scanned in-range level ends
at-or-under capacity, and the scan either changed nothing or the first
fired compaction already restored every level. -/
theorem capOK_scanAux {comp : LSM → Nat → LSM} (P : LSM → Prop)
    (hconfig : ∀ s n, (comp s n).config = s.config)
    (hout : ∀ s n, n + 1 ≥ s.config.maxLevels → comp s n = s)
    (hcomp : ∀ s n, Inv s → P s → overCap s n = true →
      n + 1 < s.config.maxLevels → AllOK (comp s n)) :
    ∀ (is : List Nat) (t : LSM), Inv t → P t →
      (∀ i ∈ is, i + 1 < t.config.maxLevels →
        capOK (triggerAuxF comp t is) i) ∧
      (triggerAuxF comp t is = t ∨ AllOK (triggerAuxF comp t is)) := by
  intro is
  induction is with
  | nil =>
    intro t _ _
    constructor
    · intro i hmem
      cases hmem
    · exact Or.inl (by rw [triggerAuxF])
  | cons i rest ih =>
    intro t hI hP
    rw [triggerAuxF]
    by_cases hov : overCap t i = true
    · rw [if_pos hov]
      by_cases hi : i + 1 < t.config.maxLevels
      · have hA : AllOK (comp t i) := hcomp t i hI hP hov hi
        have hnoop : triggerAuxF comp (comp t i) rest = comp t i :=
          trigger_noop hA hout rest
        rw [hnoop]
        constructor
        · intro j _ hrange
          exact hA j (by rw [hconfig]; exact hrange)
        · exact Or.inr hA
      · rw [hout t i (by omega)]
        obtain ⟨hcap, hdisj⟩ := ih t hI hP
        constructor
        · intro j hmem hrange
          rcases List.mem_cons.mp hmem with he | he
          · subst he
            exact absurd hrange hi
          · exact hcap j he hrange
        · exact hdisj
    · rw [if_neg hov]
      obtain ⟨hcap, hdisj⟩ := ih t hI hP
      constructor
      · intro j hmem hrange
        rcases List.mem_cons.mp hmem with he | he
        · subst he
          rcases hdisj with heq | hA
          · rw [heq]
            exact capOK_of_overCap_false
              (by
                rcases bool_fcases (overCap t j) with h | h
                · exact h
                · exact absurd h hov)
          · exact hA j (by rw [config_triggerAux hconfig]; exact hrange)
        · exact hcap j he hrange
      · exact hdisj

theorem mem_triggerIdxs {c : Config} {i : Nat} (h : i + 1 < c.maxLevels) :
    i ∈ triggerIdxs c := by
  unfold triggerIdxs
  rcases Nat.eq_zero_or_pos i with h0 | h0
  · subst h0; simp
  · exact List.mem_cons_of_mem _ (List.mem_range.mpr (by omega))

/-- A fired compaction with sufficient fuel restores every in-range level
to at-or-under capacity (cascading as needed). -/
theorem allOK_compactF : ∀ (f : Nat) (t : LSM) (n : Nat), Inv t →
    muMeasure t < f → overCap t n = true → n + 1 < t.config.maxLevels →
    AllOK (compactF f t n) := by
  intro f
  induction f with
  | zero =>
    intro t n _ hmu
    exact absurd hmu (by omega)
  | succ f ih =>
    intro t n hI hmu hov hn
    have hfire : ∃ t2, compactStep t n = some t2 := by
      unfold compactStep
      rw [if_neg (by omega)]
      unfold overCap at hov
      simp only [gt_iff_lt, decide_eq_true_eq] at hov
      by_cases hn0 : n = 0
      · subst hn0
        rw [if_pos rfl]
        have hcap0 : levelCapacity t.config 0 = t.config.l0MaxSSTables := by
          unfold levelCapacity
          rw [if_pos rfl]
        rw [hcap0] at hov
        rw [if_neg (by rintro ⟨h1, h2⟩; omega), if_pos (by omega)]
        exact ⟨_, rfl⟩
      · rw [if_neg hn0]
        have hcapPos : 1 ≤ levelCapacity t.config n := by
          unfold levelCapacity
          rw [if_neg hn0]
          have h1 := hI.cfgPos
          exact Nat.mul_pos (by omega) (pow_pos (by omega) n)
        rcases hL : t.levelAt n with _ | ⟨hd, rest⟩
        · rw [hL] at hov
          simp at hov
        · exact ⟨_, rfl⟩
    obtain ⟨t2, hstep⟩ := hfire
    rw [compactF, hstep]
    have hI2 := inv_compactStep hI hstep
    have hmu2 : muMeasure t2 < f := by
      have := muMeasure_compactStep_lt hI hstep
      omega
    have hscan := capOK_scanAux (fun s => muMeasure s < f)
      (config_compactF f) (compactF_noop_out f)
      (fun s m hIs hPs hovs hns => ih s m hIs hPs hovs hns)
      (triggerIdxs t2.config) t2 hI2 hmu2
    intro j hj
    have hcfg : (triggerAuxF (compactF f) t2 (triggerIdxs t2.config)).config
        = t2.config := config_triggerAux (config_compactF f) _ t2
    rw [hcfg] at hj
    exact hscan.1 j (mem_triggerIdxs hj) hj

theorem allOK_trigger {t : LSM} (hI : Inv t) : AllOK t.trigger := by
  have hscan := capOK_scanAux (fun s => muMeasure s < muMeasure t + 1)
    (config_compactF _) (compactF_noop_out _)
    (fun s m hIs hPs hovs hns =>
      allOK_compactF (muMeasure t + 1) s m hIs hPs hovs hns)
    (triggerIdxs t.config) t hI (by omega)
  intro j hj
  rw [config_trigger] at hj
  exact hscan.1 j (mem_triggerIdxs hj) hj

theorem capOK_compact {t : LSM} (hI : Inv t)
    (hpre : ∀ i, i + 1 < t.config.maxLevels → capOK t i) (n : Nat) :
    ∀ i, i + 1 < (t.compact n).config.maxLevels → capOK (t.compact n) i := by
  show ∀ i, i + 1 < (compactF (muMeasure t + 1) t n).config.maxLevels →
    capOK (compactF (muMeasure t + 1) t n) i
  rcases hstep : compactStep t n with _ | t2
  · rw [compactF, hstep]
    exact hpre
  · rw [compactF, hstep]
    intro j hj
    have hI2 := inv_compactStep hI hstep
    have hmu2 : muMeasure t2 < muMeasure t := muMeasure_compactStep_lt hI hstep
    have hscan := capOK_scanAux (fun s => muMeasure s < muMeasure t)
      (config_compactF _) (compactF_noop_out _)
      (fun s m hIs hPs hovs hns =>
        allOK_compactF (muMeasure t) s m hIs hPs hovs hns)
      (triggerIdxs t2.config) t2 hI2 hmu2
    have hcfg : (triggerAuxF (compactF (muMeasure t)) t2
        (triggerIdxs t2.config)).config = t2.config :=
      config_triggerAux (config_compactF _) _ t2
    rw [hcfg] at hj
    exact hscan.1 j (mem_triggerIdxs hj) hj

theorem getR_state_fields (t : LSM) (q : String) :
    (t.getR q).2.2.levels = t.levels ∧ (t.getR q).2.2.config = t.config := by
  unfold LSM.getR
  by_cases hq : q = ""
  · rw [if_pos hq]; exact ⟨rfl, rfl⟩
  · rw [if_neg hq]
    rcases hm : t.memtable.get q with _ | v
    · exact ⟨rfl, rfl⟩
    · show ((if v = TOMBSTONE then
          ((some TOMBSTONE : Option String),
            [(⟨ProbeTarget.memtable, ProbeStatus.foundTombstone⟩ : ProbeStep)],
            t.getBump 0)
        else (some v,
            [(⟨ProbeTarget.memtable, ProbeStatus.found⟩ : ProbeStep)],
            t.getBump 0)).2.2.levels = t.levels ∧
        (if v = TOMBSTONE then
          ((some TOMBSTONE : Option String),
            [(⟨ProbeTarget.memtable, ProbeStatus.foundTombstone⟩ : ProbeStep)],
            t.getBump 0)
        else (some v,
            [(⟨ProbeTarget.memtable, ProbeStatus.found⟩ : ProbeStep)],
            t.getBump 0)).2.2.config = t.config)
      by_cases hv : v = TOMBSTONE
      · rw [if_pos hv]; exact ⟨rfl, rfl⟩
      · rw [if_neg hv]; exact ⟨rfl, rfl⟩

theorem config_put (t : LSM) (k v : String) : (t.put k v).config = t.config := by
  unfold LSM.put LSM.putR
  by_cases hk : k = ""
  · rw [if_pos hk]
  · rw [if_neg hk]
    by_cases hf1 : t.flushIfFull.memtable.isFull
    · rw [if_pos hf1]
      exact config_flushIfFull t
    · rw [if_neg hf1]
      show ((t.flushIfFull.applyWrite k v).flushIfFull).trigger.config = t.config
      rw [config_trigger, config_flushIfFull]
      show (t.flushIfFull).config = t.config
      exact config_flushIfFull t

/-- Every reachable state keeps every level up to `maxLevels - 2` at or
under its configured capacity. -/
theorem allOK_reach {t : LSM} (h : Reach t) :
    ∀ i, i + 1 < t.config.maxLevels → capOK t i := by
  induction h with
  | init c =>
    intro i _
    show capOK (LSM.init c) i
    unfold capOK
    rw [levelAt_init]
    simp
  | put t k v hr ih =>
    have hI := reach_inv hr
    intro i hi
    rw [config_put] at hi
    by_cases hk : k = ""
    · have heq : t.put k v = t := by
        unfold LSM.put LSM.putR
        rw [if_pos hk]
      rw [heq]
      exact ih i hi
    · have hmax : 1 ≤ t.memtable.maxSize := by
        rw [hI.mtMax]; exact hI.cfgPos.1
      have hput : t.put k v =
          ((t.flushIfFull.applyWrite k v).flushIfFull).trigger := by
        unfold LSM.put LSM.putR
        rw [if_neg hk, flushIfFull_not_full hmax, if_neg Bool.false_ne_true]
      rw [hput]
      have hI3 : Inv ((t.flushIfFull.applyWrite k v).flushIfFull) :=
        inv_flushIfFull (inv_applyWrite (inv_flushIfFull hI) hk v)
      refine allOK_trigger hI3 i ?_
      rw [config_trigger, config_flushIfFull]
      show i + 1 < (t.flushIfFull).config.maxLevels
      rw [config_flushIfFull]
      exact hi
  | del t k hr ih =>
    have hI := reach_inv hr
    intro i hi
    show capOK (t.put k TOMBSTONE) i
    have hcfg : (t.delete k).config = t.config := config_put t k TOMBSTONE
    rw [hcfg] at hi
    by_cases hk : k = ""
    · have heq : t.put k TOMBSTONE = t := by
        unfold LSM.put LSM.putR
        rw [if_pos hk]
      rw [heq]
      exact ih i hi
    · have hmax : 1 ≤ t.memtable.maxSize := by
        rw [hI.mtMax]; exact hI.cfgPos.1
      have hput : t.put k TOMBSTONE =
          ((t.flushIfFull.applyWrite k TOMBSTONE).flushIfFull).trigger := by
        unfold LSM.put LSM.putR
        rw [if_neg hk, flushIfFull_not_full hmax, if_neg Bool.false_ne_true]
      rw [hput]
      have hI3 : Inv ((t.flushIfFull.applyWrite k TOMBSTONE).flushIfFull) :=
        inv_flushIfFull (inv_applyWrite (inv_flushIfFull hI) hk TOMBSTONE)
      refine allOK_trigger hI3 i ?_
      rw [config_trigger, config_flushIfFull]
      show i + 1 < (t.flushIfFull).config.maxLevels
      rw [config_flushIfFull]
      exact hi
  | get t k hr ih =>
    intro i hi
    obtain ⟨hl, hc⟩ := getR_state_fields t k
    rw [capOK_congr hl hc i]
    rw [hc] at hi
    exact ih i hi
  | compact t n hr ih =>
    intro i hi
    exact capOK_compact (reach_inv hr) ih n i hi
  | reset t c hr ih =>
    intro i _
    show capOK (t.reset c) i
    unfold capOK
    rw [levelAt_reset]
    simp

/-! ## Claims C4, C6, C8, C9, C10 -/

/-- C4: for every reachable state whose configuration has
`memtableMaxSize ≥ 1` and every non-empty key, neither `put` nor `delete`
ever takes the `WriteRejected` branch — the pre-write flush of a full
buffer always empties it — so the write is applied and `logicalWrites`
grows by exactly 1. -/
theorem put_delete_never_rejected {t : LSM} (h : Reach t)
    (hm : 1 ≤ t.config.memtableMaxSize) {k : String} (hk : k ≠ "")
    (v : String) :
    (t.putR k v).2 = WriteOutcome.ok ∧
    (t.putR k v).1.metrics.logicalWrites = t.metrics.logicalWrites + 1 ∧
    (t.deleteR k).2 = WriteOutcome.ok ∧
    (t.deleteR k).1.metrics.logicalWrites = t.metrics.logicalWrites + 1 := by
  have hI := reach_inv h
  have hmax : 1 ≤ t.memtable.maxSize := by rw [hI.mtMax]; exact hm
  have ht1 : t.flushIfFull.memtable.isFull = false := by
    unfold LSM.flushIfFull
    by_cases hf : t.memtable.isFull
    · rw [if_pos hf]; exact flush_not_full hmax
    · rw [if_neg hf]
      exact Bool.eq_false_iff.mpr hf
  have hmain : ∀ w : String, (t.putR k w).2 = WriteOutcome.ok ∧
      (t.putR k w).1.metrics.logicalWrites = t.metrics.logicalWrites + 1 := by
    intro w
    unfold LSM.putR
    rw [if_neg hk, ht1, if_neg Bool.false_ne_true]
    refine ⟨rfl, ?_⟩
    show ((t.flushIfFull.applyWrite k w).flushIfFull).trigger.metrics.logicalWrites
      = t.metrics.logicalWrites + 1
    rw [trigger_logicalWrites, flushIfFull_logicalWrites]
    show t.flushIfFull.metrics.logicalWrites + 1 = t.metrics.logicalWrites + 1
    rw [flushIfFull_logicalWrites]
  exact ⟨(hmain v).1, (hmain v).2, (hmain TOMBSTONE).1, (hmain TOMBSTONE).2⟩

/-- Witness for C4 at a freshly initialized default engine. -/
theorem put_delete_never_rejected_witness :
    ((LSM.init {}).putR "a" "1").2 = WriteOutcome.ok ∧
    ((LSM.init {}).putR "a" "1").1.metrics.logicalWrites =
      (LSM.init {}).metrics.logicalWrites + 1 ∧
    ((LSM.init {}).deleteR "a").2 = WriteOutcome.ok ∧
    ((LSM.init {}).deleteR "a").1.metrics.logicalWrites =
      (LSM.init {}).metrics.logicalWrites + 1 :=
  put_delete_never_rejected (Reach.init {}) (by decide) (by decide) "1"

/-- C6: in every reachable state, every run's `get` — the binary search —
returns exactly the value stored with the key when the run contains the
key, and absent otherwise. -/
theorem sstable_get_correct {t : LSM} (h : Reach t) {i : Nat} {tb : SSTable}
    (htb : tb ∈ t.levelAt i) (k : String) :
    (∀ v, tb.get k = some v ↔ (k, v) ∈ tb.data) ∧
    (tb.get k = none ↔ k ∉ tb.data.map Prod.fst) := by
  have hWF := (reach_inv h).tablesWF i tb htb
  have heq : tb.get k = findVal k tb.data :=
    sstableGet_eq_findVal hWF.sorted k
  constructor
  · intro v
    rw [heq]
    exact findVal_eq_some_iff hWF.sorted.nodupKeys
  · rw [heq]
    exact findVal_eq_none_iff

/-- Witness for C6 on the run produced by one flushed write. -/
theorem sstable_get_correct_witness :
    ((⟨0, 0, [("a", "1")]⟩ : SSTable).get "a" = some "1" ↔
      ("a", "1") ∈ [(("a", "1") : Entry)]) ∧
    ((⟨0, 0, [("a", "1")]⟩ : SSTable).get "b" = none ↔
      "b" ∉ [(("a", "1") : Entry)].map Prod.fst) := by
  have hmem : (⟨0, 0, [("a", "1")]⟩ : SSTable) ∈
      ((LSM.init { memtableMaxSize := some 1 }).put "a" "1").levelAt 0 := by
    decide
  have h1 := sstable_get_correct
    (Reach.put _ "a" "1" (Reach.init { memtableMaxSize := some 1 })) hmem "a"
  have h2 := sstable_get_correct
    (Reach.put _ "a" "1" (Reach.init { memtableMaxSize := some 1 })) hmem "b"
  exact ⟨h1.1 "1", h2.2⟩

/-- C8 (amended): the public `compact(level)` completes without throwing
for every level ≥ 0; for negative levels the JS implementation throws a
TypeError (see the counterexample), modelled here by `compactI = none`. -/
theorem compactI_total_nonneg {t : LSM} (_h : Reach t) (l : Int)
    (hl : 0 ≤ l) : (t.compactI l).isSome = true := by
  unfold LSM.compactI
  by_cases h1 : l ≥ (t.config.maxLevels : Int) - 1
  · rw [if_pos h1]; rfl
  · rw [if_neg h1, if_neg (by omega)]; rfl

/-- Witness for C8's amended theorem on a fresh default engine. -/
theorem compactI_total_nonneg_witness :
    ((LSM.init {}).compactI 0).isSome = true :=
  compactI_total_nonneg (Reach.init {}) 0 (by decide)

/-- C8 counterexample: `compact(-1)` on a freshly initialized engine
reaches `this.levels[-1].length` where `this.levels[-1]` is `undefined`,
so it throws instead of running to completion (modelled as `none`). -/
theorem compactI_neg_throws : (LSM.init {}).compactI (-1) = none := by
  unfold LSM.compactI
  rw [if_neg (by decide), if_pos (by decide)]

/-- C9: `put`, `delete` and `get` with an empty key abort without touching
the write buffer, the levels, or any metric counter, and `get` returns
absent with an empty probe path.  (The activity log, which the spec allows
to change, is not part of the modelled state.) -/
theorem empty_key_noop (t : LSM) (v : String) :
    (t.putR "" v).1 = t ∧ (t.putR "" v).2 = WriteOutcome.invalidKey ∧
    (t.deleteR "").1 = t ∧ (t.deleteR "").2 = WriteOutcome.invalidKey ∧
    (t.getR "").1 = none ∧ (t.getR "").2.1 = [] ∧ (t.getR "").2.2 = t := by
  have hput : t.putR "" v = (t, WriteOutcome.invalidKey) := by
    unfold LSM.putR
    rw [if_pos rfl]
  have hdel : t.deleteR "" = (t, WriteOutcome.invalidKey) := by
    unfold LSM.deleteR LSM.putR
    rw [if_pos rfl]
  have hget : t.getR "" = (none, [], t) := by
    unfold LSM.getR
    rw [if_pos rfl]
  rw [hput, hdel, hget]
  exact ⟨rfl, rfl, rfl, rfl, rfl, rfl, rfl⟩

/-- C10: in every reachable state, every run stored at level index `i`
carries `level = i`, so the merge comparator's level-based recency order
agrees with actual placement. -/
theorem level_tag_matches_index {t : LSM} (h : Reach t) (i : Nat) :
    ∀ tb ∈ t.levelAt i, tb.level = i :=
  (reach_inv h).tags i

/-- Witness for C10: the run flushed by one put sits in level 0 with
`level = 0`. -/
theorem level_tag_matches_index_witness :
    (⟨0, 0, [("a", "1")]⟩ : SSTable).level = 0 :=
  level_tag_matches_index
    (Reach.put _ "a" "1" (Reach.init { memtableMaxSize := some 1 })) 0
    ⟨0, 0, [("a", "1")]⟩ (by decide)

/-! ## Claims C1, C2, C5, C7 -/

/-- C1 (amended): for every compaction of level `n` and every key whose
winning value in the merge set is TOMBSTONE, the entry is kept in the
compaction output iff `n < maxLevels - 2`; in particular it is dropped
when `n ≥ maxLevels - 2` — the converse of the spec's stated predicate. -/
theorem tombstone_kept_iff {c : Config} {n : Nat} {src ovl : List SSTable}
    {k : String}
    (h : findVal k (mergeTables (sortLe tableLeB (src ++ ovl)))
      = some TOMBSTONE) :
    findVal k (compactOutput c n src ovl) =
      if n < c.maxLevels - 2 then some TOMBSTONE else none := by
  have hcf := compactOutput_findVal c n src ovl k
  rw [h] at hcf
  have hcf2 : findVal k (compactOutput c n src ovl) =
      if keepEntry c n (k, TOMBSTONE) = true then some TOMBSTONE
      else none := hcf
  have hk : keepEntry c n (k, TOMBSTONE) = decide (n < c.maxLevels - 2) := by
    unfold keepEntry
    simp
  rw [hk] at hcf2
  rw [hcf2]
  by_cases hlt : n < c.maxLevels - 2
  · rw [if_pos (decide_eq_true hlt), if_pos hlt]
  · rw [if_neg (fun hc => hlt (of_decide_eq_true hc)), if_neg hlt]

/-- Witness for C1's amended theorem: a single-run level-0 merge whose
winner for "x" is a tombstone, compacted under the default five-level
configuration (kept, since 0 < 5 - 2). -/
theorem tombstone_kept_iff_witness :
    findVal "x" (mergeTables (sortLe tableLeB
      ([(⟨0, 0, [("x", TOMBSTONE)]⟩ : SSTable)] ++ []))) = some TOMBSTONE ∧
    findVal "x" (compactOutput (LSM.init {}).config 0
      [⟨0, 0, [("x", TOMBSTONE)]⟩] []) =
      if 0 < (LSM.init {}).config.maxLevels - 2 then some TOMBSTONE
      else none :=
  ⟨by decide, tombstone_kept_iff (by decide)⟩

/-- C1 counterexample: with `maxLevels = 2`, compacting level 0 satisfies
the spec's keep-condition `levelToCompact ≥ maxLevels - 2`, yet the
winning tombstone for "x" is dropped from the output — and end to end,
after put "x", delete "x", compact 0, the key is simply absent. -/
theorem tombstone_kept_iff_counterexample :
    (LSM.init { maxLevels := some 2 }).config.maxLevels - 2 ≤ 0 ∧
    findVal "x" (mergeTables (sortLe tableLeB
      ([(⟨0, 0, [("x", TOMBSTONE)]⟩ : SSTable)] ++ []))) = some TOMBSTONE ∧
    findVal "x" (compactOutput (LSM.init { maxLevels := some 2 }).config 0
      [⟨0, 0, [("x", TOMBSTONE)]⟩] []) = none ∧
    ((((LSM.init { memtableMaxSize := some 1, maxLevels := some 2 }).put
      "x" "1").delete "x").compact 0).getValue "x" = none := by
  refine ⟨by decide, by decide, by decide, by decide⟩

/-- C2 (amended): last write wins for every non-tombstone value: after
put(k, v1), any operations not writing k, then put(k, v2) with
v2 ≠ "__DELETED__", and any further operations not writing k — including
arbitrary flushes and compactions — get(k) returns v2.  For
v2 = "__DELETED__" the claim fails (see the counterexample): a compaction
into the last level drops the entry. -/
theorem last_write_wins {t : LSM} (h : Reach t) {k : String} (hk : k ≠ "")
    (v1 : String) {v2 : String} (hv2 : v2 ≠ TOMBSTONE)
    (mid post : List Op)
    (_hmid : ∀ o ∈ mid, o.writesKey k = false)
    (hpost : ∀ o ∈ post, o.writesKey k = false) :
    ((applyOps ((applyOps (t.put k v1) mid).put k v2) post).getR k).1
      = some v2 := by
  have h1 : Reach (t.put k v1) := Reach.put t k v1 h
  have h2 : Reach (applyOps (t.put k v1) mid) := reach_applyOps h1 mid
  have h3 : Reach ((applyOps (t.put k v1) mid).put k v2) :=
    Reach.put _ k v2 h2
  have h4 : Reach (applyOps ((applyOps (t.put k v1) mid).put k v2) post) :=
    reach_applyOps h3 post
  have htop2 : keyTop ((applyOps (t.put k v1) mid).put k v2) k = some v2 :=
    keyTop_putR_self (reach_inv h2) hk hv2
  rw [getR_value_eq_getValue, getValue_eq_keyTop (reach_inv h4) hk]
  exact keyTop_applyOps hv2 post _ h3 hpost htop2

/-- Witness for C2's amended theorem: put "a" 1, delete another key,
put "a" 2, compact and read again — the read returns 2. -/
theorem last_write_wins_witness :
    ((applyOps ((applyOps ((LSM.init {}).put "a" "1") [Op.del "b"]).put "a"
      "2") [Op.compact 0, Op.get "a"]).getR "a").1 = some "2" :=
  last_write_wins (Reach.init {}) (show ("a" : String) ≠ "" by decide) "1"
    (show ("2" : String) ≠ TOMBSTONE by decide) [Op.del "b"]
    [Op.compact 0, Op.get "a"] (by decide) (by decide)

/-- C2 counterexample: v2 = "__DELETED__" is a value the write path
accepts, yet after a compaction of level 0 (which writes no key) the
subsequent get returns absent, not v2. -/
theorem last_write_wins_counterexample :
    (∀ o ∈ [Op.compact 0], Op.writesKey "k" o = false) ∧
    ((applyOps ((applyOps ((LSM.init
        { memtableMaxSize := some 1, maxLevels := some 2 }).put "k" "1")
        []).put "k" TOMBSTONE)
      [Op.compact 0]).getR "k").1 = none := by
  refine ⟨by decide, by decide⟩

/-- C3: after every public operation (put, delete, get, compact, reset),
for every level index i with 0 ≤ i ≤ maxLevels - 2 (equivalently
i + 1 < maxLevels), the number of runs stored at level i is at most its
configured capacity — l0MaxSSTables for i = 0 and
l0MaxSSTables * levelMaxSSTablesFactor ^ i for i ≥ 1 — because the
(possibly cascading) compaction trigger restores every such level before
the call returns. -/
theorem capacity_restored {t : LSM} (h : Reach t) {i : Nat}
    (hi : i + 1 < t.config.maxLevels) :
    (t.levelAt i).length ≤ levelCapacity t.config i :=
  allOK_reach h i hi

/-- Witness for C3 at a state whose fourth flushed run pushed level 0 over
capacity and triggered a compaction. -/
theorem capacity_restored_witness :
    0 + 1 < (((((LSM.init { memtableMaxSize := some 1 }).put "a" "1").put
      "b" "2").put "c" "3").put "d" "4").config.maxLevels ∧
    ((((((LSM.init { memtableMaxSize := some 1 }).put "a" "1").put
      "b" "2").put "c" "3").put "d" "4").levelAt 0).length ≤
      levelCapacity (((((LSM.init { memtableMaxSize := some 1 }).put "a"
        "1").put "b" "2").put "c" "3").put "d" "4").config 0 :=
  ⟨by decide, capacity_restored
    (Reach.put _ "d" "4" (Reach.put _ "c" "3" (Reach.put _ "b" "2"
      (Reach.put _ "a" "1" (Reach.init { memtableMaxSize := some 1 })))))
    (by decide)⟩

/-- C5: in every reachable state and for every key, the skip-optimized
read path and the always-probe read path return the same value — the
range-skip test only prunes runs that cannot contain the key. -/
theorem skip_equiv_noskip {t : LSM} (h : Reach t) (k : String) :
    t.getValue k = t.getValueNoSkip k := by
  by_cases hk : k = ""
  · subst hk
    unfold LSM.getValue LSM.getValueNoSkip
    rw [if_pos rfl, if_pos rfl]
  · rw [getValue_eq_keyTop (reach_inv h) hk,
      getValueNoSkip_eq_keyTop (reach_inv h) hk]

/-- Witness for C5 on a state with one flushed run. -/
theorem skip_equiv_noskip_witness :
    ((LSM.init { memtableMaxSize := some 1 }).put "a" "1").getValue "a" =
      ((LSM.init { memtableMaxSize := some 1 }).put "a" "1").getValueNoSkip
        "a" :=
  skip_equiv_noskip
    (Reach.put _ "a" "1" (Reach.init { memtableMaxSize := some 1 })) "a"

/-- C7 (amended): for every user value v other than the reserved string
"__DELETED__" itself, after put(k, v) and any further operations that do
not write k, get(k) returns v as a live value, never reported deleted.
The sentinel is not distinct from user-suppliable values — see the
counterexample. -/
theorem tombstone_reserved {t : LSM} (h : Reach t) {k : String} (hk : k ≠ "")
    {v : String} (hv : v ≠ TOMBSTONE) (ops : List Op)
    (hops : ∀ o ∈ ops, o.writesKey k = false) :
    ((applyOps (t.put k v) ops).getR k).1 = some v ∧ v ≠ TOMBSTONE := by
  refine ⟨?_, hv⟩
  have h1 : Reach (t.put k v) := Reach.put t k v h
  have htop : keyTop (t.put k v) k = some v :=
    keyTop_putR_self (reach_inv h) hk hv
  rw [getR_value_eq_getValue,
    getValue_eq_keyTop (reach_inv (reach_applyOps h1 ops)) hk]
  exact keyTop_applyOps hv ops _ h1 hops htop

/-- Witness for C7's amended theorem. -/
theorem tombstone_reserved_witness :
    ((applyOps ((LSM.init {}).put "a" "1") [Op.get "a"]).getR "a").1
      = some "1" ∧ ("1" : String) ≠ TOMBSTONE :=
  tombstone_reserved (Reach.init {}) (show ("a" : String) ≠ "" by decide)
    (show ("1" : String) ≠ TOMBSTONE by decide) [Op.get "a"] (by decide)

/-- C7 counterexample: put accepts the sentinel string itself as a value,
and the read then reports the key as deleted (a tombstone probe step)
rather than returning a live value. -/
theorem tombstone_reserved_counterexample :
    ((LSM.init {}).putR "a" TOMBSTONE).2 = WriteOutcome.ok ∧
    (((LSM.init {}).put "a" TOMBSTONE).getR "a").1 = some TOMBSTONE ∧
    (((LSM.init {}).put "a" TOMBSTONE).getR "a").2.1 =
      [⟨ProbeTarget.memtable, ProbeStatus.foundTombstone⟩] := by
  refine ⟨by decide, by decide, by decide⟩

end LSMV
